import Mathlib

/-!
# nnwcli: the argument-line tokenizer and its escape decoder

A shallow embedding of `src/src/parser/argline_parser.cpp` (with the helpers it
calls from `src/src/util/`), followed by theorems about it.

Conventions of the embedding:

* a `std::string` is a `List Nat` of byte values; `s[i]` is `charAt s i`, which
  yields the terminating NUL (0) at `i = s.size()` exactly as `operator[]` and
  `c_str()` do;
* a `char` written with `push_back(value)` keeps `value % 256`;
* `std::string::npos` as a *search result* is `none`;
* a C++ exception is an `Error`; a member function that mutates the parser and
  may throw returns the parser state it leaves behind together with the
  outcome;
* every `for` loop is a recursive function over an explicit fuel argument that
  the calling function sets to the number of characters left, which bounds the
  number of iterations because every iteration advances the index.
-/

namespace nnwcli

/-- A byte string (`std::string`). -/
abbrev Str := List Nat

/-- The exceptions thrown inside the library. -/
inductive Error where
  | unclosed_quote
  | not_enough_arguments
  | too_many_arguments
  | unknown_custom_type
  | unexpected_escape_character (m_pos : Nat)
  | invalid_escape_format
  | invalid_argument
  | out_of_range
  | unicode_too_short
  deriving DecidableEq, Repr

abbrev __single_quote : Nat := 39
abbrev __double_quote : Nat := 34
abbrev __escape : Nat := 92
abbrev __whitespace : Nat := 32

/-- The character `s[i]`; NUL at and beyond the end (the source never reads
beyond `s[s.size()]`). -/
def charAt (s : Str) (i : Nat) : Nat := s.getD i 0

/-- The string `s.substr(pos, len)` for `pos ≤ s.size()`. -/
def substr (s : Str) (pos len : Nat) : Str := (s.drop pos).take len

/-! ## util/string_case.cpp -/

/-- The function `std::tolower` on an `unsigned char` in the "C" locale. -/
def tolower (c : Nat) : Nat := if 65 ≤ c ∧ c ≤ 90 then c + 32 else c

/-- Lowercases every character: `make_lowercase`. -/
def make_lowercase (str : Str) : Str := str.map tolower

/-! ## util/utf8.cpp -/

/-- The bytes `utf8_write_octets` stores in `out[0 .. n-1]`, `n` being its
return value (so the list has length 0 when the function returns 0). -/
def utf8_write_octets (value : Nat) : Str :=
  if value < 0x80 then
    [value % 256]
  else if 0x80 ≤ value ∧ value < 0x800 then
    [(0b11000000 ||| ((value >>> 6) &&& 0b00011111)) % 256,
     (0b10000000 ||| ((value >>> 0) &&& 0b00111111)) % 256]
  else if 0x800 ≤ value ∧ value < 0x00010000 then
    [(0b11100000 ||| ((value >>> 12) &&& 0b00001111)) % 256,
     (0b10000000 ||| ((value >>> 6) &&& 0b00111111)) % 256,
     (0b10000000 ||| ((value >>> 0) &&& 0b00111111)) % 256]
  else if 0x00010000 ≤ value ∧ value ≤ 0x0010FFFF then
    [(0b11110000 ||| ((value >>> 18) &&& 0b00000111)) % 256,
     (0b10000000 ||| ((value >>> 12) &&& 0b00111111)) % 256,
     (0b10000000 ||| ((value >>> 6) &&& 0b00111111)) % 256,
     (0b10000000 ||| ((value >>> 0) &&& 0b00111111)) % 256]
  else
    []

/-! ## The standard library's `std::stoul`

`std::stoul(str, nullptr, base)` calls `strtoul` on `str.c_str()`: leading
white space is skipped, one sign is accepted, base 16 accepts a `0x` prefix,
then the longest run of digits of the base is converted; what follows the run
(a NUL included) is ignored.  No digit at all raises `std::invalid_argument`, a
value above `ULONG_MAX` raises `std::out_of_range`, and a minus sign negates the
value modulo `2^64`. -/

/-- The predicate `isspace` of the "C" locale. -/
def isspace (c : Nat) : Bool := c = 32 || (9 ≤ c && c ≤ 13)

/-- The value of a character as a digit, for bases up to 36. -/
def digit_value (c : Nat) : Option Nat :=
  if 48 ≤ c ∧ c ≤ 57 then some (c - 48)
  else if 97 ≤ c ∧ c ≤ 122 then some (c - 97 + 10)
  else if 65 ≤ c ∧ c ≤ 90 then some (c - 65 + 10)
  else none

/-- Whether `c` is a digit of the base. -/
def is_digit_of (base c : Nat) : Bool :=
  match digit_value c with
  | some d => decide (d < base)
  | none => false

/-- The digit values of the longest prefix of `s` made of digits of `base`. -/
def take_digits (base : Nat) : Str → List Nat
  | [] => []
  | c :: cs =>
    match digit_value c with
    | some d => if d < base then d :: take_digits base cs else []
    | none => []

/-- The number written by a list of digit values, most significant first. -/
def digits_value (base : Nat) (ds : List Nat) : Nat :=
  ds.foldl (fun acc d => acc * base + d) 0

/-- The string without its leading white space. -/
def skip_spaces : Str → Str
  | [] => []
  | c :: cs => if isspace c then skip_spaces cs else c :: cs

/-- The conversion after white space and sign: prefix, digits, range check. -/
def stoul_digits (s : Str) (base : Nat) (negative : Bool) : Except Error Nat :=
  let body : Str :=
    match s with
    | 48 :: x :: h :: rest =>
      if base = 16 ∧ (x = 120 ∨ x = 88) ∧ is_digit_of 16 h then h :: rest else s
    | _ => s
  let ds := take_digits base body
  if ds = [] then .error .invalid_argument
  else
    let v := digits_value base ds
    if 2 ^ 64 ≤ v then .error .out_of_range
    else .ok (if negative then (2 ^ 64 - v) % 2 ^ 64 else v)

/-- The function `std::stoul(str, nullptr, base)`. -/
def stoul (str : Str) (base : Nat) : Except Error Nat :=
  match skip_spaces str with
  | 45 :: rest => stoul_digits rest base true
  | 43 :: rest => stoul_digits rest base false
  | rest => stoul_digits rest base false

/-! ## parser/argline_parser.cpp: the static helpers -/

/-- The `for` loop of `_find_unescaped_quote`: `i++; continue;` advances the
index by two. -/
def _find_unescaped_quote_loop (argline : Str) (quote : Nat) : Nat → Nat → Except Error Nat
  | 0, _ => .error .unclosed_quote
  | fuel + 1, i =>
    if i < argline.length then
      if charAt argline (i - 1) = __escape ∧ (i < 2 ∨ charAt argline (i - 2) ≠ __escape) then
        _find_unescaped_quote_loop argline quote fuel (i + 2)
      else if charAt argline i = quote then
        .ok i
      else
        _find_unescaped_quote_loop argline quote fuel (i + 1)
    else
      .error .unclosed_quote

/-- The function `ArglineParser::_find_unescaped_quote` (the `assert` that
`argline[start]` is a quote is the caller's obligation). -/
def _find_unescaped_quote (argline : Str) (start : Nat) : Except Error Nat :=
  let quote := charAt argline start
  if argline.length ≤ start + 1 then
    .error .unclosed_quote
  else
    _find_unescaped_quote_loop argline quote (argline.length - (start + 1)) (start + 1)

/-- What `_find_unescaped_whitespace` does once its loop is left at index `i`. -/
def _find_unescaped_whitespace_exit (argline : Str) (i : Nat) : Except Error (Option Nat) :=
  if charAt argline (i - 1) = __escape then
    .error (.unexpected_escape_character i)
  else
    .ok none

/-- The `for` loop of `_find_unescaped_whitespace`, with what follows it. -/
def _find_unescaped_whitespace_loop (argline : Str) : Nat → Nat → Except Error (Option Nat)
  | 0, i => _find_unescaped_whitespace_exit argline i
  | fuel + 1, i =>
    if i < argline.length then
      if 1 ≤ i ∧ charAt argline (i - 1) = __escape ∧
          (i < 2 ∨ charAt argline (i - 2) ≠ __escape) then
        _find_unescaped_whitespace_loop argline fuel (i + 2)
      else if charAt argline i = __whitespace then
        .ok (some i)
      else
        _find_unescaped_whitespace_loop argline fuel (i + 1)
    else
      _find_unescaped_whitespace_exit argline i

/-- The function `ArglineParser::_find_unescaped_whitespace`; `none` is
`std::string::npos`.  (The source reads `argline[i - 1]` after the loop, which is
only defined when the loop ran over a non-empty buffer, as it does for every
call made by `parse_string`.) -/
def _find_unescaped_whitespace (argline : Str) (i : Nat) : Except Error (Option Nat) :=
  _find_unescaped_whitespace_loop argline (argline.length - i) i

/-- The function `ArglineParser::_interpret_escape_into`: `seq` is the text
after the backslash, `n` the length the caller passes.  The result is the new
`out` and the returned count; `out` is untouched when the function throws. -/
def _interpret_escape_into (out : Str) (n : Nat) (seq : Str) : Except Error (Str × Nat) :=
  if n = 0 then .ok (out, 0)
  else
    let c := charAt seq 0
    if c = 32 then .ok (out ++ [32], 1)
    else if c = 34 then .ok (out ++ [34], 1)
    else if c = 39 then .ok (out ++ [39], 1)
    else if c = 63 then .ok (out ++ [63], 1)
    else if c = 92 then .ok (out ++ [92], 1)
    else if c = 97 then .ok (out ++ [7], 1)
    else if c = 98 then .ok (out ++ [8], 1)
    else if c = 102 then .ok (out ++ [12], 1)
    else if c = 110 then .ok (out ++ [10], 1)
    else if c = 114 then .ok (out ++ [13], 1)
    else if c = 116 then .ok (out ++ [9], 1)
    else if c = 118 then .ok (out ++ [11], 1)
    else if c = 120 then
      if n < 3 then .error .invalid_escape_format
      else
        let raw_value := make_lowercase [charAt seq 1, charAt seq 2]
        match stoul raw_value 16 with
        | .error e => .error e
        | .ok value => .ok (out ++ [value % 256], 3)
    else if c = 117 then
      if n < 5 then .error .invalid_escape_format
      else
        let raw_value := make_lowercase [charAt seq 1, charAt seq 2, charAt seq 3, charAt seq 4]
        match stoul raw_value 16 with
        | .error e => .error e
        | .ok value => .ok (out ++ utf8_write_octets (value % 2 ^ 32), 5)
    else
      if n < 4 then .error .invalid_escape_format
      else
        let raw_value := [charAt seq 1, charAt seq 2, charAt seq 3]
        match stoul raw_value 8 with
        | .error .invalid_argument => .error .invalid_escape_format
        | .error e => .error e
        | .ok value => .ok (out ++ [value % 256], 4)

/-- The `for` loop of `_unescape_into`.  The result is the content of `out` when
the loop is left and the exception that left it, if any. -/
def _unescape_into_loop (inp : Str) : Nat → Nat → Str → Str × Option Error
  | 0, _, out => (out, none)
  | fuel + 1, i, out =>
    if i < inp.length then
      if charAt inp i = __escape then
        if i = inp.length - 1 then
          (out, some (.unexpected_escape_character i))
        else
          match _interpret_escape_into out (inp.length - i) (inp.drop (i + 1)) with
          | .error e => (out, some e)
          | .ok (out1, k) => _unescape_into_loop inp fuel (i + k + 1) out1
      else
        _unescape_into_loop inp fuel (i + 1) (out ++ [charAt inp i])
    else
      (out, none)

/-- The function `ArglineParser::_unescape_into`: `out` is cleared first, so the
result does not depend on its former content. -/
def _unescape_into (inp : Str) (i : Nat) : Str × Option Error :=
  _unescape_into_loop inp (inp.length - i) i []

/-! ## parser/argline_parser.cpp: the cursor -/

/-- The state of an `ArglineParser`: the buffer and the two positions inherited
from `AbstractParser`. -/
structure ArglineParser where
  m_argline : Str
  m_pos : Nat
  m_argument_pos : Nat
  deriving DecidableEq, Repr

/-- The value of `std::string::npos` as a position. -/
def npos : Nat := 2 ^ 64 - 1

/-- Scans a list for the first element different from `c`, counting from `i`. -/
def find_first_not_of_from (c : Nat) : Str → Nat → Option Nat
  | [], _ => none
  | x :: xs, i => if x ≠ c then some i else find_first_not_of_from c xs (i + 1)

/-- The function `std::string::find_first_not_of(c, pos)`; `none` is `npos`. -/
def find_first_not_of (s : Str) (c pos : Nat) : Option Nat :=
  find_first_not_of_from c (s.drop pos) pos

/-- What a parse operation leaves behind: the parser, the output variable and
either the returned `bool` or the exception thrown. -/
structure Outcome (α : Type) where
  parser : ArglineParser
  out : α
  result : Except Error Bool

namespace ArglineParser

/-- The constructor `ArglineParser(argline, pos)`. -/
def create (argline : Str) (pos : Nat) : ArglineParser :=
  { m_argline := argline, m_pos := pos, m_argument_pos := 0 }

/-- The function `ArglineParser::exhausted`. -/
def exhausted (p : ArglineParser) : Bool :=
  p.m_pos = npos || p.m_pos ≥ p.m_argline.length

/-- The function `ArglineParser::_next`. -/
def _next (p : ArglineParser) : ArglineParser :=
  if p.exhausted then p
  else
    match find_first_not_of p.m_argline 32 p.m_pos with
    | some k => { p with m_pos := min k p.m_argline.length }
    | none => { p with m_pos := p.m_argline.length }

/-- The function `ArglineParser::parse_string`. -/
def parse_string (p : ArglineParser) (out : Str) (required : Bool) : Outcome Str :=
  let p1 := p._next
  if required ∧ p1.m_pos ≥ p1.m_argline.length then
    ⟨p1, out, .error .not_enough_arguments⟩
  else if ¬ required ∧ p1.exhausted then
    ⟨p1, out, .ok false⟩
  else if charAt p1.m_argline p1.m_pos = __single_quote ∨
      charAt p1.m_argline p1.m_pos = __double_quote then
    match _find_unescaped_quote p1.m_argline p1.m_pos with
    | .error e => ⟨p1, out, .error e⟩
    | .ok end_ =>
      let p2 := { p1 with m_pos := p1.m_pos + 1 }
      let escaped := substr p2.m_argline p2.m_pos (end_ - p2.m_pos)
      match _unescape_into escaped 0 with
      | (out1, some e) => ⟨p2, out1, .error e⟩
      | (out1, none) =>
        ⟨{ p2 with m_pos := end_ + 1, m_argument_pos := p2.m_argument_pos + 1 }, out1, .ok true⟩
  else
    match _find_unescaped_whitespace p1.m_argline p1.m_pos with
    | .error e => ⟨p1, out, .error e⟩
    | .ok found =>
      let end_ := match found with
        | some e => e
        | none => p1.m_argline.length
      let escaped := substr p1.m_argline p1.m_pos (end_ - p1.m_pos)
      match _unescape_into escaped 0 with
      | (out1, some e) => ⟨p1, out1, .error e⟩
      | (out1, none) =>
        ⟨{ p1 with m_pos := end_, m_argument_pos := p1.m_argument_pos + 1 }, out1, .ok true⟩

/-- Successive required `parse_string` calls, `n` of them, each into a fresh
variable: the strings obtained, or the first exception, and the parser left. -/
def parse_strings : Nat → ArglineParser → Except Error (List Str) × ArglineParser
  | 0, p => (.ok [], p)
  | n + 1, p =>
    let r := p.parse_string [] true
    match r.result with
    | .error e => (.error e, r.parser)
    | .ok _ =>
      match parse_strings n r.parser with
      | (.error e, q) => (.error e, q)
      | (.ok rest, q) => (.ok (r.out :: rest), q)

end ArglineParser

open ArglineParser

/-! ## Lines written from a list of strings

The inputs of the tokenizer that are described by their tokens: each string is
written bare or between two quotes, and a number of spaces precedes it. -/

/-- One string as it is written on the line: bare, or between two quotes `q`. -/
inductive Written where
  | bare (s : Str)
  | quoted (q : Nat) (s : Str)
  deriving DecidableEq, Repr

namespace Written

/-- The string that is written. -/
def text : Written → Str
  | bare s => s
  | quoted _ s => s

/-- The characters on the line. -/
def render : Written → Str
  | bare s => s
  | quoted q s => q :: s ++ [q]

/-- The string has no backslash and no quote character; it is written bare only
when it is non-empty and without space, and quoted only by a quote character. -/
def well_formed : Written → Prop
  | bare s => s ≠ [] ∧ 32 ∉ s ∧ 92 ∉ s ∧ 34 ∉ s ∧ 39 ∉ s
  | quoted q s => (q = 39 ∨ q = 34) ∧ 92 ∉ s ∧ 34 ∉ s ∧ 39 ∉ s

end Written

/-- The line made of the written strings, each after the given number of
spaces. -/
def render_line : List (Nat × Written) → Str
  | [] => []
  | (k, w) :: rest => List.replicate k 32 ++ w.render ++ render_line rest

/-! ## The escape table and the digits of the specification -/

/-- The single-character escapes as the specification lists them: the character
that follows the backslash, and the byte the pair stands for. -/
def spec_single_character_escapes : List (Nat × Nat) :=
  [(32, 0x20), (34, 0x22), (39, 0x27), (63, 0x3F), (92, 0x5C), (97, 0x07), (98, 0x08),
   (102, 0x0C), (110, 0x0A), (114, 0x0D), (116, 0x09), (118, 0x0B)]

/-- The value of a hexadecimal digit, upper or lower case, as the specification
reads it. -/
def spec_hex_digit (c : Nat) : Option Nat :=
  if 48 ≤ c ∧ c ≤ 57 then some (c - 48)
  else if 97 ≤ c ∧ c ≤ 102 then some (c - 87)
  else if 65 ≤ c ∧ c ≤ 70 then some (c - 55)
  else none

/-! ## util/utf8.cpp: reading

The bytes of `in` are read through constant masks below 256 only, so that the
signedness of `char` plays no part: a byte is its value from 0 to 255. -/

/-- The complement `~b` of a byte, in its low eight bits (the only ones the
mask of the source keeps). -/
def bit_not8 (b : Nat) : Nat := 255 - b % 256

/-- The function `utf8_read_octets(in, n)`. -/
def utf8_read_octets (inp : Str) (n : Nat) : Except Error Nat :=
  if n = 0 then .ok 0
  else if bit_not8 (charAt inp 0) &&& 0b10000000 ≠ 0 then
    .ok ((charAt inp 0 &&& 0b01111111) <<< 0)
  else if charAt inp 0 &&& 0b11100000 = 0b11000000 then
    if n < 2 then .error .unicode_too_short
    else .ok (((charAt inp 0 &&& 0b00011111) <<< 6) |||
              ((charAt inp 1 &&& 0b00111111) <<< 0))
  else if charAt inp 0 &&& 0b11110000 = 0b11100000 then
    if n < 3 then .error .unicode_too_short
    else .ok (((charAt inp 0 &&& 0b00001111) <<< 12) |||
              ((charAt inp 1 &&& 0b00111111) <<< 6) |||
              ((charAt inp 2 &&& 0b00111111) <<< 0))
  else if charAt inp 0 &&& 0b11111000 = 0b11110000 then
    if n < 4 then .error .unicode_too_short
    else .ok (((charAt inp 0 &&& 0b00000111) <<< 18) |||
              ((charAt inp 1 &&& 0b00111111) <<< 12) |||
              ((charAt inp 2 &&& 0b00111111) <<< 6) |||
              ((charAt inp 3 &&& 0b00111111) <<< 0))
  else .ok 0

/-! ## The standard library's `std::stoi` and `std::stol`

Both call `strtol` in base 10: white space, one sign, the longest run of
decimal digits, the rest ignored.  No digit raises `std::invalid_argument`; a
value outside the result type (for `stoi`, outside `int`, whether or not it fits
`long`) raises `std::out_of_range`. -/

/-- The conversion `strtol` in base 10, with the bounds of the result type. -/
def stol_range (str : Str) (lo hi : Int) : Except Error Int :=
  let signed : Bool × Str :=
    match skip_spaces str with
    | 45 :: rest => (true, rest)
    | 43 :: rest => (false, rest)
    | rest => (false, rest)
  let ds := take_digits 10 signed.2
  if ds = [] then .error .invalid_argument
  else
    let v : Int := (digits_value 10 ds : Nat)
    let x : Int := if signed.1 then -v else v
    if x < lo ∨ hi < x then .error .out_of_range else .ok x

/-- The function `std::stoi(str)`. -/
def stoi (str : Str) : Except Error Int := stol_range str (-(2 ^ 31)) (2 ^ 31 - 1)

/-- The function `std::stol(str)`. -/
def stol (str : Str) : Except Error Int := stol_range str (-(2 ^ 63)) (2 ^ 63 - 1)

/-- The value an integer takes when it is stored in a signed type of `w` bits
(`short`, and `char` on the platforms where it is signed). -/
def narrow_signed (w : Nat) (x : Int) : Int := (x + 2 ^ (w - 1)) % 2 ^ w - 2 ^ (w - 1)

/-- The value an `unsigned long` takes when it is stored in an unsigned type of
`w` bits. -/
def narrow_unsigned (w : Nat) (x : Nat) : Nat := x % 2 ^ w

/-- The bytes of a string literal of the source. -/
def bytes (s : String) : Str := s.toList.map Char.toNat

/-- Scans a list for the first element equal to `c`, counting from `i`. -/
def find_first_of_from (c : Nat) : Str → Nat → Option Nat
  | [], _ => none
  | x :: xs, i => if x = c then some i else find_first_of_from c xs (i + 1)

/-- The function `std::string::find_first_of(c, pos)`; `none` is `npos`. -/
def find_first_of (s : Str) (c pos : Nat) : Option Nat :=
  find_first_of_from c (s.drop pos) pos

/-! ## parser/argline_parser.cpp: the other parse operations -/

namespace ArglineParser

/-- The end of the space-delimited token that starts at the raw position:
`std::min(m_argline.find_first_of(' ', m_pos), m_argline.size())`. -/
def token_end (p : ArglineParser) : Nat :=
  match find_first_of p.m_argline 32 p.m_pos with
  | some k => min k p.m_argline.length
  | none => p.m_argline.length

/-- The function `ArglineParser::parse_bool`; the raw position is not assigned. -/
def parse_bool (p : ArglineParser) (out : Bool) (required : Bool) : Outcome Bool :=
  let p1 := p._next
  if required ∧ p1.m_pos ≥ p1.m_argline.length then
    ⟨p1, out, .error .not_enough_arguments⟩
  else if ¬ required ∧ p1.exhausted then
    ⟨p1, out, .ok false⟩
  else
    let end_ := p1.token_end
    let arg := make_lowercase (substr p1.m_argline p1.m_pos (end_ - p1.m_pos))
    if arg = bytes "yes" ∨ arg = bytes "on" ∨ arg = bytes "true" ∨ arg = bytes "y" ∨
        arg = bytes "t" then
      ⟨{ p1 with m_argument_pos := p1.m_argument_pos + 1 }, true, .ok true⟩
    else if arg = bytes "no" ∨ arg = bytes "off" ∨ arg = bytes "false" ∨ arg = bytes "n" ∨
        arg = bytes "f" then
      ⟨{ p1 with m_argument_pos := p1.m_argument_pos + 1 }, false, .ok true⟩
    else
      ⟨p1, out, .error .invalid_argument⟩

/-- The body that `parse_bigint`, `parse_double`, `parse_float`, `parse_integer`,
`parse_shortint`, `parse_tinyint` and `parse_unsigned` repeat word for word;
`conv` is the conversion each of them applies to the token, the narrowing
assignment to `out` included. -/
def parse_number {α : Type} (conv : Str → Except Error α) (p : ArglineParser) (out : α)
    (required : Bool) : Outcome α :=
  let p1 := p._next
  if required ∧ p1.m_pos ≥ p1.m_argline.length then
    ⟨p1, out, .error .not_enough_arguments⟩
  else if ¬ required ∧ p1.exhausted then
    ⟨p1, out, .ok false⟩
  else
    let end_ := p1.token_end
    match conv (substr p1.m_argline p1.m_pos (end_ - p1.m_pos)) with
    | .error e => ⟨p1, out, .error e⟩
    | .ok v => ⟨{ p1 with m_pos := end_, m_argument_pos := p1.m_argument_pos + 1 }, v, .ok true⟩

/-- The function `ArglineParser::parse_bigint`: `out = std::stol(...)`. -/
def parse_bigint (p : ArglineParser) (out : Int) (required : Bool) : Outcome Int :=
  parse_number stol p out required

/-- The function `ArglineParser::parse_double`; `stod` stands for `std::stod`. -/
def parse_double {F : Type} (stod : Str → Except Error F) (p : ArglineParser) (out : F)
    (required : Bool) : Outcome F :=
  parse_number stod p out required

/-- The function `ArglineParser::parse_float`; `stof` stands for `std::stof`. -/
def parse_float {F : Type} (stof : Str → Except Error F) (p : ArglineParser) (out : F)
    (required : Bool) : Outcome F :=
  parse_number stof p out required

/-- The function `ArglineParser::parse_integer`: `out = std::stoi(...)`. -/
def parse_integer (p : ArglineParser) (out : Int) (required : Bool) : Outcome Int :=
  parse_number stoi p out required

/-- The function `ArglineParser::parse_shortint`: `out = std::stoi(...)` into a
`short`. -/
def parse_shortint (p : ArglineParser) (out : Int) (required : Bool) : Outcome Int :=
  parse_number (fun t => (stoi t).map (narrow_signed 16)) p out required

/-- The function `ArglineParser::parse_tinyint`: `out = std::stoi(...)` into a
`char`. -/
def parse_tinyint (p : ArglineParser) (out : Int) (required : Bool) : Outcome Int :=
  parse_number (fun t => (stoi t).map (narrow_signed 8)) p out required

/-- The function `ArglineParser::parse_full`; the raw position is not assigned. -/
def parse_full (p : ArglineParser) (out : Str) (required : Bool) : Outcome Str :=
  let p1 := p._next
  if required ∧ p1.m_pos ≥ p1.m_argline.length then
    ⟨p1, out, .error .not_enough_arguments⟩
  else if ¬ required ∧ p1.exhausted then
    ⟨p1, out, .ok false⟩
  else
    let escaped := substr p1.m_argline p1.m_pos (p1.m_argline.length - p1.m_pos)
    match _unescape_into escaped 0 with
    | (out1, some e) => ⟨p1, out1, .error e⟩
    | (out1, none) => ⟨{ p1 with m_argument_pos := p1.m_argument_pos + 1 }, out1, .ok true⟩

/-- The template `ArglineParser::parse_unsigned<T>` for a type `T` of `w` bits:
`out = std::stoul(...)`. -/
def parse_unsigned (w : Nat) (p : ArglineParser) (out : Nat) (required : Bool) : Outcome Nat :=
  parse_number (fun t => (stoul t 10).map (narrow_unsigned w)) p out required

/-- The function `ArglineParser::parse_unsigned_bigint`. -/
def parse_unsigned_bigint (p : ArglineParser) (out : Nat) (required : Bool) : Outcome Nat :=
  parse_unsigned 64 p out required

/-- The function `ArglineParser::parse_unsigned_integer`. -/
def parse_unsigned_integer (p : ArglineParser) (out : Nat) (required : Bool) : Outcome Nat :=
  parse_unsigned 32 p out required

/-- The function `ArglineParser::parse_unsigned_shortint`. -/
def parse_unsigned_shortint (p : ArglineParser) (out : Nat) (required : Bool) : Outcome Nat :=
  parse_unsigned 16 p out required

/-- The function `ArglineParser::parse_unsigned_tinyint`. -/
def parse_unsigned_tinyint (p : ArglineParser) (out : Nat) (required : Bool) : Outcome Nat :=
  parse_unsigned 8 p out required

end ArglineParser

/-! ## parser/placeholder_parser.cpp and parser/abstract_parser.cpp -/

/-- The enumeration `ArgumentTypes`. -/
inductive ArgumentTypes where
  | CT_STRING | CT_TINYINT | CT_SHORTINT | CT_INTEGER | CT_BIGINT
  | CT_UTINYINT | CT_USHORTINT | CT_UINTEGER | CT_UBIGINT
  | CT_FLOAT | CT_DOUBLE | CT_BOOL | CT_FULL | CT_STRING_CUSTOM
  deriving DecidableEq, Repr

/-- The state of a `PlaceholderParser`: the two positions inherited from
`AbstractParser` and the queues.  A queue of a signed type holds the values of
that type; a `float` or a `double` is kept as its bit pattern, since the queues
only store and return it. -/
structure PlaceholderParser where
  m_pos : Nat
  m_argument_pos : Nat
  m_queue_types : List ArgumentTypes
  m_queue_string : List Str
  m_queue_tinyint : List Int
  m_queue_shortint : List Int
  m_queue_integer : List Int
  m_queue_bigint : List Int
  m_queue_float : List Nat
  m_queue_double : List Nat
  m_queue_bool : List Bool
  m_full_string : Str
  deriving DecidableEq, Repr

/-- The function `PlaceholderParser::exhausted`. -/
def PlaceholderParser.exhausted (p : PlaceholderParser) : Bool :=
  p.m_pos ≥ p.m_queue_types.length

/-- A cursor behind the interface `AbstractParser`: one of its two
implementations. -/
inductive AbstractParser where
  | argline (p : ArglineParser)
  | placeholder (p : PlaceholderParser)
  deriving DecidableEq, Repr

namespace AbstractParser

/-- The virtual function `exhausted`. -/
def exhausted : AbstractParser → Bool
  | argline p => p.exhausted
  | placeholder p => p.exhausted

/-- The function `AbstractParser::parse_finish`: the cursor it leaves and
whether it returned or threw. -/
def parse_finish (c : AbstractParser) : AbstractParser × Except Error Unit :=
  if ¬ c.exhausted then (c, .error .too_many_arguments) else (c, .ok ())

end AbstractParser

/-! ## Notions of the specification used by the claims -/

/-- No further token remains at or after the raw position: the buffer holds
nothing but spaces from there on. -/
def no_token_remains (p : ArglineParser) : Prop :=
  ∀ j, p.m_pos ≤ j → j < p.m_argline.length → charAt p.m_argline j = 32

/-- The number of bytes a UTF-8 lead byte announces: `110xxxxx` two, `1110xxxx`
three, `11110xxx` four. -/
def spec_lead_length (b : Nat) : Option Nat :=
  if 0xC0 ≤ b ∧ b ≤ 0xDF then some 2
  else if 0xE0 ≤ b ∧ b ≤ 0xEF then some 3
  else if 0xF0 ≤ b ∧ b ≤ 0xF7 then some 4
  else none

/-- The number of bytes of the UTF-8 encoding of a code point, as the
specification gives it. -/
def spec_octet_count (v : Nat) : Nat :=
  if v < 0x80 then 1 else if v < 0x800 then 2 else if v < 0x10000 then 3 else 4

/-- The decimal literal of a natural number. -/
def decimal_literal_nat (n : Nat) : Str :=
  if n = 0 then [48] else (Nat.digits 10 n).reverse.map (fun d => d + 48)

/-- The decimal literal of an integer: a minus sign when it is negative, then
the digits of its absolute value without leading zero. -/
def decimal_literal (a : Int) : Str :=
  if a < 0 then 45 :: decimal_literal_nat a.natAbs else decimal_literal_nat a.natAbs

/-- What the specification asks of a parse operation `f` in a state without
token: `not_enough_arguments` when the argument is required; otherwise `false`,
the output variable untouched and the argument position not advanced. -/
def absent_behaviour {α : Type} (f : ArglineParser → α → Bool → Outcome α)
    (p : ArglineParser) : Prop :=
  ∀ out : α, (f p out true).result = .error .not_enough_arguments ∧
    (f p out false).result = .ok false ∧ (f p out false).out = out ∧
    (f p out false).parser.m_argument_pos = p.m_argument_pos

/-! ## parser/placeholder_parser.cpp: pushing and picking -/

/-- What a `PlaceholderParser` operation leaves behind: the parser, the output
variable and either the returned `bool` or the exception thrown. -/
structure PlaceholderOutcome (β : Type) where
  parser : PlaceholderParser
  out : β
  result : Except Error Bool

namespace PlaceholderParser

/-- A `PlaceholderParser` as it is constructed: positions at zero, every queue
and the full string empty. -/
def empty : PlaceholderParser :=
  { m_pos := 0, m_argument_pos := 0, m_queue_types := [], m_queue_string := [],
    m_queue_tinyint := [], m_queue_shortint := [], m_queue_integer := [], m_queue_bigint := [],
    m_queue_float := [], m_queue_double := [], m_queue_bool := [], m_full_string := [] }

/-- The function `PlaceholderParser::push_string`. -/
def push_string (p : PlaceholderParser) (value : Str) : PlaceholderParser :=
  { p with m_queue_types := p.m_queue_types ++ [.CT_STRING],
           m_queue_string := p.m_queue_string ++ [value] }

/-- The function `PlaceholderParser::push_tinyint`; `value` is a `char`. -/
def push_tinyint (p : PlaceholderParser) (value : Int) : PlaceholderParser :=
  { p with m_queue_types := p.m_queue_types ++ [.CT_TINYINT],
           m_queue_tinyint := p.m_queue_tinyint ++ [value] }

/-- The function `PlaceholderParser::push_shortint`; `value` is a `short`. -/
def push_shortint (p : PlaceholderParser) (value : Int) : PlaceholderParser :=
  { p with m_queue_types := p.m_queue_types ++ [.CT_SHORTINT],
           m_queue_shortint := p.m_queue_shortint ++ [value] }

/-- The function `PlaceholderParser::push_integer`; `value` is an `int`. -/
def push_integer (p : PlaceholderParser) (value : Int) : PlaceholderParser :=
  { p with m_queue_types := p.m_queue_types ++ [.CT_INTEGER],
           m_queue_integer := p.m_queue_integer ++ [value] }

/-- The function `PlaceholderParser::push_bigint`; `value` is a `long`. -/
def push_bigint (p : PlaceholderParser) (value : Int) : PlaceholderParser :=
  { p with m_queue_types := p.m_queue_types ++ [.CT_BIGINT],
           m_queue_bigint := p.m_queue_bigint ++ [value] }

/-- The function `PlaceholderParser::push_unsigned_tinyint`: the `unsigned char`
is stored in the queue of `char`. -/
def push_unsigned_tinyint (p : PlaceholderParser) (value : Nat) : PlaceholderParser :=
  { p with m_queue_types := p.m_queue_types ++ [.CT_UTINYINT],
           m_queue_tinyint := p.m_queue_tinyint ++ [narrow_signed 8 value] }

/-- The function `PlaceholderParser::push_unsigned_shortint`. -/
def push_unsigned_shortint (p : PlaceholderParser) (value : Nat) : PlaceholderParser :=
  { p with m_queue_types := p.m_queue_types ++ [.CT_USHORTINT],
           m_queue_shortint := p.m_queue_shortint ++ [narrow_signed 16 value] }

/-- The function `PlaceholderParser::push_unsigned_integer`. -/
def push_unsigned_integer (p : PlaceholderParser) (value : Nat) : PlaceholderParser :=
  { p with m_queue_types := p.m_queue_types ++ [.CT_UINTEGER],
           m_queue_integer := p.m_queue_integer ++ [narrow_signed 32 value] }

/-- The function `PlaceholderParser::push_unsigned_bigint`. -/
def push_unsigned_bigint (p : PlaceholderParser) (value : Nat) : PlaceholderParser :=
  { p with m_queue_types := p.m_queue_types ++ [.CT_UBIGINT],
           m_queue_bigint := p.m_queue_bigint ++ [narrow_signed 64 value] }

/-- The function `PlaceholderParser::push_float`; `value` is the bit pattern. -/
def push_float (p : PlaceholderParser) (value : Nat) : PlaceholderParser :=
  { p with m_queue_types := p.m_queue_types ++ [.CT_FLOAT],
           m_queue_float := p.m_queue_float ++ [value] }

/-- The function `PlaceholderParser::push_double`; `value` is the bit pattern. -/
def push_double (p : PlaceholderParser) (value : Nat) : PlaceholderParser :=
  { p with m_queue_types := p.m_queue_types ++ [.CT_DOUBLE],
           m_queue_double := p.m_queue_double ++ [value] }

/-- The function `PlaceholderParser::push_bool`. -/
def push_bool (p : PlaceholderParser) (value : Bool) : PlaceholderParser :=
  { p with m_queue_types := p.m_queue_types ++ [.CT_BOOL],
           m_queue_bool := p.m_queue_bool ++ [value] }

/-- The template `PlaceholderParser::pick_from_queue<T>`.  The reference `deque`
of the source is the content of the queue, `store` writes the queue back after
`pop_front`, and `read` is how the front element is seen through the element
type `T` of the reference (the identity, except behind a `reinterpret_cast`). -/
def pick_from_queue {α β : Type} (p : PlaceholderParser) (out : β)
    (expected_type : ArgumentTypes) (deque : List α)
    (store : PlaceholderParser → List α → PlaceholderParser) (read : α → β)
    (required : Bool) : PlaceholderOutcome β :=
  match p.m_queue_types, deque with
  | front :: types, value :: values =>
    if front ≠ expected_type then
      if required then ⟨p, out, .error .not_enough_arguments⟩ else ⟨p, out, .ok false⟩
    else
      ⟨store { p with m_queue_types := types, m_argument_pos := p.m_argument_pos + 1 } values,
        read value, .ok true⟩
  | _, _ =>
    if required then ⟨p, out, .error .not_enough_arguments⟩ else ⟨p, out, .ok false⟩

/-- The value of a signed element of `w` bits read as unsigned. -/
def as_unsigned (w : Nat) (x : Int) : Nat := (x % 2 ^ w).toNat

def store_string (p : PlaceholderParser) (d : List Str) : PlaceholderParser :=
  { p with m_queue_string := d }

def store_tinyint (p : PlaceholderParser) (d : List Int) : PlaceholderParser :=
  { p with m_queue_tinyint := d }

def store_shortint (p : PlaceholderParser) (d : List Int) : PlaceholderParser :=
  { p with m_queue_shortint := d }

def store_integer (p : PlaceholderParser) (d : List Int) : PlaceholderParser :=
  { p with m_queue_integer := d }

def store_bigint (p : PlaceholderParser) (d : List Int) : PlaceholderParser :=
  { p with m_queue_bigint := d }

def store_float (p : PlaceholderParser) (d : List Nat) : PlaceholderParser :=
  { p with m_queue_float := d }

def store_double (p : PlaceholderParser) (d : List Nat) : PlaceholderParser :=
  { p with m_queue_double := d }

def store_bool (p : PlaceholderParser) (d : List Bool) : PlaceholderParser :=
  { p with m_queue_bool := d }

/-- The function `PlaceholderParser::parse_string`. -/
def parse_string (p : PlaceholderParser) (out : Str) (required : Bool) :
    PlaceholderOutcome Str :=
  pick_from_queue p out .CT_STRING p.m_queue_string store_string id required

/-- The function `PlaceholderParser::parse_tinyint`. -/
def parse_tinyint (p : PlaceholderParser) (out : Int) (required : Bool) :
    PlaceholderOutcome Int :=
  pick_from_queue p out .CT_TINYINT p.m_queue_tinyint store_tinyint id required

/-- The function `PlaceholderParser::parse_shortint`. -/
def parse_shortint (p : PlaceholderParser) (out : Int) (required : Bool) :
    PlaceholderOutcome Int :=
  pick_from_queue p out .CT_SHORTINT p.m_queue_shortint store_shortint id required

/-- The function `PlaceholderParser::parse_integer`. -/
def parse_integer (p : PlaceholderParser) (out : Int) (required : Bool) :
    PlaceholderOutcome Int :=
  pick_from_queue p out .CT_INTEGER p.m_queue_integer store_integer id required

/-- The function `PlaceholderParser::parse_bigint`. -/
def parse_bigint (p : PlaceholderParser) (out : Int) (required : Bool) :
    PlaceholderOutcome Int :=
  pick_from_queue p out .CT_BIGINT p.m_queue_bigint store_bigint id required

/-- The function `PlaceholderParser::parse_unsigned_tinyint`: the queue of `char`
behind a `reinterpret_cast` to a queue of `unsigned char`. -/
def parse_unsigned_tinyint (p : PlaceholderParser) (out : Nat) (required : Bool) :
    PlaceholderOutcome Nat :=
  pick_from_queue p out .CT_UTINYINT p.m_queue_tinyint store_tinyint (as_unsigned 8) required

/-- The function `PlaceholderParser::parse_unsigned_shortint`. -/
def parse_unsigned_shortint (p : PlaceholderParser) (out : Nat) (required : Bool) :
    PlaceholderOutcome Nat :=
  pick_from_queue p out .CT_USHORTINT p.m_queue_shortint store_shortint (as_unsigned 16)
    required

/-- The function `PlaceholderParser::parse_unsigned_integer`. -/
def parse_unsigned_integer (p : PlaceholderParser) (out : Nat) (required : Bool) :
    PlaceholderOutcome Nat :=
  pick_from_queue p out .CT_UINTEGER p.m_queue_integer store_integer (as_unsigned 32) required

/-- The function `PlaceholderParser::parse_unsigned_bigint`. -/
def parse_unsigned_bigint (p : PlaceholderParser) (out : Nat) (required : Bool) :
    PlaceholderOutcome Nat :=
  pick_from_queue p out .CT_UBIGINT p.m_queue_bigint store_bigint (as_unsigned 64) required

/-- The function `PlaceholderParser::parse_float`. -/
def parse_float (p : PlaceholderParser) (out : Nat) (required : Bool) :
    PlaceholderOutcome Nat :=
  pick_from_queue p out .CT_FLOAT p.m_queue_float store_float id required

/-- The function `PlaceholderParser::parse_double`. -/
def parse_double (p : PlaceholderParser) (out : Nat) (required : Bool) :
    PlaceholderOutcome Nat :=
  pick_from_queue p out .CT_DOUBLE p.m_queue_double store_double id required

/-- The function `PlaceholderParser::parse_bool`. -/
def parse_bool (p : PlaceholderParser) (out : Bool) (required : Bool) :
    PlaceholderOutcome Bool :=
  pick_from_queue p out .CT_BOOL p.m_queue_bool store_bool id required

/-- The function `PlaceholderParser::parse_full`. -/
def parse_full (p : PlaceholderParser) (out : Str) (required : Bool) :
    PlaceholderOutcome Str :=
  if p.m_full_string = [] then
    if required then ⟨p, out, .error .not_enough_arguments⟩ else ⟨p, out, .ok false⟩
  else
    ⟨{ p with m_argument_pos := p.m_argument_pos + 1 }, p.m_full_string, .ok true⟩

end PlaceholderParser

/-! ## Sequences of pushed values

A value together with the type it is pushed and parsed as, and the two
sequences of calls the specification speaks of. -/

/-- A value with its queue-backed type. -/
inductive Pushed where
  | string (v : Str)
  | tinyint (v : Int)
  | shortint (v : Int)
  | integer (v : Int)
  | bigint (v : Int)
  | unsigned_tinyint (v : Nat)
  | unsigned_shortint (v : Nat)
  | unsigned_integer (v : Nat)
  | unsigned_bigint (v : Nat)
  | float (v : Nat)
  | double (v : Nat)
  | bool (v : Bool)
  deriving DecidableEq, Repr

namespace Pushed

/-- The value is one of its C++ type. -/
def in_range : Pushed → Prop
  | string _ => True
  | tinyint v => -(2 ^ 7) ≤ v ∧ v < 2 ^ 7
  | shortint v => -(2 ^ 15) ≤ v ∧ v < 2 ^ 15
  | integer v => -(2 ^ 31) ≤ v ∧ v < 2 ^ 31
  | bigint v => -(2 ^ 63) ≤ v ∧ v < 2 ^ 63
  | unsigned_tinyint v => v < 2 ^ 8
  | unsigned_shortint v => v < 2 ^ 16
  | unsigned_integer v => v < 2 ^ 32
  | unsigned_bigint v => v < 2 ^ 64
  | float _ => True
  | double _ => True
  | bool _ => True

/-- The call `push_<type>(v)`. -/
def push (p : PlaceholderParser) : Pushed → PlaceholderParser
  | string v => p.push_string v
  | tinyint v => p.push_tinyint v
  | shortint v => p.push_shortint v
  | integer v => p.push_integer v
  | bigint v => p.push_bigint v
  | unsigned_tinyint v => p.push_unsigned_tinyint v
  | unsigned_shortint v => p.push_unsigned_shortint v
  | unsigned_integer v => p.push_unsigned_integer v
  | unsigned_bigint v => p.push_unsigned_bigint v
  | float v => p.push_float v
  | double v => p.push_double v
  | bool v => p.push_bool v

/-- The turn of an outcome into the value obtained, tagged by `tag`. -/
def obtained {β : Type} (tag : β → Pushed) (r : PlaceholderOutcome β) :
    Except Error (Pushed × PlaceholderParser) :=
  match r.result with
  | .error e => .error e
  | .ok true => .ok (tag r.out, r.parser)
  | .ok false => .error .not_enough_arguments

/-- The required call `parse_<type>` of the type of the given value (the value
itself is not looked at): what is obtained, and the parser left. -/
def parse_like (p : PlaceholderParser) : Pushed → Except Error (Pushed × PlaceholderParser)
  | string _ => obtained string (p.parse_string [] true)
  | tinyint _ => obtained tinyint (p.parse_tinyint 0 true)
  | shortint _ => obtained shortint (p.parse_shortint 0 true)
  | integer _ => obtained integer (p.parse_integer 0 true)
  | bigint _ => obtained bigint (p.parse_bigint 0 true)
  | unsigned_tinyint _ => obtained unsigned_tinyint (p.parse_unsigned_tinyint 0 true)
  | unsigned_shortint _ => obtained unsigned_shortint (p.parse_unsigned_shortint 0 true)
  | unsigned_integer _ => obtained unsigned_integer (p.parse_unsigned_integer 0 true)
  | unsigned_bigint _ => obtained unsigned_bigint (p.parse_unsigned_bigint 0 true)
  | float _ => obtained float (p.parse_float 0 true)
  | double _ => obtained double (p.parse_double 0 true)
  | bool _ => obtained bool (p.parse_bool false true)

end Pushed

namespace Pushed

/-- The tag `push_<type>` appends to the type queue. -/
def tag : Pushed → ArgumentTypes
  | string _ => .CT_STRING
  | tinyint _ => .CT_TINYINT
  | shortint _ => .CT_SHORTINT
  | integer _ => .CT_INTEGER
  | bigint _ => .CT_BIGINT
  | unsigned_tinyint _ => .CT_UTINYINT
  | unsigned_shortint _ => .CT_USHORTINT
  | unsigned_integer _ => .CT_UINTEGER
  | unsigned_bigint _ => .CT_UBIGINT
  | float _ => .CT_FLOAT
  | double _ => .CT_DOUBLE
  | bool _ => .CT_BOOL

/-- The element a value adds to the queue of strings, if it goes there. -/
def string_slot : Pushed → Option Str
  | string v => some v
  | _ => none

/-- The element a value adds to the queue of `char`, if it goes there. -/
def tinyint_slot : Pushed → Option Int
  | tinyint v => some v
  | unsigned_tinyint v => some (narrow_signed 8 v)
  | _ => none

/-- The element a value adds to the queue of `short`, if it goes there. -/
def shortint_slot : Pushed → Option Int
  | shortint v => some v
  | unsigned_shortint v => some (narrow_signed 16 v)
  | _ => none

/-- The element a value adds to the queue of `int`, if it goes there. -/
def integer_slot : Pushed → Option Int
  | integer v => some v
  | unsigned_integer v => some (narrow_signed 32 v)
  | _ => none

/-- The element a value adds to the queue of `long`, if it goes there. -/
def bigint_slot : Pushed → Option Int
  | bigint v => some v
  | unsigned_bigint v => some (narrow_signed 64 v)
  | _ => none

/-- The element a value adds to the queue of `float`, if it goes there. -/
def float_slot : Pushed → Option Nat
  | float v => some v
  | _ => none

/-- The element a value adds to the queue of `double`, if it goes there. -/
def double_slot : Pushed → Option Nat
  | double v => some v
  | _ => none

/-- The element a value adds to the queue of `bool`, if it goes there. -/
def bool_slot : Pushed → Option Bool
  | bool v => some v
  | _ => none

end Pushed

/-- The parser in which the values of a list wait to be parsed, in order, the
argument position being `apos`. -/
def queued (vs : List Pushed) (apos : Nat) : PlaceholderParser :=
  { m_pos := 0, m_argument_pos := apos,
    m_queue_types := vs.map Pushed.tag,
    m_queue_string := vs.filterMap Pushed.string_slot,
    m_queue_tinyint := vs.filterMap Pushed.tinyint_slot,
    m_queue_shortint := vs.filterMap Pushed.shortint_slot,
    m_queue_integer := vs.filterMap Pushed.integer_slot,
    m_queue_bigint := vs.filterMap Pushed.bigint_slot,
    m_queue_float := vs.filterMap Pushed.float_slot,
    m_queue_double := vs.filterMap Pushed.double_slot,
    m_queue_bool := vs.filterMap Pushed.bool_slot,
    m_full_string := [] }

/-- The calls `push_<type>(v)` for the values of a list, in order. -/
def push_all (p : PlaceholderParser) (vs : List Pushed) : PlaceholderParser :=
  vs.foldl Pushed.push p

/-- The calls `parse_<type>` for the types of a list, in order: the values
obtained, or the first exception, and the parser left. -/
def parse_all : List Pushed → PlaceholderParser → Except Error (List Pushed) × PlaceholderParser
  | [], p => (.ok [], p)
  | k :: ks, p =>
    match Pushed.parse_like p k with
    | .error e => (.error e, p)
    | .ok (v, q) =>
      match parse_all ks q with
      | (.error e, r) => (.error e, r)
      | (.ok vs, r) => (.ok (v :: vs), r)

/-! ## command_executor.cpp: the registry

A command object is known by its address (a `std::shared_ptr<Command>` compares
by pointer).  The `std::map` of aliases is the list of its entries in increasing
key order; the `std::set` of commands is the list of its pointers in increasing
order. -/

/-- The order `operator<` of `std::string`: lexicographic on the bytes. -/
def str_lt : Str → Str → Bool
  | [], [] => false
  | [], _ :: _ => true
  | _ :: _, [] => false
  | a :: as, b :: bs => if a < b then true else if b < a then false else str_lt as bs

/-- The function `std::map::find`: the value at the key, if any. -/
def map_find : List (Str × Nat) → Str → Option Nat
  | [], _ => none
  | (k, v) :: rest, key => if k = key then some v else map_find rest key

/-- The function `std::map::insert`: no effect when the key is present. -/
def map_insert : List (Str × Nat) → Str → Nat → List (Str × Nat)
  | [], key, value => [(key, value)]
  | (k, v) :: rest, key, value =>
    if k = key then (k, v) :: rest
    else if str_lt key k then (key, value) :: (k, v) :: rest
    else (k, v) :: map_insert rest key value

/-- The assignment `m[key] = value`: the entry is created or overwritten. -/
def map_assign : List (Str × Nat) → Str → Nat → List (Str × Nat)
  | [], key, value => [(key, value)]
  | (k, v) :: rest, key, value =>
    if k = key then (k, value) :: rest
    else if str_lt key k then (key, value) :: (k, v) :: rest
    else (k, v) :: map_assign rest key value

/-- The function `std::map::erase` of the entry of a key. -/
def map_erase (m : List (Str × Nat)) (key : Str) : List (Str × Nat) :=
  m.filter (fun e => e.1 ≠ key)

/-- The function `std::set::insert`. -/
def set_insert : List Nat → Nat → List Nat
  | [], x => [x]
  | y :: rest, x =>
    if y = x then y :: rest else if x < y then x :: y :: rest else y :: set_insert rest x

/-- The function `std::set::erase` of a value. -/
def set_erase (s : List Nat) (x : Nat) : List Nat := s.filter (fun y => y ≠ x)

/-- The tables of a `CommandExecutor`. -/
structure CommandExecutor where
  m_commands : List Nat
  m_aliases : List (Str × Nat)
  deriving DecidableEq, Repr

namespace CommandExecutor

/-- The function `CommandExecutor::register_command(name, command)`. -/
def register_command (e : CommandExecutor) (name : Str) (command : Nat) :
    CommandExecutor × Bool :=
  match map_find e.m_aliases name with
  | some _ => (e, false)
  | none =>
    ({ m_commands := set_insert e.m_commands command,
       m_aliases := map_assign e.m_aliases name command }, true)

/-- The function `CommandExecutor::add_alias(target, src)`; `m_aliases.at(src)`
throws `std::out_of_range`, caught on the spot, when `src` is no key. -/
def add_alias (e : CommandExecutor) (target src : Str) : CommandExecutor × Bool :=
  match map_find e.m_aliases target with
  | some _ => (e, false)
  | none =>
    match map_find e.m_aliases src with
    | none => (e, false)
    | some c =>
      ({ e with m_aliases := map_insert e.m_aliases target c },
        (map_find e.m_aliases target).isNone)

/-- The function `CommandExecutor::get_command(name)`: the command the name
resolves to; `none` when `command_not_found` is thrown. -/
def get_command (e : CommandExecutor) (name : Str) : Option Nat :=
  map_find e.m_aliases name

/-- The function `CommandExecutor::remove_alias`. -/
def remove_alias (e : CommandExecutor) (cmd : Str) : CommandExecutor × Bool :=
  match map_find e.m_aliases cmd with
  | none => (e, false)
  | some _ => ({ e with m_aliases := map_erase e.m_aliases cmd }, true)

/-- The loop of `unregister_command` over the entries from `it` on.  `cmd` is a
reference to the pointer kept in the entry of `name`: once the loop has erased
that entry the reference dangles, and the comparison `cmd.get()` of a further
iteration has no defined behaviour (`none`). -/
def erase_aliases_loop (name : Str) (cmd : Nat) :
    List (Str × Nat) → Option (List (Str × Nat))
  | [] => some []
  | (k, v) :: rest =>
    if v = cmd then
      if k = name then
        match rest with
        | [] => some []
        | _ :: _ => none
      else erase_aliases_loop name cmd rest
    else (erase_aliases_loop name cmd rest).map (fun kept => (k, v) :: kept)

/-- The function `CommandExecutor::unregister_command(name, delete_aliases)`;
`none` when the call has no defined behaviour. -/
def unregister_command (e : CommandExecutor) (name : Str) (delete_aliases : Bool) :
    Option (CommandExecutor × Bool) :=
  match map_find e.m_aliases name with
  | none => some (e, false)
  | some cmd =>
    let commands := set_erase e.m_commands cmd
    if delete_aliases then
      match erase_aliases_loop name cmd e.m_aliases with
      | none => none
      | some aliases => some ({ m_commands := commands, m_aliases := aliases }, true)
    else
      some ({ e with m_commands := commands }, true)

end CommandExecutor

/-! ## Further notions of the specification -/

/-- The text after one optional sign. -/
def strip_sign : Str → Str
  | 45 :: rest => rest
  | 43 :: rest => rest
  | rest => rest

/-- The token does not begin with a number: after optional white space and one
optional sign no decimal digit follows. -/
def no_numeric_prefix (t : Str) : Prop := take_digits 10 (strip_sign (skip_spaces t)) = []

/-- What the amended specification asks of a `PlaceholderParser` operation `op`
of tag `tag` on the queue `deque` (written back by `store`, its front seen
through `read`): success exactly when the front tag is `tag` and the queue is not
empty; on success the front value, both queues popped and the argument position
advanced; otherwise `not_enough_arguments` or `false`, and nothing changed. -/
def pick_contract {α β : Type} (op : PlaceholderParser → β → Bool → PlaceholderOutcome β)
    (tag : ArgumentTypes) (deque : PlaceholderParser → List α)
    (store : PlaceholderParser → List α → PlaceholderParser) (read : α → β)
    (p : PlaceholderParser) : Prop :=
  ∀ (out : β) (required : Bool),
    ((op p out required).result = .ok true ↔
      p.m_queue_types.head? = some tag ∧ deque p ≠ []) ∧
    (∀ types value values, p.m_queue_types = tag :: types → deque p = value :: values →
      op p out required =
        ⟨store { p with m_queue_types := types, m_argument_pos := p.m_argument_pos + 1 } values,
          read value, .ok true⟩) ∧
    (¬ (p.m_queue_types.head? = some tag ∧ deque p ≠ []) →
      op p out required =
        ⟨p, out, if required then .error .not_enough_arguments else .ok false⟩)

/-! ## command.cpp, argument.hpp: commands

A `Command` is an abstract class: its function `execute` is the body a user of
the library writes.  A body reads its arguments from the parser of the context,
writes to the context, may reach the executor through the context, and returns
or throws. -/

/-- The struct `ArgumentDefinition`. -/
structure ArgumentDefinition where
  m_type : ArgumentTypes
  m_name : Str
  m_description : Str
  deriving DecidableEq, Repr

/-- The function `argtype_to_name`. -/
def argtype_to_name : ArgumentTypes → Str
  | .CT_STRING => bytes "text"
  | .CT_TINYINT => bytes "tiny int"
  | .CT_SHORTINT => bytes "short int"
  | .CT_INTEGER => bytes "int"
  | .CT_BIGINT => bytes "big int"
  | .CT_UTINYINT => bytes "+tiny int"
  | .CT_USHORTINT => bytes "+short int"
  | .CT_UINTEGER => bytes "+int"
  | .CT_UBIGINT => bytes "+big int"
  | .CT_FLOAT => bytes "float"
  | .CT_DOUBLE => bytes "double float"
  | .CT_BOOL => bytes "yes/no"
  | .CT_FULL => bytes "full text..."
  | .CT_STRING_CUSTOM => bytes "[predefined]"

/-- What a call of `Command::execute` leaves behind: the tables of the executor,
the parser of the context, the bytes written to the context, and the value
returned or the exception thrown. -/
structure Executed where
  executor : CommandExecutor
  parser : ArglineParser
  written : Str
  result : Except Error Bool

/-- A `Command` object: its members, and its virtual function `execute` as a
function of the tables of the executor, of the alias of the context and of the
parser of the context. -/
structure Command where
  m_name : Str
  m_args : List ArgumentDefinition
  m_optargs : List ArgumentDefinition
  m_description : Str
  execute : CommandExecutor → Str → ArglineParser → Executed

/-- One loop of `Command::format_usage_into` with the default separators: every
argument between `before` and `after`, a space between two arguments. -/
def format_usage_args (before after : Str) : List ArgumentDefinition → Str
  | [] => []
  | [a] => before ++ a.m_name ++ bytes " <" ++ argtype_to_name a.m_type ++ bytes ">" ++ after
  | a :: b :: rest =>
    before ++ a.m_name ++ bytes " <" ++ argtype_to_name a.m_type ++ bytes ">" ++ after ++
      bytes " " ++ format_usage_args before after (b :: rest)

namespace Command

/-- The function `Command::get_args_count`. -/
def get_args_count (c : Command) : Nat := c.m_args.length

/-- The function `Command::get_optargs_count`. -/
def get_optargs_count (c : Command) : Nat := c.m_optargs.length

/-- The function `Command::format_usage_into(stream, alias)` with its default
arguments: the bytes put on the stream. -/
def format_usage_into (c : Command) (alias_name : Str) : Str :=
  bytes "/" ++ alias_name ++ bytes " " ++ format_usage_args (bytes "(") (bytes ")") c.m_args ++
    format_usage_args (bytes "[") (bytes "]") c.m_optargs

/-- The element the handlers of `dispatch_line` reach for the argument position
`argument_pos`: `get_optarg_iter()` advanced by `argument_pos - get_args_count()`
when `argument_pos + 1 > get_args_count()`, else `get_arg_iter()` advanced by
`argument_pos`; `none` when the iterator reached is not that of an element. -/
def reported_argument (c : Command) (argument_pos : Nat) : Option ArgumentDefinition :=
  if argument_pos + 1 > c.get_args_count then
    c.m_optargs[argument_pos - c.get_args_count]?
  else
    c.m_args[argument_pos]?

end Command

/-! ## command_executor.cpp: `dispatch_line` -/

/-- The decimal digits `operator<<` puts on a stream for a `std::size_t`. -/
def put_size_t (n : Nat) : Str := (Nat.toDigits 10 n).map Char.toNat

/-- The split of `dispatch_line`: `cmdname` and `argline`. -/
def split_line (line : Str) : Str × Str :=
  match find_first_of line __whitespace 0 with
  | some _spl => (substr line 0 _spl, line.drop (_spl + 1))
  | none => (line, [])

/-- The function `CommandExecutor::handle_unknown_command`: the bytes written
to the context. -/
def handle_unknown_command (cmd : Str) : Str := bytes "Unknown command: " ++ cmd ++ [10]

/-- What leaves `dispatch_line` as an exception: one of the exceptions of the
library and of the standard conversions, or the `std::runtime_error` of the
handler of `std::invalid_argument`. -/
inductive Thrown where
  | error (e : Error)
  | runtime_error
  deriving DecidableEq, Repr

/-- What a call of `dispatch_line` leaves behind: the tables, the parser it
made, the command whose body it ran, the bytes written to the context, and the
value returned or the exception that left it; the result is `none` when a
handler dereferences an iterator that is not that of an element. -/
structure Dispatched where
  executor : CommandExecutor
  parser : ArglineParser
  executed : Option Nat
  written : Str
  result : Option (Except Thrown Bool)

/-- The handlers of `dispatch_line` for an exception `err` of the body of the
command `c`, run under the alias `cmdname` on `argline`: the bytes the handler
writes to the context and how `dispatch_line` ends.  An exception without a
handler leaves the function.  The test `!it.first.base()` of the handler of
`std::invalid_argument` finds a null pointer at the start of a vector that is
empty (such a vector is taken to hold no storage); `substr(get_pos())` throws
`std::out_of_range` when the raw position is beyond the argument line. -/
def dispatch_catch (c : Command) (cmdname argline : Str) (parser : ArglineParser) :
    Error → Str × Option (Except Thrown Bool)
  | .unexpected_escape_character _ =>
    (bytes "Error: unexpected escape character encountered at the end of the line." ++ [10],
      some (.ok false))
  | .invalid_escape_format =>
    match c.reported_argument parser.m_argument_pos with
    | none => ([], none)
    | some it =>
      if parser.m_pos > argline.length then ([], some (.error (.error .out_of_range)))
      else
        (bytes "Invalid escape code sequence specified for argument " ++ [34] ++ it.m_name ++
          [34] ++ bytes ":" ++ [10] ++ argline.drop parser.m_pos ++ [10], some (.ok true))
  | .out_of_range =>
    match c.reported_argument parser.m_argument_pos with
    | none => ([], none)
    | some it =>
      (bytes "Value outside of the boundaries provided for argument " ++ [34] ++ it.m_name ++
        [34] ++ bytes "." ++ [10], some (.ok true))
  | .invalid_argument =>
    if (if parser.m_argument_pos + 1 > c.get_args_count then
          c.m_optargs = [] ∧ parser.m_argument_pos - c.get_args_count = 0
        else c.m_args = [] ∧ parser.m_argument_pos = 0) then
      ([], some (.error .runtime_error))
    else
      match c.reported_argument parser.m_argument_pos with
      | none => ([], none)
      | some it =>
        (bytes "Invalid value specified for argument " ++ [34] ++ it.m_name ++ [34] ++
          bytes "." ++ [10] ++ c.format_usage_into cmdname ++ [10], some (.ok true))
  | .too_many_arguments =>
    (bytes "This command requires at most " ++
      put_size_t (c.get_args_count + c.get_optargs_count) ++
      bytes " arguments, but received more." ++ [10] ++ c.format_usage_into cmdname ++ [10],
      some (.ok true))
  | .not_enough_arguments =>
    (bytes "This command requires at least " ++ put_size_t c.get_args_count ++
      bytes " arguments, but received " ++ put_size_t parser.m_argument_pos ++ bytes "." ++
      [10] ++ c.format_usage_into cmdname ++ [10], some (.ok true))
  | e => ([], some (.error (.error e)))

/-- The function `CommandExecutor::dispatch_line(line, context_override)` for a
context that is given.  `objects` tells the `Command` object a pointer of the
alias table points to, `handler` is the virtual function
`handle_unknown_command`.  The body is taken to leave the entry of `cmdname` in
the alias table, which the handlers read after it. -/
def dispatch_line (objects : Nat → Command) (handler : Str → Str) (e : CommandExecutor)
    (line : Str) : Dispatched :=
  let cmdname := (split_line line).1
  let argline := (split_line line).2
  let parser := ArglineParser.create argline 0
  match map_find e.m_aliases cmdname with
  | none => ⟨e, parser, none, handler cmdname, some (.ok false)⟩
  | some cmd =>
    let x := (objects cmd).execute e cmdname parser
    match x.result with
    | .ok _ => ⟨x.executor, x.parser, some cmd, x.written, some (.ok true)⟩
    | .error err =>
      let h := dispatch_catch (objects cmd) cmdname argline x.parser err
      ⟨x.executor, x.parser, some cmd, x.written ++ h.1, h.2⟩

/-! ## main.cpp: the command `echo` -/

/-- The function `EchoCommand::execute`. -/
def EchoCommand.execute (e : CommandExecutor) (_alias_name : Str) (p : ArglineParser) :
    Executed :=
  let name := p.parse_string [] true
  match name.result with
  | .error err => ⟨e, name.parser, [], .error err⟩
  | .ok _ =>
    let text := name.parser.parse_string [] true
    match text.result with
    | .error err => ⟨e, text.parser, [], .error err⟩
    | .ok _ =>
      match (AbstractParser.argline text.parser).parse_finish.2 with
      | .error err => ⟨e, text.parser, [], .error err⟩
      | .ok _ =>
        ⟨e, text.parser, bytes "Message [" ++ name.out ++ bytes "]: " ++ text.out ++ [10],
          .ok true⟩

/-- The object `EchoCommand` as its constructor leaves it. -/
def EchoCommand : Command :=
  { m_name := bytes "echo",
    m_args := [⟨.CT_STRING, bytes "name", bytes "Title name of the message."⟩,
      ⟨.CT_STRING, bytes "text", bytes "Message to show to the output."⟩],
    m_optargs := [],
    m_description := bytes "Return the same text into the output.",
    execute := EchoCommand.execute }

/-! ## Sequences of parse operations of an `ArglineParser` -/

/-- One call `parse_<type>(out, required)` on an `ArglineParser`, with the value
the output variable has before the call. -/
inductive ParseCall where
  | string (out : Str) (required : Bool)
  | tinyint (out : Int) (required : Bool)
  | shortint (out : Int) (required : Bool)
  | integer (out : Int) (required : Bool)
  | bigint (out : Int) (required : Bool)
  | unsigned_tinyint (out : Nat) (required : Bool)
  | unsigned_shortint (out : Nat) (required : Bool)
  | unsigned_integer (out : Nat) (required : Bool)
  | unsigned_bigint (out : Nat) (required : Bool)
  | float (out : Nat) (required : Bool)
  | double (out : Nat) (required : Bool)
  | bool (out : Bool) (required : Bool)
  | full (out : Str) (required : Bool)

/-- The parser a call leaves and what the call returned or threw; `stof` and
`stod` stand for `std::stof` and `std::stod`, a `float` or `double` being kept
as its bit pattern. -/
def ParseCall.run (stof stod : Str → Except Error Nat) (p : ArglineParser) :
    ParseCall → ArglineParser × Except Error Bool
  | .string out required => ((p.parse_string out required).parser,
      (p.parse_string out required).result)
  | .tinyint out required => ((p.parse_tinyint out required).parser,
      (p.parse_tinyint out required).result)
  | .shortint out required => ((p.parse_shortint out required).parser,
      (p.parse_shortint out required).result)
  | .integer out required => ((p.parse_integer out required).parser,
      (p.parse_integer out required).result)
  | .bigint out required => ((p.parse_bigint out required).parser,
      (p.parse_bigint out required).result)
  | .unsigned_tinyint out required => ((p.parse_unsigned_tinyint out required).parser,
      (p.parse_unsigned_tinyint out required).result)
  | .unsigned_shortint out required => ((p.parse_unsigned_shortint out required).parser,
      (p.parse_unsigned_shortint out required).result)
  | .unsigned_integer out required => ((p.parse_unsigned_integer out required).parser,
      (p.parse_unsigned_integer out required).result)
  | .unsigned_bigint out required => ((p.parse_unsigned_bigint out required).parser,
      (p.parse_unsigned_bigint out required).result)
  | .float out required => ((p.parse_float stof out required).parser,
      (p.parse_float stof out required).result)
  | .double out required => ((p.parse_double stod out required).parser,
      (p.parse_double stod out required).result)
  | .bool out required => ((p.parse_bool out required).parser,
      (p.parse_bool out required).result)
  | .full out required => ((p.parse_full out required).parser,
      (p.parse_full out required).result)

/-- Whether a call returned a value: it returned `true`. -/
def returned_value : Except Error Bool → Bool
  | .ok true => true
  | _ => false

/-- Successive calls, the caller going on after every outcome: the parser left
and the number of calls that returned a value. -/
def run_calls (stof stod : Str → Except Error Nat) :
    ArglineParser → List ParseCall → ArglineParser × Nat
  | p, [] => (p, 0)
  | p, c :: cs =>
    ((run_calls stof stod (c.run stof stod p).1 cs).1,
      (if returned_value (c.run stof stod p).2 then 1 else 0) +
        (run_calls stof stod (c.run stof stod p).1 cs).2)

/-! ## Sequences of calls on a `PlaceholderParser` -/

/-- The function `PlaceholderParser::set_full_string`. -/
def PlaceholderParser.set_full_string (p : PlaceholderParser) (value : Str) :
    PlaceholderParser :=
  { p with m_full_string := value }

/-- One call on a `PlaceholderParser`: `push_<type>(v)`, or
`parse_<type>(out, required)` of the type of `out` with the value the output
variable has before the call, or `parse_full`, or `set_full_string`. -/
inductive PlaceholderCall where
  | push (v : Pushed)
  | parse (out : Pushed) (required : Bool)
  | parse_full (out : Str) (required : Bool)
  | set_full_string (value : Str)

/-- The parser a call leaves, whether the call returns or throws. -/
def PlaceholderCall.run (p : PlaceholderParser) : PlaceholderCall → PlaceholderParser
  | .push v => Pushed.push p v
  | .parse (.string out) required => (p.parse_string out required).parser
  | .parse (.tinyint out) required => (p.parse_tinyint out required).parser
  | .parse (.shortint out) required => (p.parse_shortint out required).parser
  | .parse (.integer out) required => (p.parse_integer out required).parser
  | .parse (.bigint out) required => (p.parse_bigint out required).parser
  | .parse (.unsigned_tinyint out) required => (p.parse_unsigned_tinyint out required).parser
  | .parse (.unsigned_shortint out) required => (p.parse_unsigned_shortint out required).parser
  | .parse (.unsigned_integer out) required => (p.parse_unsigned_integer out required).parser
  | .parse (.unsigned_bigint out) required => (p.parse_unsigned_bigint out required).parser
  | .parse (.float out) required => (p.parse_float out required).parser
  | .parse (.double out) required => (p.parse_double out required).parser
  | .parse (.bool out) required => (p.parse_bool out required).parser
  | .parse_full out required => (p.parse_full out required).parser
  | .set_full_string value => p.set_full_string value

/-- The states reached from an empty parser by a sequence of calls. -/
def reachable (p : PlaceholderParser) : Prop :=
  ∃ calls : List PlaceholderCall, p = calls.foldl PlaceholderCall.run PlaceholderParser.empty

/-- Each value queue is as long as the type queue has tags stored in it. -/
def queue_lengths (p : PlaceholderParser) : Prop :=
  p.m_queue_string.length = p.m_queue_types.count .CT_STRING ∧
  p.m_queue_tinyint.length =
    p.m_queue_types.count .CT_TINYINT + p.m_queue_types.count .CT_UTINYINT ∧
  p.m_queue_shortint.length =
    p.m_queue_types.count .CT_SHORTINT + p.m_queue_types.count .CT_USHORTINT ∧
  p.m_queue_integer.length =
    p.m_queue_types.count .CT_INTEGER + p.m_queue_types.count .CT_UINTEGER ∧
  p.m_queue_bigint.length =
    p.m_queue_types.count .CT_BIGINT + p.m_queue_types.count .CT_UBIGINT ∧
  p.m_queue_float.length = p.m_queue_types.count .CT_FLOAT ∧
  p.m_queue_double.length = p.m_queue_types.count .CT_DOUBLE ∧
  p.m_queue_bool.length = p.m_queue_types.count .CT_BOOL

/-! ## command_executor.cpp: the mutex

What each member function does to the members shared between threads, in the
order of the source.  `dispatch_line` opens with
`std::unique_lock<std::mutex> lock(m_mutex)`, released when it returns; no other
member function names `m_mutex`. -/

/-- A step of a member function on the shared members. -/
inductive Action where
  | lock
  | unlock
  | read_aliases
  | write_aliases
  | write_commands
  | write_latest_context
  | handle_unknown
  | execute
  deriving DecidableEq, Repr

/-- The steps that change the alias table or the set of commands. -/
def Action.mutation : Action → Bool
  | .write_aliases => true
  | .write_commands => true
  | _ => false

/-- A member function, on one of its paths. -/
inductive Member where
  | register_command
  | add_alias
  | remove_alias
  | unregister_command (delete_aliases : Bool)
  | dispatch_line (found : Bool)
  deriving DecidableEq, Repr

/-- The steps of a member function on the path that goes through: `find`, then
the insertions of `register_command`; `find`, `at`, `insert` of `add_alias`;
`find`, `erase` of `remove_alias`; `find`, `m_commands.erase` and one round of the
loop of `unregister_command`; the lock, the context, `find`, the handler or the
body, and the release of `dispatch_line`. -/
def Member.actions : Member → List Action
  | .register_command => [.read_aliases, .write_commands, .write_aliases]
  | .add_alias => [.read_aliases, .read_aliases, .write_aliases]
  | .remove_alias => [.read_aliases, .write_aliases]
  | .unregister_command false => [.read_aliases, .write_commands]
  | .unregister_command true => [.read_aliases, .write_commands, .read_aliases, .write_aliases]
  | .dispatch_line true => [.lock, .write_latest_context, .read_aliases, .execute, .unlock]
  | .dispatch_line false =>
    [.lock, .write_latest_context, .read_aliases, .handle_unknown, .unlock]

/-- The same steps with `m_mutex` (a public member) taken by the caller around
the call. -/
def Member.guarded (m : Member) : List Action := [.lock] ++ m.actions ++ [.unlock]

/-- All the ways two threads can take their steps in turn; `false` marks a step
of the first thread, `true` one of the second. -/
def interleavings : List Action → List Action → List (List (Bool × Action))
  | [], ys => [ys.map (fun a => (true, a))]
  | x :: xs, ys =>
    (List.range (ys.length + 1)).flatMap (fun k =>
      (interleavings xs (ys.drop k)).map (fun rest =>
        (ys.take k).map (fun a => (true, a)) ++ (false, x) :: rest))

/-- Whether a `std::mutex` lets the schedule happen, `holder` being the thread
that holds it: `lock` goes through only when no thread holds it, `unlock` is for
the thread that holds it. -/
def admissible : Option Bool → List (Bool × Action) → Bool
  | _, [] => true
  | holder, (t, .lock) :: rest => holder = none && admissible (some t) rest
  | holder, (t, .unlock) :: rest => holder = some t && admissible none rest
  | holder, _ :: rest => admissible holder rest

/-- Whether, in the schedule, a thread changes the alias table or the set of
commands while the other thread holds the mutex. -/
def mutation_under_lock : Option Bool → List (Bool × Action) → Bool
  | _, [] => false
  | _, (t, .lock) :: rest => mutation_under_lock (some t) rest
  | _, (_, .unlock) :: rest => mutation_under_lock none rest
  | holder, (t, a) :: rest =>
    (a.mutation && holder = some (!t)) || mutation_under_lock holder rest

/-! ## Notions of the specification on positions -/

/-- What the specification asks of one parse operation that takes the parser
`p` to `r.1` with the outcome `r.2`: the raw position has not decreased, and the
argument position has advanced by exactly 1 when a value was returned and not
at all otherwise. -/
def position_step (p : ArglineParser) (r : ArglineParser × Except Error Bool) : Prop :=
  p.m_pos ≤ r.1.m_pos ∧
    (returned_value r.2 = true → r.1.m_argument_pos = p.m_argument_pos + 1) ∧
    (returned_value r.2 = false → r.1.m_argument_pos = p.m_argument_pos)

/-! ## Reading characters of a concatenation -/

theorem charAt_append_left {a b : Str} {i : Nat} (h : i < a.length) :
    charAt (a ++ b) i = charAt a i := by
  unfold charAt
  exact List.getD_append a b 0 i h

theorem charAt_append_right (a b : Str) (i : Nat) :
    charAt (a ++ b) (a.length + i) = charAt b i := by
  unfold charAt
  rw [List.getD_append_right a b 0 (a.length + i) (by omega)]
  simp

theorem charAt_mem {l : Str} {i : Nat} (h : i < l.length) : charAt l i ∈ l := by
  unfold charAt
  rw [List.getD_eq_getElem l 0 h]
  exact List.getElem_mem h

theorem charAt_length (l : Str) : charAt l l.length = 0 := by
  unfold charAt
  simp

theorem drop_eq_charAt_cons {l : Str} {i : Nat} (h : i < l.length) :
    l.drop i = charAt l i :: l.drop (i + 1) := by
  unfold charAt
  rw [List.getD_eq_getElem l 0 h]
  exact List.drop_eq_getElem_cons h

/-! ## The loops do not depend on their fuel once it covers the buffer -/

theorem ws_loop_fuel (a : Str) : ∀ (f g i : Nat), a.length - i ≤ f → a.length - i ≤ g →
    _find_unescaped_whitespace_loop a f i = _find_unescaped_whitespace_loop a g i := by
  intro f
  induction f with
  | zero =>
    intro g i hf _
    have hi : ¬ i < a.length := by omega
    cases g with
    | zero => rfl
    | succ g => simp [_find_unescaped_whitespace_loop, hi]
  | succ f ih =>
    intro g i hf hg
    cases g with
    | zero =>
      have hi : ¬ i < a.length := by omega
      simp [_find_unescaped_whitespace_loop, hi]
    | succ g =>
      simp only [_find_unescaped_whitespace_loop]
      split
      · split
        · exact ih g (i + 2) (by omega) (by omega)
        · split
          · rfl
          · exact ih g (i + 1) (by omega) (by omega)
      · rfl

theorem quote_loop_fuel (a : Str) (q : Nat) : ∀ (f g i : Nat), a.length - i ≤ f →
    a.length - i ≤ g →
    _find_unescaped_quote_loop a q f i = _find_unescaped_quote_loop a q g i := by
  intro f
  induction f with
  | zero =>
    intro g i hf _
    have hi : ¬ i < a.length := by omega
    cases g with
    | zero => rfl
    | succ g => simp [_find_unescaped_quote_loop, hi]
  | succ f ih =>
    intro g i hf hg
    cases g with
    | zero =>
      have hi : ¬ i < a.length := by omega
      simp [_find_unescaped_quote_loop, hi]
    | succ g =>
      simp only [_find_unescaped_quote_loop]
      split
      · split
        · exact ih g (i + 2) (by omega) (by omega)
        · split
          · rfl
          · exact ih g (i + 1) (by omega) (by omega)
      · rfl

theorem unescape_loop_fuel (inp : Str) : ∀ (f g i : Nat) (out : Str), inp.length - i ≤ f →
    inp.length - i ≤ g →
    _unescape_into_loop inp f i out = _unescape_into_loop inp g i out := by
  intro f
  induction f with
  | zero =>
    intro g i out hf _
    have hi : ¬ i < inp.length := by omega
    cases g with
    | zero => rfl
    | succ g => simp [_unescape_into_loop, hi]
  | succ f ih =>
    intro g i out hf hg
    cases g with
    | zero =>
      have hi : ¬ i < inp.length := by omega
      simp [_unescape_into_loop, hi]
    | succ g =>
      simp only [_unescape_into_loop]
      split
      · split
        · split
          · rfl
          · split
            · rfl
            · exact ih g _ _ (by omega) (by omega)
        · exact ih g _ _ (by omega) (by omega)
      · rfl

/-! ## One iteration of each loop, at the fuel the functions use -/

theorem ws_escaped {a : Str} {i : Nat} (hi : i < a.length) (h1 : 1 ≤ i)
    (hp : charAt a (i - 1) = 92) (hpp : i < 2 ∨ charAt a (i - 2) ≠ 92) :
    _find_unescaped_whitespace a i = _find_unescaped_whitespace a (i + 2) := by
  unfold _find_unescaped_whitespace
  obtain ⟨f, hf⟩ : ∃ f, a.length - i = f + 1 := ⟨a.length - i - 1, by omega⟩
  rw [hf]
  simp only [_find_unescaped_whitespace_loop, hi, if_true, h1, hp, hpp, and_self]
  exact ws_loop_fuel a _ _ _ (by omega) (by omega)

theorem ws_found {a : Str} {i : Nat} (hi : i < a.length)
    (hp : i = 0 ∨ charAt a (i - 1) ≠ 92) (hs : charAt a i = 32) :
    _find_unescaped_whitespace a i = .ok (some i) := by
  unfold _find_unescaped_whitespace
  obtain ⟨f, hf⟩ : ∃ f, a.length - i = f + 1 := ⟨a.length - i - 1, by omega⟩
  rw [hf]
  have hne : ¬ (1 ≤ i ∧ charAt a (i - 1) = 92 ∧ (i < 2 ∨ charAt a (i - 2) ≠ 92)) := by
    rintro ⟨h1, h2, -⟩
    rcases hp with hp | hp
    · omega
    · exact hp h2
  simp only [_find_unescaped_whitespace_loop, hi, if_true, hne, if_false, hs]

theorem ws_plain {a : Str} {i : Nat} (hi : i < a.length)
    (hp : i = 0 ∨ charAt a (i - 1) ≠ 92) (hs : charAt a i ≠ 32) :
    _find_unescaped_whitespace a i = _find_unescaped_whitespace a (i + 1) := by
  unfold _find_unescaped_whitespace
  obtain ⟨f, hf⟩ : ∃ f, a.length - i = f + 1 := ⟨a.length - i - 1, by omega⟩
  rw [hf]
  have hne : ¬ (1 ≤ i ∧ charAt a (i - 1) = 92 ∧ (i < 2 ∨ charAt a (i - 2) ≠ 92)) := by
    rintro ⟨h1, h2, -⟩
    rcases hp with hp | hp
    · omega
    · exact hp h2
  simp only [_find_unescaped_whitespace_loop, hi, if_true, hne, if_false, hs]
  exact ws_loop_fuel a _ _ _ (by omega) (by omega)

theorem ws_unescaped {a : Str} {i : Nat} (hi : i < a.length)
    (hp : ¬ (1 ≤ i ∧ charAt a (i - 1) = 92 ∧ (i < 2 ∨ charAt a (i - 2) ≠ 92)))
    (hs : charAt a i ≠ 32) :
    _find_unescaped_whitespace a i = _find_unescaped_whitespace a (i + 1) := by
  unfold _find_unescaped_whitespace
  obtain ⟨f, hf⟩ : ∃ f, a.length - i = f + 1 := ⟨a.length - i - 1, by omega⟩
  rw [hf]
  simp only [_find_unescaped_whitespace_loop, hi, if_true, hp, if_false, hs]
  exact ws_loop_fuel a _ _ _ (by omega) (by omega)

theorem ws_exit {a : Str} {i : Nat} (hi : a.length ≤ i) :
    _find_unescaped_whitespace a i = _find_unescaped_whitespace_exit a i := by
  unfold _find_unescaped_whitespace
  have : a.length - i = 0 := by omega
  rw [this]
  rfl

/-- A run of characters that are neither spaces nor preceded by a backslash is
skipped by the whitespace scan. -/
theorem ws_run (a : Str) : ∀ (n i : Nat),
    (∀ j, i ≤ j → j < i + n →
      j < a.length ∧ charAt a j ≠ 32 ∧ (j = 0 ∨ charAt a (j - 1) ≠ 92)) →
    _find_unescaped_whitespace a i = _find_unescaped_whitespace a (i + n) := by
  intro n
  induction n with
  | zero => intro i _; rfl
  | succ n ih =>
    intro i h
    obtain ⟨h1, h2, h3⟩ := h i (le_refl i) (by omega)
    rw [ws_plain h1 h3 h2, ih (i + 1) (fun j hj1 hj2 => h j (by omega) (by omega))]
    congr 1
    omega

theorem quote_plain {a : Str} {q i : Nat} (hi : i < a.length)
    (hp : charAt a (i - 1) ≠ 92) (hs : charAt a i ≠ q) :
    _find_unescaped_quote_loop a q (a.length - i) i =
      _find_unescaped_quote_loop a q (a.length - (i + 1)) (i + 1) := by
  obtain ⟨f, hf⟩ : ∃ f, a.length - i = f + 1 := ⟨a.length - i - 1, by omega⟩
  rw [hf]
  simp only [_find_unescaped_quote_loop, hi, if_true, hp, false_and, if_false, hs]
  exact quote_loop_fuel a q _ _ _ (by omega) (by omega)

theorem quote_found {a : Str} {q i : Nat} (hi : i < a.length)
    (hp : charAt a (i - 1) ≠ 92) (hs : charAt a i = q) :
    _find_unescaped_quote_loop a q (a.length - i) i = .ok i := by
  obtain ⟨f, hf⟩ : ∃ f, a.length - i = f + 1 := ⟨a.length - i - 1, by omega⟩
  rw [hf]
  simp only [_find_unescaped_quote_loop, hi, if_true, hp, false_and, if_false, hs]

/-- A run of characters that are neither the quote nor preceded by a backslash
is skipped by the quote scan. -/
theorem quote_run (a : Str) (q : Nat) : ∀ (n i : Nat),
    (∀ j, i ≤ j → j < i + n →
      j < a.length ∧ charAt a j ≠ q ∧ charAt a (j - 1) ≠ 92) →
    _find_unescaped_quote_loop a q (a.length - i) i =
      _find_unescaped_quote_loop a q (a.length - (i + n)) (i + n) := by
  intro n
  induction n with
  | zero => intro i _; rfl
  | succ n ih =>
    intro i h
    obtain ⟨h1, h2, h3⟩ := h i (le_refl i) (by omega)
    rw [quote_plain h1 h3 h2, ih (i + 1) (fun j hj1 hj2 => h j (by omega) (by omega))]
    have : i + 1 + n = i + (n + 1) := by omega
    rw [this]

/-- Without the quote character in the rest of the buffer the quote scan ends
with `unclosed_quote`, whatever the escapes on its way. -/
theorem quote_loop_absent (a : Str) (q : Nat) : ∀ (f i : Nat),
    (∀ j, i ≤ j → charAt a j ≠ q) →
    _find_unescaped_quote_loop a q f i = .error .unclosed_quote := by
  intro f
  induction f with
  | zero => intro i _; rfl
  | succ f ih =>
    intro i h
    simp only [_find_unescaped_quote_loop]
    split
    · split
      · exact ih (i + 2) (fun j hj => h j (by omega))
      · rw [if_neg (h i (le_refl i))]
        exact ih (i + 1) (fun j hj => h j (by omega))
    · rfl

theorem unescape_plain {inp : Str} {i : Nat} (out : Str) (hi : i < inp.length)
    (hc : charAt inp i ≠ 92) :
    _unescape_into_loop inp (inp.length - i) i out =
      _unescape_into_loop inp (inp.length - (i + 1)) (i + 1) (out ++ [charAt inp i]) := by
  obtain ⟨f, hf⟩ : ∃ f, inp.length - i = f + 1 := ⟨inp.length - i - 1, by omega⟩
  rw [hf]
  simp only [_unescape_into_loop, hi, if_true, hc, if_false]
  exact unescape_loop_fuel inp _ _ _ _ (by omega) (by omega)

theorem unescape_exit {inp : Str} {i : Nat} (out : Str) (hi : inp.length ≤ i) :
    _unescape_into_loop inp (inp.length - i) i out = (out, none) := by
  have : inp.length - i = 0 := by omega
  rw [this]
  rfl

theorem unescape_escape {inp : Str} {i k : Nat} {out out1 : Str} (hi : i + 1 < inp.length)
    (hc : charAt inp i = 92)
    (hk : _interpret_escape_into out (inp.length - i) (inp.drop (i + 1)) = .ok (out1, k)) :
    _unescape_into_loop inp (inp.length - i) i out =
      _unescape_into_loop inp (inp.length - (i + k + 1)) (i + k + 1) out1 := by
  obtain ⟨f, hf⟩ : ∃ f, inp.length - i = f + 1 := ⟨inp.length - i - 1, by omega⟩
  have hi1 : i < inp.length := by omega
  have hl : ¬ i = inp.length - 1 := by omega
  rw [hf] at hk ⊢
  simp only [_unescape_into_loop, hi1, if_true, hc, hl, if_false, hf, hk]
  exact unescape_loop_fuel inp _ _ _ _ (by omega) (by omega)

theorem unescape_trailing {inp : Str} {i : Nat} (out : Str) (hi : i + 1 = inp.length)
    (hc : charAt inp i = 92) :
    _unescape_into_loop inp (inp.length - i) i out =
      (out, some (.unexpected_escape_character i)) := by
  have hf : inp.length - i = 0 + 1 := by omega
  have hi1 : i < inp.length := by omega
  have hl : i = inp.length - 1 := by omega
  rw [hf]
  simp only [_unescape_into_loop, hi1, if_true, hc]
  rw [if_pos hl]

/-- A run of characters other than the backslash is copied by the decoder. -/
theorem unescape_run (inp : Str) : ∀ (n i : Nat) (out : Str),
    (∀ j, i ≤ j → j < i + n → j < inp.length ∧ charAt inp j ≠ 92) →
    _unescape_into_loop inp (inp.length - i) i out =
      _unescape_into_loop inp (inp.length - (i + n)) (i + n) (out ++ substr inp i n) := by
  intro n
  induction n with
  | zero => intro i out _; simp [substr]
  | succ n ih =>
    intro i out h
    obtain ⟨h1, h2⟩ := h i (le_refl i) (by omega)
    rw [unescape_plain out h1 h2, ih (i + 1) _ (fun j hj1 hj2 => h j (by omega) (by omega))]
    have e1 : i + 1 + n = i + (n + 1) := by omega
    have e2 : substr inp i (n + 1) = charAt inp i :: substr inp (i + 1) n := by
      unfold substr
      rw [drop_eq_charAt_cons h1, List.take_succ_cons]
    rw [e1, e2]
    simp

/-- A string without backslash decodes to itself. -/
theorem unescape_into_plain (s : Str) (h : 92 ∉ s) : _unescape_into s 0 = (s, none) := by
  unfold _unescape_into
  have hr := unescape_run s s.length 0 []
    (fun j _ hj => ⟨by omega, fun hc => h (hc ▸ charAt_mem (by omega))⟩)
  simp only [Nat.zero_add, List.nil_append] at hr
  rw [hr, unescape_exit _ (le_refl _)]
  simp [substr]

theorem mem_substr {a : Str} {s n x : Nat} (h : x ∈ substr a s n) :
    ∃ j, s ≤ j ∧ j < s + n ∧ j < a.length ∧ charAt a j = x := by
  obtain ⟨i, hi, rfl⟩ := List.mem_iff_getElem.1 h
  have hi2 : i < n ∧ i < a.length - s := by
    simpa [substr, List.length_take, List.length_drop] using hi
  refine ⟨s + i, by omega, by omega, by omega, ?_⟩
  unfold charAt
  rw [List.getD_eq_getElem a 0 (by omega)]
  simp [substr]

theorem substr_append_mid (a t b : Str) : substr (a ++ t ++ b) a.length t.length = t := by
  simp [substr]

/-! ## Skipping the spaces before a token -/

theorem fnf_replicate (c x : Nat) (xs : Str) (hx : x ≠ c) : ∀ (k i : Nat),
    find_first_not_of_from c (List.replicate k c ++ x :: xs) i = some (i + k) := by
  intro k
  induction k with
  | zero => intro i; simp [find_first_not_of_from, hx]
  | succ k ih =>
    intro i
    have e : List.replicate (k + 1) c ++ x :: xs = c :: (List.replicate k c ++ x :: xs) := by
      simp [List.replicate_succ]
    rw [e]
    simp only [find_first_not_of_from, ne_eq, not_true_eq_false, if_false]
    rw [ih (i + 1)]
    congr 1
    omega

theorem next_skip (pre rest : Str) (k c apos : Nat) (hc : c ≠ 32)
    (hn : (pre ++ List.replicate k 32 ++ c :: rest).length < npos) :
    _next ⟨pre ++ List.replicate k 32 ++ c :: rest, pre.length, apos⟩ =
      ⟨pre ++ List.replicate k 32 ++ c :: rest, pre.length + k, apos⟩ := by
  have hlen : (pre ++ List.replicate k 32 ++ c :: rest).length
      = pre.length + k + (rest.length + 1) := by simp; omega
  have hex : exhausted ⟨pre ++ List.replicate k 32 ++ c :: rest, pre.length, apos⟩ = false := by
    simp only [exhausted, Bool.or_eq_false_iff, decide_eq_false_iff_not]
    constructor
    · omega
    · omega
  unfold _next
  rw [hex]
  simp only [Bool.false_eq_true, if_false, find_first_not_of]
  rw [List.append_assoc, List.drop_left, fnf_replicate 32 c rest hc]
  simp only [← List.append_assoc]
  rw [Nat.min_eq_left (by omega)]

theorem next_stay (p : ArglineParser) (hp : p.m_pos < p.m_argline.length)
    (hn : p.m_argline.length < npos) (hc : charAt p.m_argline p.m_pos ≠ 32) :
    p._next = p := by
  have hex : p.exhausted = false := by
    simp only [exhausted, Bool.or_eq_false_iff, decide_eq_false_iff_not]
    constructor
    · omega
    · omega
  unfold _next
  rw [hex]
  simp only [Bool.false_eq_true, if_false, find_first_not_of]
  rw [drop_eq_charAt_cons hp]
  simp only [find_first_not_of_from, ne_eq, hc, not_false_eq_true, if_true]
  rw [Nat.min_eq_left (by omega)]

/-! ## One `parse_string` call on a token without escapes -/

theorem not_exhausted (p : ArglineParser) (hp : p.m_pos < p.m_argline.length)
    (hn : p.m_argline.length < npos) : p.exhausted = false := by
  simp only [exhausted, Bool.or_eq_false_iff, decide_eq_false_iff_not]
  constructor
  · omega
  · omega

/-- A bare token of plain characters, ending at a space or at the end of the
buffer, is returned as it stands. -/
theorem parse_string_bare (p : ArglineParser) (out : Str) (required : Bool) (e : Nat)
    (hs : p.m_pos < e) (he : e ≤ p.m_argline.length) (hn : p.m_argline.length < npos)
    (hrun : ∀ j, p.m_pos ≤ j → j < e →
      charAt p.m_argline j ≠ 32 ∧ charAt p.m_argline j ≠ 92)
    (hq : charAt p.m_argline p.m_pos ≠ 39 ∧ charAt p.m_argline p.m_pos ≠ 34)
    (hprev : p.m_pos = 0 ∨ charAt p.m_argline (p.m_pos - 1) ≠ 92)
    (hend : e = p.m_argline.length ∨ charAt p.m_argline e = 32) :
    p.parse_string out required =
      ⟨{ p with m_pos := e, m_argument_pos := p.m_argument_pos + 1 },
        substr p.m_argline p.m_pos (e - p.m_pos), .ok true⟩ := by
  have hp : p.m_pos < p.m_argline.length := by omega
  have hnext := next_stay p hp hn (hrun _ (le_refl _) hs).1
  have hex := not_exhausted p hp hn
  have hlast : charAt p.m_argline (e - 1) ≠ 92 := (hrun (e - 1) (by omega) (by omega)).2
  have hrun2 : _find_unescaped_whitespace p.m_argline p.m_pos =
      _find_unescaped_whitespace p.m_argline e := by
    have h := ws_run p.m_argline (e - p.m_pos) p.m_pos (fun j hj1 hj2 =>
      ⟨by omega, (hrun j hj1 (by omega)).1, by
        rcases Nat.eq_or_lt_of_le hj1 with h | h
        · rw [← h]; exact hprev
        · exact Or.inr (hrun (j - 1) (by omega) (by omega)).2⟩)
    rw [h]
    congr 1
    omega
  have hscan : ∃ found, _find_unescaped_whitespace p.m_argline p.m_pos = .ok found ∧
      (match found with
        | some x => x
        | none => p.m_argline.length) = e := by
    rcases hend with h | h
    · refine ⟨none, ?_, h.symm⟩
      rw [hrun2, ws_exit (by omega)]
      simp [_find_unescaped_whitespace_exit, hlast]
    · have he2 : e < p.m_argline.length := by
        rcases Nat.eq_or_lt_of_le he with h2 | h2
        · rw [h2, charAt_length] at h
          omega
        · exact h2
      refine ⟨some e, ?_, rfl⟩
      rw [hrun2, ws_found he2 (Or.inr hlast) h]
  obtain ⟨found, hf1, hf2⟩ := hscan
  have hun : _unescape_into (substr p.m_argline p.m_pos (e - p.m_pos)) 0 =
      (substr p.m_argline p.m_pos (e - p.m_pos), none) :=
    unescape_into_plain _ (fun hm => by
      obtain ⟨j, h1, h2, _, h4⟩ := mem_substr hm
      exact (hrun j h1 (by omega)).2 h4)
  have hge : ¬ p.m_pos ≥ p.m_argline.length := by omega
  unfold parse_string
  simp only [hnext, hge, and_false, if_false, hex, Bool.false_eq_true, hq.1, hq.2, or_self,
    hf1, hf2, hun]

/-- A quoted token of plain characters is returned without its quotes. -/
theorem parse_string_quoted (p : ArglineParser) (out : Str) (required : Bool) (e q : Nat)
    (hs : p.m_pos < e) (he : e < p.m_argline.length) (hn : p.m_argline.length < npos)
    (hq : q = 39 ∨ q = 34) (hopen : charAt p.m_argline p.m_pos = q)
    (hrun : ∀ j, p.m_pos < j → j < e →
      charAt p.m_argline j ≠ q ∧ charAt p.m_argline j ≠ 92)
    (hclose : charAt p.m_argline e = q) :
    p.parse_string out required =
      ⟨{ p with m_pos := e + 1, m_argument_pos := p.m_argument_pos + 1 },
        substr p.m_argline (p.m_pos + 1) (e - (p.m_pos + 1)), .ok true⟩ := by
  have hp : p.m_pos < p.m_argline.length := by omega
  have hq92 : q ≠ 92 := by rcases hq with h | h <;> omega
  have hq32 : q ≠ 32 := by rcases hq with h | h <;> omega
  have hnext := next_stay p hp hn (by rw [hopen]; exact hq32)
  have hex := not_exhausted p hp hn
  have hprev : ∀ j, p.m_pos < j → j ≤ e → charAt p.m_argline (j - 1) ≠ 92 := by
    intro j hj1 hj2
    rcases Nat.eq_or_lt_of_le (Nat.succ_le_of_lt hj1) with h | h
    · have : j - 1 = p.m_pos := by omega
      rw [this, hopen]
      exact hq92
    · exact (hrun (j - 1) (by omega) (by omega)).2
  have hscan : _find_unescaped_quote p.m_argline p.m_pos = .ok e := by
    unfold _find_unescaped_quote
    have hl : ¬ p.m_argline.length ≤ p.m_pos + 1 := by omega
    simp only [hl, if_false, hopen]
    have h := quote_run p.m_argline q (e - (p.m_pos + 1)) (p.m_pos + 1) (fun j hj1 hj2 =>
      ⟨by omega, (hrun j (by omega) (by omega)).1, hprev j (by omega) (by omega)⟩)
    have e1 : p.m_pos + 1 + (e - (p.m_pos + 1)) = e := by omega
    rw [e1] at h
    rw [h, quote_found he (hprev e hs (le_refl e)) hclose]
  have hun : _unescape_into (substr p.m_argline (p.m_pos + 1) (e - (p.m_pos + 1))) 0 =
      (substr p.m_argline (p.m_pos + 1) (e - (p.m_pos + 1)), none) :=
    unescape_into_plain _ (fun hm => by
      obtain ⟨j, h1, h2, _, h4⟩ := mem_substr hm
      exact (hrun j (by omega) (by omega)).2 h4)
  have hge : ¬ p.m_pos ≥ p.m_argline.length := by omega
  have hquote : charAt p.m_argline p.m_pos = 39 ∨ charAt p.m_argline p.m_pos = 34 := by
    rw [hopen]; exact hq
  unfold parse_string
  simp only [hnext, hge, and_false, if_false, hex, Bool.false_eq_true, hquote, if_true,
    hscan, hun]

theorem charAt_mid (A T B : Str) {i : Nat} (h : i < T.length) :
    charAt (A ++ T ++ B) (A.length + i) = charAt T i := by
  rw [List.append_assoc, charAt_append_right, charAt_append_left h]

theorem charAt_after (A T B : Str) : charAt (A ++ T ++ B) (A.length + T.length) = charAt B 0 := by
  have h := charAt_append_right (A ++ T) B 0
  simpa using h

theorem charAt_before (A T B : Str) {i : Nat} (h : i < A.length) :
    charAt (A ++ T ++ B) i = charAt A i := by
  rw [List.append_assoc, charAt_append_left h]

theorem charAt_zero_cons (c : Nat) (l : Str) : charAt (c :: l) 0 = c := rfl

theorem charAt_succ_cons (c : Nat) (l : Str) (i : Nat) : charAt (c :: l) (i + 1) = charAt l i := rfl

/-- The step of `parse_string_bare` on a buffer given as a concatenation. -/
theorem parse_string_bare_at (A s B : Str) (apos : Nat) (out : Str) (required : Bool)
    (hne : s ≠ []) (h32 : 32 ∉ s) (h92 : 92 ∉ s) (h34 : 34 ∉ s) (h39 : 39 ∉ s)
    (hA : A = [] ∨ charAt A (A.length - 1) ≠ 92) (hB : B = [] ∨ charAt B 0 = 32)
    (hn : (A ++ s ++ B).length < npos) :
    parse_string ⟨A ++ s ++ B, A.length, apos⟩ out required =
      ⟨⟨A ++ s ++ B, A.length + s.length, apos + 1⟩, s, .ok true⟩ := by
  have hpos : 0 < s.length := List.length_pos.2 hne
  have h := parse_string_bare ⟨A ++ s ++ B, A.length, apos⟩ out required (A.length + s.length)
    (by simp only; omega) (by simp) hn
    (by
      intro j hj1 hj2
      obtain ⟨i, rfl⟩ := Nat.exists_eq_add_of_le hj1
      have hi : i < s.length := by simp only at hj2; omega
      simp only
      rw [charAt_mid A s B hi]
      exact ⟨fun hc => h32 (hc ▸ charAt_mem hi), fun hc => h92 (hc ▸ charAt_mem hi)⟩)
    (by
      have := charAt_mid A s B hpos
      simp only [Nat.add_zero] at this
      simp only
      rw [this]
      exact ⟨fun hc => h39 (hc ▸ charAt_mem hpos), fun hc => h34 (hc ▸ charAt_mem hpos)⟩)
    (by
      simp only
      rcases hA with hA | hA
      · left; simp [hA]
      · rcases Nat.eq_zero_or_pos A.length with h0 | h0
        · left; exact h0
        · right
          rw [charAt_before A s B (by omega)]
          exact hA)
    (by
      simp only
      rcases hB with hB | hB
      · left; simp [hB]
      · right
        rw [charAt_after]
        exact hB)
  rw [h]
  have e1 : A.length + s.length - A.length = s.length := by omega
  simp only [e1, substr_append_mid]

/-- The step of `parse_string_quoted` on a buffer given as a concatenation. -/
theorem parse_string_quoted_at (A s B : Str) (q apos : Nat) (out : Str) (required : Bool)
    (hq : q = 39 ∨ q = 34) (h92 : 92 ∉ s) (hqs : q ∉ s)
    (hn : (A ++ (q :: s ++ [q]) ++ B).length < npos) :
    parse_string ⟨A ++ (q :: s ++ [q]) ++ B, A.length, apos⟩ out required =
      ⟨⟨A ++ (q :: s ++ [q]) ++ B, A.length + (s.length + 2), apos + 1⟩, s, .ok true⟩ := by
  have hlen : (q :: s ++ [q]).length = s.length + 2 := by simp
  have hin : ∀ i, i < s.length → charAt (A ++ (q :: s ++ [q]) ++ B) (A.length + (i + 1))
      = charAt s i := by
    intro i hi
    rw [charAt_mid A _ B (by rw [hlen]; omega)]
    show charAt (s ++ [q]) i = charAt s i
    exact charAt_append_left hi
  have h := parse_string_quoted ⟨A ++ (q :: s ++ [q]) ++ B, A.length, apos⟩ out required
    (A.length + (s.length + 1)) q
    (by simp only; omega) (by simp) hn hq
    (by
      have := charAt_mid A (q :: s ++ [q]) B (i := 0) (by rw [hlen]; omega)
      simpa using this)
    (by
      intro j hj1 hj2
      simp only at hj1 hj2
      obtain ⟨i, rfl⟩ : ∃ i, j = A.length + (i + 1) := ⟨j - A.length - 1, by omega⟩
      have hi : i < s.length := by omega
      simp only
      rw [hin i hi]
      exact ⟨fun hc => hqs (hc ▸ charAt_mem hi), fun hc => h92 (hc ▸ charAt_mem hi)⟩)
    (by
      simp only
      rw [charAt_mid A _ B (by rw [hlen]; omega)]
      show charAt (s ++ [q]) s.length = q
      have := charAt_append_right s [q] 0
      simpa using this)
  rw [h]
  have e1 : A.length + (s.length + 1) - (A.length + 1) = s.length := by omega
  have e2 : substr (A ++ (q :: s ++ [q]) ++ B) (A.length + 1) s.length = s := by
    have := substr_append_mid (A ++ [q]) s ([q] ++ B)
    simpa using this
  simp only [e1, e2]
  rfl

/-- Leading spaces are skipped before the token is read. -/
theorem parse_string_skip (pre rest : Str) (k c apos : Nat) (out : Str) (required : Bool)
    (hc : c ≠ 32) (hn : (pre ++ List.replicate k 32 ++ c :: rest).length < npos) :
    parse_string ⟨pre ++ List.replicate k 32 ++ c :: rest, pre.length, apos⟩ out required =
      parse_string ⟨pre ++ List.replicate k 32 ++ c :: rest, pre.length + k, apos⟩
        out required := by
  have h1 := next_skip pre rest k c apos hc hn
  have h2 := next_stay ⟨pre ++ List.replicate k 32 ++ c :: rest, pre.length + k, apos⟩
    (by simp) hn (by
      have := charAt_append_right (pre ++ List.replicate k 32) (c :: rest) 0
      simp only [List.length_append, List.length_replicate, Nat.add_zero] at this
      simp only
      rw [this]
      exact hc)
  unfold parse_string
  rw [h1, h2]

/-- One call on a well-formed written string that follows `k` spaces. -/
theorem parse_string_written (pre B : Str) (k apos : Nat) (w : Written) (out : Str)
    (required : Bool) (hw : w.well_formed)
    (hpre : pre = [] ∨ charAt pre (pre.length - 1) ≠ 92) (hB : B = [] ∨ charAt B 0 = 32)
    (hn : (pre ++ List.replicate k 32 ++ w.render ++ B).length < npos) :
    parse_string ⟨pre ++ List.replicate k 32 ++ w.render ++ B, pre.length, apos⟩ out required =
      ⟨⟨pre ++ List.replicate k 32 ++ w.render ++ B,
          (pre ++ List.replicate k 32 ++ w.render).length, apos + 1⟩, w.text, .ok true⟩ := by
  have hlenA : (pre ++ List.replicate k 32).length = pre.length + k := by simp
  have hA : pre ++ List.replicate k 32 = [] ∨
      charAt (pre ++ List.replicate k 32) ((pre ++ List.replicate k 32).length - 1) ≠ 92 := by
    rcases Nat.eq_zero_or_pos k with h0 | h0
    · subst h0
      simpa using hpre
    · right
      have h := charAt_append_right pre (List.replicate k 32) (k - 1)
      have e : pre.length + (k - 1) = (pre ++ List.replicate k 32).length - 1 := by
        rw [hlenA]; omega
      rw [e] at h
      rw [h]
      have hm := charAt_mem (l := List.replicate k 32) (i := k - 1) (by simp; omega)
      rw [List.eq_of_mem_replicate hm]
      omega
  cases w with
  | bare s =>
    obtain ⟨hne, h32, h92, h34, h39⟩ := hw
    obtain ⟨c, tl, rfl⟩ := List.exists_cons_of_ne_nil hne
    have hc : c ≠ 32 := fun h => h32 (h ▸ List.mem_cons_self _ _)
    have hX : pre ++ List.replicate k 32 ++ (Written.bare (c :: tl)).render ++ B
        = pre ++ List.replicate k 32 ++ c :: (tl ++ B) := by simp [Written.render]
    rw [hX] at hn
    have hs := parse_string_skip pre (tl ++ B) k c apos out required hc hn
    rw [← hX] at hs hn
    rw [hs, ← hlenA]
    have hb := parse_string_bare_at (pre ++ List.replicate k 32) (c :: tl) B apos out required
      hne h32 h92 h34 h39 hA hB hn
    simp only [Written.render, Written.text]
    rw [hb]
    simp
    omega
  | quoted q s =>
    obtain ⟨hq, h92, h34, h39⟩ := hw
    have hc : q ≠ 32 := by rcases hq with h | h <;> omega
    have hqs : q ∉ s := by rcases hq with h | h <;> rw [h] <;> assumption
    have hX : pre ++ List.replicate k 32 ++ (Written.quoted q s).render ++ B
        = pre ++ List.replicate k 32 ++ q :: (s ++ [q] ++ B) := by simp [Written.render]
    rw [hX] at hn
    have hs := parse_string_skip pre (s ++ [q] ++ B) k q apos out required hc hn
    rw [← hX] at hs hn
    rw [hs, ← hlenA]
    have hb := parse_string_quoted_at (pre ++ List.replicate k 32) s B q apos out required
      hq h92 hqs hn
    simp only [Written.render, Written.text]
    rw [hb]
    simp
    omega

theorem render_line_head (rest : List (Nat × Written)) (h : ∀ t ∈ rest, 1 ≤ t.1) :
    render_line rest = [] ∨ charAt (render_line rest) 0 = 32 := by
  cases rest with
  | nil => left; rfl
  | cons t r =>
    right
    obtain ⟨k, w⟩ := t
    have hk : 1 ≤ k := h (k, w) (List.mem_cons_self _ _)
    obtain ⟨m, rfl⟩ : ∃ m, k = m + 1 := ⟨k - 1, by omega⟩
    simp [render_line, List.replicate_succ, charAt]

theorem render_last (w : Written) (hw : w.well_formed) :
    charAt w.render (w.render.length - 1) ≠ 92 ∧ 0 < w.render.length := by
  cases w with
  | bare s =>
    obtain ⟨hne, -, h92, -, -⟩ := hw
    have hpos : 0 < s.length := List.length_pos.2 hne
    have hm : charAt s (s.length - 1) ∈ s := charAt_mem (by omega)
    exact ⟨fun hc => h92 (hc ▸ hm), hpos⟩
  | quoted q s =>
    obtain ⟨hq, -, -, -⟩ := hw
    constructor
    · have h := charAt_append_right (q :: s) [q] 0
      simp only [Written.render]
      have e : (q :: s ++ [q]).length - 1 = (q :: s).length + 0 := by
        simp only [List.length_append, List.length_cons, List.length_nil]; omega
      rw [e]
      have e2 : q :: s ++ [q] = (q :: s) ++ [q] := rfl
      rw [e2, h]
      show q ≠ 92
      rcases hq with h | h <;> omega
    · simp [Written.render]

/-- Successive calls over a line of well-formed written strings, started after
any prefix that does not end with a backslash. -/
theorem parse_strings_line : ∀ (ts : List (Nat × Written)) (pre : Str) (apos : Nat),
    (∀ t ∈ ts, t.2.well_formed) → (∀ t ∈ ts.tail, 1 ≤ t.1) →
    (pre = [] ∨ charAt pre (pre.length - 1) ≠ 92) →
    (pre ++ render_line ts).length < npos →
    parse_strings ts.length ⟨pre ++ render_line ts, pre.length, apos⟩ =
      (.ok (ts.map (fun t => t.2.text)),
        ⟨pre ++ render_line ts, (pre ++ render_line ts).length, apos + ts.length⟩) := by
  intro ts
  induction ts with
  | nil =>
    intro pre apos _ _ _ _
    simp [parse_strings, render_line]
  | cons t rest ih =>
    intro pre apos hwf hsep hpre hn
    obtain ⟨k, w⟩ := t
    have hw : w.well_formed := hwf (k, w) (List.mem_cons_self _ _)
    have hB := render_line_head rest (by simpa using hsep)
    have hX : pre ++ render_line ((k, w) :: rest)
        = pre ++ List.replicate k 32 ++ w.render ++ render_line rest := by
      simp [render_line]
    rw [hX] at hn ⊢
    have hstep := parse_string_written pre (render_line rest) k apos w [] true hw hpre hB hn
    have hpre2 : pre ++ List.replicate k 32 ++ w.render = [] ∨
        charAt (pre ++ List.replicate k 32 ++ w.render)
          ((pre ++ List.replicate k 32 ++ w.render).length - 1) ≠ 92 := by
      right
      obtain ⟨h1, h2⟩ := render_last w hw
      have h := charAt_append_right (pre ++ List.replicate k 32) w.render (w.render.length - 1)
      have e : (pre ++ List.replicate k 32).length + (w.render.length - 1)
          = (pre ++ List.replicate k 32 ++ w.render).length - 1 := by
        simp only [List.length_append]; omega
      rw [e] at h
      rw [h]
      exact h1
    have hrec := ih (pre ++ List.replicate k 32 ++ w.render) (apos + 1)
      (fun t ht => hwf t (List.mem_cons_of_mem _ ht))
      (fun t ht => hsep t (by simpa using List.mem_of_mem_tail ht)) hpre2 hn
    simp only [List.length_cons, parse_strings, hstep, hrec, List.map_cons]
    congr 2
    omega

theorem charAt_beyond {l : Str} {i : Nat} (h : l.length ≤ i) : charAt l i = 0 := by
  unfold charAt
  rw [List.getD_eq_default l 0 h]

/-- An opening quote without a later occurrence of the same character. -/
theorem parse_string_unclosed (p : ArglineParser) (out : Str) (required : Bool) (q : Nat)
    (hp : p.m_pos < p.m_argline.length) (hn : p.m_argline.length < npos)
    (hq : q = 39 ∨ q = 34) (hopen : charAt p.m_argline p.m_pos = q)
    (habs : ∀ j, p.m_pos < j → charAt p.m_argline j ≠ q) :
    p.parse_string out required = ⟨p, out, .error .unclosed_quote⟩ := by
  have hq32 : q ≠ 32 := by rcases hq with h | h <;> omega
  have hnext := next_stay p hp hn (by rw [hopen]; exact hq32)
  have hex := not_exhausted p hp hn
  have hscan : _find_unescaped_quote p.m_argline p.m_pos = .error .unclosed_quote := by
    unfold _find_unescaped_quote
    simp only [hopen]
    split
    · rfl
    · exact quote_loop_absent _ _ _ _ (fun j hj => habs j (by omega))
  have hge : ¬ p.m_pos ≥ p.m_argline.length := by omega
  have hquote : charAt p.m_argline p.m_pos = 39 ∨ charAt p.m_argline p.m_pos = 34 := by
    rw [hopen]; exact hq
  unfold parse_string
  simp only [hnext, hge, and_false, if_false, hex, Bool.false_eq_true, hquote, if_true, hscan]

/-- When the last character of the buffer is a backslash that the scan does not
take for escaped, the whitespace scan over a rest without space throws. -/
theorem ws_trailing (a : Str) (s : Nat) (hlast : charAt a (a.length - 1) = 92)
    (hN : ¬ (1 ≤ a.length - 1 ∧ charAt a (a.length - 2) = 92 ∧
      (a.length - 1 < 2 ∨ charAt a (a.length - 3) ≠ 92)))
    (hsp : ∀ j, s ≤ j → j < a.length → charAt a j ≠ 32) :
    ∀ (n i : Nat), a.length - i ≤ n → s ≤ i → i ≤ a.length →
      _find_unescaped_whitespace a i = .error (.unexpected_escape_character a.length) := by
  have hend : _find_unescaped_whitespace a a.length
      = .error (.unexpected_escape_character a.length) := by
    rw [ws_exit (le_refl _)]
    simp [_find_unescaped_whitespace_exit, hlast]
  intro n
  induction n with
  | zero =>
    intro i h1 _ h3
    have : i = a.length := by omega
    rw [this]
    exact hend
  | succ n ih =>
    intro i h1 h2 h3
    rcases Nat.eq_or_lt_of_le h3 with h | h
    · rw [h]
      exact hend
    · by_cases hesc : (1 ≤ i ∧ charAt a (i - 1) = 92 ∧ (i < 2 ∨ charAt a (i - 2) ≠ 92))
      · have hi : i ≠ a.length - 1 := by
          intro hc
          have e1 : i - 1 = a.length - 2 := by omega
          have e2 : i - 2 = a.length - 3 := by omega
          rw [e1, e2, hc] at hesc
          exact hN hesc
        rw [ws_escaped h hesc.1 hesc.2.1 hesc.2.2]
        exact ih (i + 2) (by omega) (by omega) (by omega)
      · rw [ws_unescaped h hesc (hsp i h2 h)]
        exact ih (i + 1) (by omega) (by omega) (by omega)

theorem getLast_charAt {l : Str} (hne : l ≠ []) : l.getLast? = some (charAt l (l.length - 1)) := by
  have hpos : 0 < l.length := List.length_pos.2 hne
  unfold charAt
  rw [List.getLast?_eq_getElem?, List.getD_eq_getElem l 0 (by omega),
    List.getElem?_eq_getElem (by omega)]

/-- The end of a token made of a stem, an even run of backslashes and one more
backslash: a backslash, before which the scan never sees a single one. -/
theorem token_tail (stem : Str) (m : Nat) (hstem : stem.getLast? ≠ some 92) :
    charAt (stem ++ List.replicate (2 * m) 92 ++ [92])
        ((stem ++ List.replicate (2 * m) 92 ++ [92]).length - 1) = 92 ∧
      (2 ≤ (stem ++ List.replicate (2 * m) 92 ++ [92]).length →
        charAt (stem ++ List.replicate (2 * m) 92 ++ [92])
          ((stem ++ List.replicate (2 * m) 92 ++ [92]).length - 2) = 92 →
        3 ≤ (stem ++ List.replicate (2 * m) 92 ++ [92]).length ∧
          charAt (stem ++ List.replicate (2 * m) 92 ++ [92])
            ((stem ++ List.replicate (2 * m) 92 ++ [92]).length - 3) = 92) := by
  constructor
  · have h := charAt_append_right (stem ++ List.replicate (2 * m) 92) [92] 0
    have e : (stem ++ List.replicate (2 * m) 92 ++ [92]).length - 1
        = (stem ++ List.replicate (2 * m) 92).length + 0 := by simp
    rw [e, h]
    rfl
  · cases m with
    | zero =>
      intro h2 h92
      exfalso
      simp only [Nat.mul_zero, List.replicate_zero, List.append_nil, List.length_append,
        List.length_singleton] at h2 h92
      have hne : stem ≠ [] := by
        intro hc
        rw [hc] at h2
        simp at h2
      have hpos : 0 < stem.length := List.length_pos.2 hne
      have e : stem.length + 1 - 2 = stem.length - 1 := by omega
      rw [e, charAt_append_left (by omega)] at h92
      exact hstem (by rw [getLast_charAt hne, h92])
    | succ m =>
      intro _ _
      have e : stem ++ List.replicate (2 * (m + 1)) 92 ++ [92]
          = (stem ++ List.replicate (2 * m) 92) ++ [92, 92, 92] := by
        have : 2 * (m + 1) = 2 * m + 2 := by omega
        rw [this, List.replicate_add]
        simp [List.replicate]
      rw [e]
      constructor
      · simp only [List.length_append, List.length_replicate, List.length_cons,
          List.length_nil]
        omega
      · have h := charAt_append_right (stem ++ List.replicate (2 * m) 92) [92, 92, 92] 0
        have e2 : ((stem ++ List.replicate (2 * m) 92) ++ [92, 92, 92]).length - 3
            = (stem ++ List.replicate (2 * m) 92).length + 0 := by
          simp only [List.length_append, List.length_replicate, List.length_cons,
            List.length_nil]
          omega
        rw [e2, h]
        rfl

theorem charAt_drop (l : Str) (k j : Nat) : charAt (l.drop k) j = charAt l (k + j) := by
  unfold charAt
  rw [List.getD_eq_getElem?_getD, List.getD_eq_getElem?_getD, List.getElem?_drop]

/-- A hexadecimal digit of the specification, once lowercased, is a digit of
base 16 for `strtoul` with the same value, and is neither a space nor a sign. -/
theorem hex_digit_lowercase {c v : Nat} (h : spec_hex_digit c = some v) :
    digit_value (tolower c) = some v ∧ v < 16 ∧ isspace (tolower c) = false ∧
      tolower c ≠ 45 ∧ tolower c ≠ 43 := by
  unfold spec_hex_digit at h
  split at h
  · rename_i hc
    have hv : v = c - 48 := by simpa using h.symm
    have ht : tolower c = c := by unfold tolower; rw [if_neg (by omega)]
    rw [ht]
    refine ⟨?_, by omega, ?_, by omega, by omega⟩
    · unfold digit_value; rw [if_pos hc, hv]
    · simp only [isspace, Bool.or_eq_false_iff, decide_eq_false_iff_not, Bool.and_eq_false_iff]
      omega
  · split at h
    · rename_i hc1 hc
      have hv : v = c - 87 := by simpa using h.symm
      have ht : tolower c = c := by unfold tolower; rw [if_neg (by omega)]
      rw [ht]
      refine ⟨?_, by omega, ?_, by omega, by omega⟩
      · unfold digit_value
        rw [if_neg (by omega), if_pos (by omega), hv]
        congr 1
        omega
      · simp only [isspace, Bool.or_eq_false_iff, decide_eq_false_iff_not,
          Bool.and_eq_false_iff]
        omega
    · split at h
      · rename_i hc1 hc2 hc
        have hv : v = c - 55 := by simpa using h.symm
        have ht : tolower c = c + 32 := by unfold tolower; rw [if_pos (by omega)]
        rw [ht]
        refine ⟨?_, by omega, ?_, by omega, by omega⟩
        · unfold digit_value
          rw [if_neg (by omega), if_pos (by omega), hv]
          congr 1
          omega
        · simp only [isspace, Bool.or_eq_false_iff, decide_eq_false_iff_not,
            Bool.and_eq_false_iff]
          omega
      · simp at h

/-- The conversion `std::stoul(raw_value, nullptr, 16)` of two hexadecimal digits. -/
theorem stoul_hex_pair {h1 h2 v1 v2 : Nat} (hv1 : spec_hex_digit h1 = some v1)
    (hv2 : spec_hex_digit h2 = some v2) :
    stoul (make_lowercase [h1, h2]) 16 = .ok (16 * v1 + v2) := by
  obtain ⟨a1, a2, a3, a4, a5⟩ := hex_digit_lowercase hv1
  obtain ⟨b1, b2, -, -, -⟩ := hex_digit_lowercase hv2
  have hskip : skip_spaces (make_lowercase [h1, h2]) = [tolower h1, tolower h2] := by
    simp [make_lowercase, skip_spaces, a3]
  have hdig : stoul_digits [tolower h1, tolower h2] 16 false = .ok (16 * v1 + v2) := by
    have ht : take_digits 16 [tolower h1, tolower h2] = [v1, v2] := by
      simp [take_digits, a1, a2, b1, b2]
    have hlt : ¬ 2 ^ 64 ≤ 16 * v1 + v2 := by omega
    have hval : digits_value 16 [v1, v2] = 16 * v1 + v2 := by
      simp [digits_value]
      omega
    have hlt2 : ¬ 18446744073709551616 ≤ 16 * v1 + v2 := by omega
    unfold stoul_digits
    simp [ht, hval, hlt2]
  unfold stoul
  rw [hskip]
  split
  · rename_i heq
    exact absurd (List.cons.inj heq).1 a4
  · rename_i heq
    exact absurd (List.cons.inj heq).1 a5
  · exact hdig

/-! ## A bare token with one escaped space -/

theorem escaped_space_chars (u v B : Str) :
    (∀ j, j < u.length → charAt (u ++ [92, 32] ++ v ++ B) j = charAt u j) ∧
      charAt (u ++ [92, 32] ++ v ++ B) u.length = 92 ∧
      charAt (u ++ [92, 32] ++ v ++ B) (u.length + 1) = 32 ∧
      (∀ i, i < v.length → charAt (u ++ [92, 32] ++ v ++ B) (u.length + 2 + i) = charAt v i) ∧
      charAt (u ++ [92, 32] ++ v ++ B) (u.length + 2 + v.length) = charAt B 0 ∧
      (u ++ [92, 32] ++ v ++ B).length = u.length + 2 + v.length + B.length := by
  have e : u ++ [92, 32] ++ v ++ B = u ++ (92 :: 32 :: (v ++ B)) := by simp
  have hl : (u ++ [92, 32]).length = u.length + 2 := by simp
  refine ⟨?_, ?_, ?_, ?_, ?_, ?_⟩
  · intro j hj
    rw [e]
    exact charAt_append_left hj
  · rw [e]
    exact charAt_append_right u _ 0
  · rw [e]
    exact charAt_append_right u _ 1
  · intro i hi
    have := charAt_mid (u ++ [92, 32]) v B hi
    rw [hl] at this
    exact this
  · have := charAt_after (u ++ [92, 32]) v B
    rw [hl] at this
    exact this
  · simp only [List.length_append, List.length_cons, List.length_nil]

theorem interpret_space (out seq : Str) (n : Nat) (hn : n ≠ 0) (h : charAt seq 0 = 32) :
    _interpret_escape_into out n seq = .ok (out ++ [32], 1) := by
  unfold _interpret_escape_into
  rw [if_neg hn]
  simp only [h]
  rfl

/-- The decoding of a word, an escaped space and a word. -/
theorem unescape_escaped_space (u v : Str) (hu : 92 ∉ u) (hv : 92 ∉ v) :
    _unescape_into (u ++ [92, 32] ++ v) 0 = (u ++ [32] ++ v, none) := by
  obtain ⟨f1, f2, f3, f4, -, f6⟩ := escaped_space_chars u v []
  simp only [List.append_nil, List.length_nil, Nat.add_zero] at f1 f2 f3 f4 f6
  generalize ht : u ++ [92, 32] ++ v = t at *
  have r1 := unescape_run t u.length 0 [] (by
    intro j _ hj
    have hj' : j < u.length := by omega
    refine ⟨by omega, ?_⟩
    rw [f1 j hj']
    exact fun hc => hu (hc ▸ charAt_mem hj'))
  simp only [Nat.zero_add, List.nil_append] at r1
  have hint := interpret_space (substr t 0 u.length) (t.drop (u.length + 1))
    (t.length - u.length) (by omega) (by rw [charAt_drop]; exact f3)
  have r2 := @unescape_escape t u.length 1 _ _ (by omega) f2 hint
  have r3 := unescape_run t v.length (u.length + 1 + 1) (substr t 0 u.length ++ [32]) (by
    intro j hj1 hj2
    obtain ⟨i, rfl⟩ : ∃ i, j = u.length + 2 + i := ⟨j - (u.length + 2), by omega⟩
    have hi : i < v.length := by omega
    refine ⟨by omega, ?_⟩
    rw [f4 i hi]
    exact fun hc => hv (hc ▸ charAt_mem hi))
  have s1 : substr t 0 u.length = u := by
    have := substr_append_mid [] u ([92, 32] ++ v)
    rw [← ht]
    simpa using this
  have s2 : substr t (u.length + 1 + 1) v.length = v := by
    have := substr_append_mid (u ++ [92, 32]) v []
    rw [← ht]
    simpa using this
  unfold _unescape_into
  rw [r1, r2, r3, unescape_exit _ (by omega), s1, s2]

/-- One call on a bare token made of a word, an escaped space and a non-empty
word, at the start of the buffer. -/
theorem parse_string_escaped_space_token (u v B : Str) (apos : Nat) (out : Str)
    (required : Bool) (hu : ∀ c ∈ u, c ≠ 32 ∧ c ≠ 92 ∧ c ≠ 34 ∧ c ≠ 39)
    (hv : ∀ c ∈ v, c ≠ 32 ∧ c ≠ 92 ∧ c ≠ 34 ∧ c ≠ 39) (hvne : v ≠ [])
    (hB : B = [] ∨ charAt B 0 = 32) (hn : (u ++ [92, 32] ++ v ++ B).length < npos) :
    parse_string ⟨u ++ [92, 32] ++ v ++ B, 0, apos⟩ out required =
      ⟨⟨u ++ [92, 32] ++ v ++ B, (u ++ [92, 32] ++ v).length, apos + 1⟩,
        u ++ [32] ++ v, .ok true⟩ := by
  obtain ⟨f1, f2, f3, f4, f5, f6⟩ := escaped_space_chars u v B
  have hvpos : 0 < v.length := List.length_pos.2 hvne
  have hun := unescape_escaped_space u v (fun h => (hu _ h).2.1 rfl) (fun h => (hv _ h).2.1 rfl)
  have hsub : substr (u ++ [92, 32] ++ v ++ B) 0 (u.length + 2 + v.length)
      = u ++ [92, 32] ++ v := by
    have := substr_append_mid [] (u ++ [92, 32] ++ v) B
    have hl : (u ++ [92, 32] ++ v).length = u.length + 2 + v.length := by
      simp only [List.length_append, List.length_cons, List.length_nil]
    rw [hl] at this
    simpa using this
  have hlt : (u ++ [92, 32] ++ v).length = u.length + 2 + v.length := by
    simp only [List.length_append, List.length_cons, List.length_nil]
  rw [hlt]
  generalize ha : u ++ [92, 32] ++ v ++ B = a at *
  have hfirst : charAt a 0 ≠ 32 ∧ charAt a 0 ≠ 39 ∧ charAt a 0 ≠ 34 := by
    rcases Nat.eq_zero_or_pos u.length with h0 | h0
    · rw [h0] at f2
      rw [f2]
      omega
    · rw [f1 0 h0]
      have := hu _ (charAt_mem h0)
      exact ⟨this.1, this.2.2.2, this.2.2.1⟩
  have hp : 0 < a.length := by omega
  have hnext := next_stay ⟨a, 0, apos⟩ hp hn hfirst.1
  have hex := not_exhausted ⟨a, 0, apos⟩ hp hn
  have hge : ¬ 0 ≥ a.length := by omega
  have hquote : ¬ (charAt a 0 = 39 ∨ charAt a 0 = 34) := fun h => h.elim hfirst.2.1 hfirst.2.2
  have w1 := ws_run a (u.length + 1) 0 (by
    intro j _ hj
    refine ⟨by omega, ?_, ?_⟩
    · rcases Nat.lt_or_ge j u.length with h | h
      · rw [f1 j h]
        exact (hu _ (charAt_mem h)).1
      · have : j = u.length := by omega
        rw [this, f2]
        omega
    · rcases Nat.eq_zero_or_pos j with h | h
      · left; exact h
      · right
        rw [f1 (j - 1) (by omega)]
        exact (hu _ (charAt_mem (by omega))).2.1)
  have w2 := ws_escaped (a := a) (i := u.length + 1) (by omega) (by omega)
    (by simpa using f2) (by
      rcases Nat.eq_zero_or_pos u.length with h | h
      · left; omega
      · right
        have e : u.length + 1 - 2 = u.length - 1 := by omega
        rw [e, f1 _ (by omega)]
        exact (hu _ (charAt_mem (by omega))).2.1)
  have w3 := ws_run a (v.length - 1) (u.length + 1 + 2) (by
    intro j hj1 hj2
    obtain ⟨i, rfl⟩ : ∃ i, j = u.length + 2 + (i + 1) := ⟨j - (u.length + 3), by omega⟩
    have hi : i + 1 < v.length := by omega
    refine ⟨by omega, ?_, Or.inr ?_⟩
    · rw [f4 _ hi]
      exact (hv _ (charAt_mem hi)).1
    · have e : u.length + 2 + (i + 1) - 1 = u.length + 2 + i := by omega
      rw [e, f4 i (by omega)]
      exact (hv _ (charAt_mem (by omega))).2.1)
  have e3 : u.length + 1 + 2 + (v.length - 1) = u.length + 2 + v.length := by omega
  rw [e3] at w3
  simp only [Nat.zero_add] at w1
  have hlast : charAt a (u.length + 2 + v.length - 1) ≠ 92 := by
    have e : u.length + 2 + v.length - 1 = u.length + 2 + (v.length - 1) := by omega
    rw [e, f4 _ (by omega)]
    exact (hv _ (charAt_mem (by omega))).2.1
  have hscan : ∃ found, _find_unescaped_whitespace a 0 = .ok found ∧
      (match found with
        | some x => x
        | none => a.length) = u.length + 2 + v.length := by
    rw [w1, w2, w3]
    rcases hB with h | h
    · have hl : a.length = u.length + 2 + v.length := by rw [f6, h]; rfl
      refine ⟨none, ?_, hl⟩
      rw [ws_exit (by omega)]
      unfold _find_unescaped_whitespace_exit
      rw [if_neg hlast]
    · have hBpos : 0 < B.length := by
        rcases Nat.eq_zero_or_pos B.length with h0 | h0
        · rw [charAt_beyond (by omega)] at h
          omega
        · exact h0
      refine ⟨some (u.length + 2 + v.length), ?_, rfl⟩
      rw [ws_found (by omega) (Or.inr hlast) (by rw [f5]; exact h)]
  obtain ⟨found, hf1, hf2⟩ := hscan
  unfold parse_string
  simp only [hnext, hge, and_false, if_false, hex, Bool.false_eq_true, hquote, hf1, hf2,
    Nat.sub_zero, hsub, hun]

/-! ## States without a token -/

theorem fnf_none (c : Nat) : ∀ (l : Str) (i : Nat),
    find_first_not_of_from c l i = none ↔ ∀ x ∈ l, x = c := by
  intro l
  induction l with
  | nil => intro i; simp [find_first_not_of_from]
  | cons x xs ih =>
    intro i
    by_cases hx : x = c
    · simp [find_first_not_of_from, hx, ih (i + 1)]
    · simp [find_first_not_of_from, hx]

theorem fnf_some_lt (c : Nat) : ∀ (l : Str) (i k : Nat),
    find_first_not_of_from c l i = some k → k < i + l.length := by
  intro l
  induction l with
  | nil => intro i k h; simp [find_first_not_of_from] at h
  | cons x xs ih =>
    intro i k h
    by_cases hx : x = c
    · simp only [find_first_not_of_from, hx, ne_eq, not_true_eq_false, if_false] at h
      have := ih (i + 1) k h
      simp only [List.length_cons]
      omega
    · simp only [find_first_not_of_from, ne_eq, hx, not_false_eq_true, if_true,
        Option.some.injEq] at h
      simp only [List.length_cons]
      omega

theorem mem_drop_charAt {a : Str} {s x : Nat} (h : x ∈ a.drop s) :
    ∃ j, s ≤ j ∧ j < a.length ∧ charAt a j = x := by
  have h2 : x ∈ substr a s a.length := by
    unfold substr
    rw [List.take_of_length_le (by simp)]
    exact h
  obtain ⟨j, h1, _, h3, h4⟩ := mem_substr h2
  exact ⟨j, h1, h3, h4⟩

theorem exhausted_iff (p : ArglineParser) (hn : p.m_argline.length < npos) :
    p.exhausted = true ↔ p.m_argline.length ≤ p.m_pos := by
  simp only [exhausted, Bool.or_eq_true, decide_eq_true_eq, ge_iff_le]
  constructor
  · rintro (h | h)
    · omega
    · exact h
  · exact fun h => Or.inr h

/-- After `_next` the parser is exhausted exactly when nothing but spaces was
left; `_next` changes the raw position only. -/
theorem next_exhausted_iff (p : ArglineParser) (hn : p.m_argline.length < npos) :
    ((p._next).exhausted = true ↔ no_token_remains p) ∧
      (p._next).m_argline = p.m_argline ∧ (p._next).m_argument_pos = p.m_argument_pos := by
  by_cases hex : p.exhausted = true
  · have hle := (exhausted_iff p hn).1 hex
    have hnext : p._next = p := by unfold _next; rw [if_pos hex]
    rw [hnext]
    exact ⟨⟨fun _ j h1 h2 => by omega, fun _ => hex⟩, rfl, rfl⟩
  · have hlt : p.m_pos < p.m_argline.length := by
      have := (exhausted_iff p hn).not.1 hex
      omega
    cases hf : find_first_not_of p.m_argline 32 p.m_pos with
    | none =>
      have hnext : p._next = { p with m_pos := p.m_argline.length } := by
        unfold _next
        rw [if_neg hex, hf]
      rw [hnext]
      refine ⟨⟨fun _ j h1 h2 => ?_, fun _ => by simp [exhausted]⟩, rfl, rfl⟩
      have hall := (fnf_none 32 _ _).1 hf
      have hm : charAt p.m_argline j ∈ p.m_argline.drop p.m_pos := by
        obtain ⟨d, rfl⟩ := Nat.exists_eq_add_of_le h1
        rw [← charAt_drop]
        exact charAt_mem (by simp; omega)
      exact hall _ hm
    | some k =>
      have hk := fnf_some_lt 32 _ _ _ hf
      simp only [List.length_drop] at hk
      have hnext : p._next = { p with m_pos := min k p.m_argline.length } := by
        unfold _next
        rw [if_neg hex, hf]
      rw [hnext]
      refine ⟨⟨fun h => ?_, fun h => ?_⟩, rfl, rfl⟩
      · exfalso
        have := (exhausted_iff { p with m_pos := min k p.m_argline.length } hn).1 h
        simp only at this
        omega
      · exfalso
        have hall : ∀ x ∈ p.m_argline.drop p.m_pos, x = 32 := by
          intro x hx
          obtain ⟨j, h1, h2, h3⟩ := mem_drop_charAt hx
          rw [← h3]
          exact h j h1 h2
        have := (fnf_none 32 _ p.m_pos).2 hall
        unfold find_first_not_of at hf
        rw [this] at hf
        exact Option.noConfusion hf

/-- Every operation built on the shared numeric body behaves as the
specification asks when no token is left. -/
theorem absent_parse_number {α : Type} (conv : Str → Except Error α) (p : ArglineParser)
    (hno : no_token_remains p) (hn : p.m_argline.length < npos) :
    absent_behaviour (parse_number conv) p := by
  obtain ⟨h1, h2, h3⟩ := next_exhausted_iff p hn
  have hex := h1.2 hno
  have hle : (p._next).m_pos ≥ (p._next).m_argline.length := by
    have := (exhausted_iff p._next (by rw [h2]; exact hn)).1 hex
    exact this
  intro out
  unfold parse_number
  simp [hex, hle, h3]

/-! ## Space-delimited tokens and decimal literals -/

theorem fof_append (t : Str) (h32 : 32 ∉ t) (B : Str) : ∀ (i : Nat),
    find_first_of_from 32 (t ++ B) i = find_first_of_from 32 B (i + t.length) := by
  induction t with
  | nil => intro i; rfl
  | cons x xs ih =>
    intro i
    have hx : x ≠ 32 := fun h => h32 (h ▸ List.mem_cons_self _ _)
    have hxs : 32 ∉ xs := fun h => h32 (List.mem_cons_of_mem _ h)
    show find_first_of_from 32 (x :: (xs ++ B)) i = _
    rw [find_first_of_from, if_neg hx, ih hxs (i + 1)]
    congr 1
    simp only [List.length_cons]
    omega

/-- The end of a token without space that is followed by a space or by the end
of the buffer. -/
theorem token_end_at (A t B : Str) (apos : Nat) (h32 : 32 ∉ t)
    (hB : B = [] ∨ charAt B 0 = 32) :
    token_end ⟨A ++ t ++ B, A.length, apos⟩ = A.length + t.length := by
  unfold token_end find_first_of
  simp only
  rw [List.append_assoc, List.drop_left, fof_append t h32 B]
  cases B with
  | nil => simp [find_first_of_from]
  | cons x xs =>
    have hx : x = 32 := by
      rcases hB with h | h
      · exact absurd h (List.cons_ne_nil _ _)
      · exact h
    simp [find_first_of_from, hx]

/-- The shared numeric body on a token without space. -/
theorem parse_number_at {α : Type} (conv : Str → Except Error α) (A t B : Str) (apos : Nat)
    (out v : α) (required : Bool) (hne : t ≠ []) (h32 : 32 ∉ t)
    (hB : B = [] ∨ charAt B 0 = 32) (hn : (A ++ t ++ B).length < npos)
    (hconv : conv t = .ok v) :
    parse_number conv ⟨A ++ t ++ B, A.length, apos⟩ out required =
      ⟨⟨A ++ t ++ B, A.length + t.length, apos + 1⟩, v, .ok true⟩ := by
  have hpos : 0 < t.length := List.length_pos.2 hne
  have hp : A.length < (A ++ t ++ B).length := by
    simp only [List.length_append]; omega
  have h0 : charAt (A ++ t ++ B) A.length ≠ 32 := by
    have := charAt_mid A t B hpos
    rw [Nat.add_zero] at this
    rw [this]
    exact fun hc => h32 (hc ▸ charAt_mem hpos)
  have hnext := next_stay ⟨A ++ t ++ B, A.length, apos⟩ hp hn h0
  have hex := not_exhausted ⟨A ++ t ++ B, A.length, apos⟩ hp hn
  have hge : ¬ A.length ≥ (A ++ t ++ B).length := by omega
  have hend := token_end_at A t B apos h32 hB
  have e1 : A.length + t.length - A.length = t.length := by omega
  unfold parse_number
  simp only [hnext, hge, and_false, if_false, hex, Bool.false_eq_true, hend, e1,
    substr_append_mid, hconv]

/-- Leading spaces are skipped before a number is read. -/
theorem parse_number_skip {α : Type} (conv : Str → Except Error α) (pre rest : Str)
    (k c apos : Nat) (out : α) (required : Bool) (hc : c ≠ 32)
    (hn : (pre ++ List.replicate k 32 ++ c :: rest).length < npos) :
    parse_number conv ⟨pre ++ List.replicate k 32 ++ c :: rest, pre.length, apos⟩ out required =
      parse_number conv ⟨pre ++ List.replicate k 32 ++ c :: rest, pre.length + k, apos⟩
        out required := by
  have h1 := next_skip pre rest k c apos hc hn
  have h2 := next_stay ⟨pre ++ List.replicate k 32 ++ c :: rest, pre.length + k, apos⟩
    (by simp) hn (by
      have := charAt_append_right (pre ++ List.replicate k 32) (c :: rest) 0
      simp only [List.length_append, List.length_replicate, Nat.add_zero] at this
      simp only
      rw [this]
      exact hc)
  unfold parse_number
  rw [h1, h2]

theorem take_digits_map (L : List Nat) (hL : ∀ d ∈ L, d < 10) :
    take_digits 10 (L.map (fun d => d + 48)) = L := by
  induction L with
  | nil => rfl
  | cons d ds ih =>
    have hd : d < 10 := hL d (List.mem_cons_self _ _)
    have hv : digit_value (d + 48) = some d := by
      unfold digit_value
      rw [if_pos (by omega)]
      simp
    simp only [List.map_cons, take_digits, hv, hd, if_true]
    rw [ih (fun x hx => hL x (List.mem_cons_of_mem _ hx))]

theorem digits_value_reverse (L : List Nat) :
    digits_value 10 L.reverse = Nat.ofDigits 10 L := by
  unfold digits_value
  rw [List.foldl_reverse]
  induction L with
  | nil => rfl
  | cons d ds ih =>
    simp only [List.foldr_cons, Nat.ofDigits_cons, ih]
    ring

/-- The literal of a natural number: decimal digits only, read back by the
digit scan as the number. -/
theorem decimal_literal_nat_spec (n : Nat) :
    decimal_literal_nat n ≠ [] ∧ (∀ c ∈ decimal_literal_nat n, 48 ≤ c ∧ c ≤ 57) ∧
      take_digits 10 (decimal_literal_nat n) ≠ [] ∧
      digits_value 10 (take_digits 10 (decimal_literal_nat n)) = n := by
  unfold decimal_literal_nat
  by_cases h0 : n = 0
  · subst h0
    simp [take_digits, digit_value, digits_value]
  · rw [if_neg h0]
    have hL : ∀ d ∈ (Nat.digits 10 n).reverse, d < 10 := by
      intro d hd
      exact Nat.digits_lt_base (by norm_num) (List.mem_reverse.1 hd)
    have hne : (Nat.digits 10 n).reverse ≠ [] := by
      simpa using Nat.digits_ne_nil_iff_ne_zero.2 h0
    refine ⟨by simpa using hne, ?_, ?_, ?_⟩
    · intro c hc
      obtain ⟨d, hd, rfl⟩ := List.mem_map.1 hc
      have := hL d hd
      omega
    · rw [take_digits_map _ hL]
      exact hne
    · rw [take_digits_map _ hL, digits_value_reverse, Nat.ofDigits_digits]

/-- The function `std::stoi` on the decimal literal of an `int`. -/
theorem stoi_decimal_literal (a : Int) (ha : -(2 ^ 31) ≤ a ∧ a ≤ 2 ^ 31 - 1) :
    stoi (decimal_literal a) = .ok a ∧ decimal_literal a ≠ [] ∧ 32 ∉ decimal_literal a := by
  obtain ⟨h1, h2, h3, h4⟩ := decimal_literal_nat_spec a.natAbs
  obtain ⟨c, tl, hct⟩ := List.exists_cons_of_ne_nil h1
  have hc : 48 ≤ c ∧ c ≤ 57 := h2 c (by rw [hct]; exact List.mem_cons_self _ _)
  have hsp : isspace c = false := by
    simp only [isspace, Bool.or_eq_false_iff, decide_eq_false_iff_not, Bool.and_eq_false_iff]
    omega
  have hno32 : 32 ∉ decimal_literal_nat a.natAbs := fun h => by
    have := h2 32 h
    omega
  by_cases hneg : a < 0
  · have hd : decimal_literal a = 45 :: decimal_literal_nat a.natAbs := by
      unfold decimal_literal
      rw [if_pos hneg]
    refine ⟨?_, by rw [hd]; exact List.cons_ne_nil _ _, ?_⟩
    · have hval : -((a.natAbs : Nat) : Int) = a := by omega
      have hskip : skip_spaces (45 :: decimal_literal_nat a.natAbs)
          = 45 :: decimal_literal_nat a.natAbs := by
        simp [skip_spaces, isspace]
      unfold stoi stol_range
      rw [hd, hskip]
      simp only [h3, h4, if_false, if_true, hval]
      rw [if_neg (by omega)]
    · rw [hd]
      intro h
      rcases List.mem_cons.1 h with h | h
      · omega
      · exact hno32 h
  · have hd : decimal_literal a = decimal_literal_nat a.natAbs := by
      unfold decimal_literal
      rw [if_neg hneg]
    refine ⟨?_, by rw [hd]; exact h1, by rw [hd]; exact hno32⟩
    have hval : ((a.natAbs : Nat) : Int) = a := by omega
    unfold stoi stol_range
    rw [hd]
    have hskip : skip_spaces (decimal_literal_nat a.natAbs) = c :: tl := by
      rw [hct]
      simp [skip_spaces, hsp]
    rw [hskip]
    split
    · rename_i heq
      have := (List.cons.inj heq).1
      omega
    · rename_i heq
      have := (List.cons.inj heq).1
      omega
    · simp only [← hct, h3, h4, if_false, hval]
      rw [if_neg (by omega)]
      simp

set_option maxRecDepth 20000 in
theorem utf8_lead_masks : ∀ b, b < 256 →
    (192 ≤ b ∧ b ≤ 223 → bit_not8 b &&& 128 = 0 ∧ b &&& 224 = 192) ∧
    (224 ≤ b ∧ b ≤ 239 → bit_not8 b &&& 128 = 0 ∧ b &&& 224 ≠ 192 ∧ b &&& 240 = 224) ∧
    (240 ≤ b ∧ b ≤ 247 →
      bit_not8 b &&& 128 = 0 ∧ b &&& 224 ≠ 192 ∧ b &&& 240 ≠ 224 ∧ b &&& 248 = 240) := by
  decide

/-! ## The claims -/

/-- C1: strings without backslash and without quote character, each written
bare (only when non-empty and without space) or between two matching quotes, the
written tokens separated by one or more spaces (spaces before the first one are
allowed as well) and nothing after the last one: as many `parse_string` calls as
there are strings return exactly the strings, in order, and the parser is
exhausted afterwards. -/
theorem parse_strings_written_line (ts : List (Nat × Written))
    (hwf : ∀ t ∈ ts, t.2.well_formed) (hsep : ∀ t ∈ ts.tail, 1 ≤ t.1)
    (hn : (render_line ts).length < npos) :
    (parse_strings ts.length (create (render_line ts) 0)).1
        = .ok (ts.map (fun t => t.2.text)) ∧
      (parse_strings ts.length (create (render_line ts) 0)).2.exhausted = true := by
  have h := parse_strings_line ts [] 0 hwf hsep (Or.inl rfl) (by simpa using hn)
  simp only [List.nil_append, List.length_nil] at h
  unfold create
  rw [h]
  simp [exhausted]

/-- The line `title "hello world"` yields `title` and `hello world`. -/
theorem parse_strings_written_line_witness :
    (parse_strings 2 (create (render_line
        [(0, .bare [116, 105, 116, 108, 101]),
         (1, .quoted 34 [104, 101, 108, 108, 111, 32, 119, 111, 114, 108, 100])]) 0)).1
        = .ok [[116, 105, 116, 108, 101], [104, 101, 108, 108, 111, 32, 119, 111, 114, 108, 100]] ∧
      (parse_strings 2 (create (render_line
        [(0, .bare [116, 105, 116, 108, 101]),
         (1, .quoted 34 [104, 101, 108, 108, 111, 32, 119, 111, 114, 108, 100])]) 0)).2.exhausted
        = true :=
  parse_strings_written_line
    [(0, .bare [116, 105, 116, 108, 101]),
     (1, .quoted 34 [104, 101, 108, 108, 111, 32, 119, 111, 114, 108, 100])]
    (by simp [Written.well_formed]) (by simp) (by simp [render_line, Written.render, npos])

/-- C2 (the code departs from it): on the five characters double quote, `a`,
backslash, double quote, double quote the scan for the closing quote steps over
the escaped quote and over the character after it, so that `parse_string` throws
`unclosed_quote` and neither moves the cursor nor counts an argument. -/
theorem parse_string_escaped_quote_then_close :
    (parse_string (create [34, 97, 92, 34, 34] 0) [] true).result = .error .unclosed_quote ∧
      (parse_string (create [34, 97, 92, 34, 34] 0) [] true).parser
        = create [34, 97, 92, 34, 34] 0 := by
  constructor <;> rfl

/-- C3 (the code departs from it): on the five characters `a`, backslash, `n`,
space, `b` the first `parse_string` does not stop at the space, which follows an
escape sequence: it returns `a`, line feed, space, `b` and exhausts the buffer,
and the second call throws `not_enough_arguments`. -/
theorem parse_string_space_after_escape :
    parse_string (create [97, 92, 110, 32, 98] 0) [] true
        = ⟨⟨[97, 92, 110, 32, 98], 5, 1⟩, [97, 10, 32, 98], .ok true⟩ ∧
      (parse_strings 2 (create [97, 92, 110, 32, 98] 0)).1
        = .error .not_enough_arguments := by
  constructor <;> rfl

/-- C4 (the code departs from it): the quoted token double quote, `a`, backslash,
backslash, double quote is not closed by its last character (`unclosed_quote`),
and the bare token of four backslashes is rejected for its last backslash
(`unexpected_escape_character`), although both end with an even run. -/
theorem parse_string_even_backslash_runs :
    (parse_string (create [34, 97, 92, 92, 34] 0) [] true).result
        = .error .unclosed_quote ∧
      (parse_string (create [92, 92, 92, 92] 0) [] true).result
        = .error (.unexpected_escape_character 4) := by
  constructor <;> rfl

/-- C5: for words `u`, `v`, `w` without space, backslash or quote character, `v`
and `w` non-empty, on the line `u`, backslash, space, `v`, space, `w` the first
`parse_string` returns `u`, space, `v` and the second returns `w`. -/
theorem parse_strings_escaped_space (u v w : Str)
    (hu : ∀ c ∈ u, c ≠ 32 ∧ c ≠ 92 ∧ c ≠ 34 ∧ c ≠ 39)
    (hv : ∀ c ∈ v, c ≠ 32 ∧ c ≠ 92 ∧ c ≠ 34 ∧ c ≠ 39)
    (hw : ∀ c ∈ w, c ≠ 32 ∧ c ≠ 92 ∧ c ≠ 34 ∧ c ≠ 39) (hvne : v ≠ []) (hwne : w ≠ [])
    (hn : (u ++ [92, 32] ++ v ++ [32] ++ w).length < npos) :
    (parse_strings 2 (create (u ++ [92, 32] ++ v ++ [32] ++ w) 0)).1
      = .ok [u ++ [32] ++ v, w] := by
  have hb : u ++ [92, 32] ++ v ++ [32] ++ w
      = (u ++ [92, 32] ++ v) ++ List.replicate 1 32 ++ (Written.bare w).render ++ [] := by
    simp [Written.render]
  have ha : u ++ [92, 32] ++ v ++ (32 :: w)
      = (u ++ [92, 32] ++ v) ++ List.replicate 1 32 ++ (Written.bare w).render ++ [] := by
    simp [Written.render]
  rw [hb] at hn ⊢
  have first := parse_string_escaped_space_token u v (32 :: w) 0 [] true hu hv hvne
    (Or.inr rfl) (by rw [ha]; exact hn)
  rw [ha] at first
  have hvpos : 0 < v.length := List.length_pos.2 hvne
  have hpre : u ++ [92, 32] ++ v = [] ∨
      charAt (u ++ [92, 32] ++ v) ((u ++ [92, 32] ++ v).length - 1) ≠ 92 := by
    right
    obtain ⟨-, -, -, f4, -, f6⟩ := escaped_space_chars u v []
    simp only [List.append_nil, List.length_nil, Nat.add_zero] at f4 f6
    have e : (u ++ [92, 32] ++ v).length - 1 = u.length + 2 + (v.length - 1) := by omega
    rw [e, f4 _ (by omega)]
    exact (hv _ (charAt_mem (by omega))).2.1
  have second := parse_string_written (u ++ [92, 32] ++ v) [] 1 (0 + 1) (.bare w) [] true
    ⟨hwne, fun h => (hw _ h).1 rfl, fun h => (hw _ h).2.1 rfl, fun h => (hw _ h).2.2.1 rfl,
      fun h => (hw _ h).2.2.2 rfl⟩ hpre (Or.inl rfl) hn
  unfold create
  simp only [parse_strings, first, second, Written.text]

/-- The line `a`, backslash, space, `b`, space, `c` yields `a b` and `c`. -/
theorem parse_strings_escaped_space_witness :
    (parse_strings 2 (create ([97] ++ [92, 32] ++ [98] ++ [32] ++ [99]) 0)).1
      = .ok [[97] ++ [32] ++ [98], [99]] :=
  parse_strings_escaped_space [97] [98] [99] (by simp) (by simp) (by simp) (by simp) (by simp)
    (by simp [npos])

/-- C6: when the next token, after any number of spaces, starts with a quote
character `q` that does not occur again in the buffer, `parse_string` throws
`unclosed_quote` and does not advance the argument position. -/
theorem parse_string_unclosed_quote (pre rest : Str) (k q apos : Nat) (out : Str)
    (required : Bool) (hq : q = 39 ∨ q = 34) (hrest : q ∉ rest)
    (hn : (pre ++ List.replicate k 32 ++ q :: rest).length < npos) :
    (parse_string ⟨pre ++ List.replicate k 32 ++ q :: rest, pre.length, apos⟩ out
        required).result = .error .unclosed_quote ∧
      (parse_string ⟨pre ++ List.replicate k 32 ++ q :: rest, pre.length, apos⟩ out
        required).parser.m_argument_pos = apos := by
  have hq32 : q ≠ 32 := by rcases hq with h | h <;> omega
  have hq0 : q ≠ 0 := by rcases hq with h | h <;> omega
  have hlenA : (pre ++ List.replicate k 32).length = pre.length + k := by simp
  rw [parse_string_skip pre rest k q apos out required hq32 hn]
  have h := parse_string_unclosed ⟨pre ++ List.replicate k 32 ++ q :: rest, pre.length + k, apos⟩
    out required q (by simp) hn hq
    (by
      have := charAt_append_right (pre ++ List.replicate k 32) (q :: rest) 0
      rw [hlenA] at this
      exact this)
    (by
      intro j hj
      simp only at hj
      obtain ⟨i, rfl⟩ : ∃ i, j = (pre ++ List.replicate k 32).length + (i + 1) :=
        ⟨j - (pre.length + k) - 1, by rw [hlenA]; omega⟩
      simp only
      rw [charAt_append_right, charAt_succ_cons]
      rcases Nat.lt_or_ge i rest.length with hi | hi
      · exact fun hc => hrest (hc ▸ charAt_mem hi)
      · rw [charAt_beyond hi]
        exact fun hc => hq0 hc.symm)
  rw [h]
  exact ⟨rfl, rfl⟩

/-- The line of two spaces, a single quote and `it is` has no closing quote. -/
theorem parse_string_unclosed_quote_witness :
    (parse_string ⟨[115] ++ List.replicate 2 32 ++ 39 :: [105, 116, 32, 105, 115], 1, 1⟩ []
        true).result = .error .unclosed_quote ∧
      (parse_string ⟨[115] ++ List.replicate 2 32 ++ 39 :: [105, 116, 32, 105, 115], 1, 1⟩ []
        true).parser.m_argument_pos = 1 :=
  parse_string_unclosed_quote [115] [105, 116, 32, 105, 115] 2 39 1 [] true (by simp) (by simp)
    (by simp [npos])

/-- C7: a last token that is unquoted, has no space and ends, at the end of the
buffer, with a backslash preceded by an even number (`2 * m`, possibly zero) of
backslashes, makes `parse_string` throw `unexpected_escape_character`; the
argument position is not advanced. -/
theorem parse_string_trailing_backslash (pre stem : Str) (m apos : Nat) (out : Str)
    (required : Bool) (hsp : 32 ∉ stem)
    (hq : stem.head? ≠ some 39 ∧ stem.head? ≠ some 34) (hstem : stem.getLast? ≠ some 92)
    (hn : (pre ++ (stem ++ List.replicate (2 * m) 92 ++ [92])).length < npos) :
    ∃ i, (parse_string ⟨pre ++ (stem ++ List.replicate (2 * m) 92 ++ [92]), pre.length, apos⟩
        out required).result = .error (.unexpected_escape_character i) ∧
      (parse_string ⟨pre ++ (stem ++ List.replicate (2 * m) 92 ++ [92]), pre.length, apos⟩
        out required).parser.m_argument_pos = apos := by
  obtain ⟨ht1, ht2⟩ := token_tail stem m hstem
  generalize htok : stem ++ List.replicate (2 * m) 92 ++ [92] = tok at *
  have htpos : 0 < tok.length := by rw [← htok]; simp
  have hlen : (pre ++ tok).length = pre.length + tok.length := by simp
  have hin : ∀ i, i < tok.length → charAt (pre ++ tok) (pre.length + i) = charAt tok i :=
    fun i _ => charAt_append_right pre tok i
  have hmem : ∀ c ∈ tok, c ≠ 32 := by
    intro c hc h32
    rw [← htok, h32] at hc
    simp only [List.mem_append, List.mem_singleton] at hc
    rcases hc with (hc | hc) | hc
    · exact hsp hc
    · have := List.eq_of_mem_replicate hc
      omega
    · omega
  have hhead : charAt tok 0 ≠ 39 ∧ charAt tok 0 ≠ 34 := by
    rw [← htok]
    cases stem with
    | nil =>
      cases m with
      | zero => simp [charAt]
      | succ m =>
        have : 2 * (m + 1) = (2 * m + 1) + 1 := by omega
        rw [this, List.replicate_succ]
        simp [charAt]
    | cons c tl =>
      simp only [List.head?_cons, ne_eq, Option.some.injEq] at hq
      simpa [charAt] using hq
  have h0 := hin 0 htpos
  rw [Nat.add_zero] at h0
  have hp : pre.length < (pre ++ tok).length := by omega
  have hnext := next_stay ⟨pre ++ tok, pre.length, apos⟩ hp hn
    (by simp only; rw [h0]; exact hmem _ (charAt_mem htpos))
  have hex := not_exhausted ⟨pre ++ tok, pre.length, apos⟩ hp hn
  have hge : ¬ pre.length ≥ (pre ++ tok).length := by omega
  have hquote : ¬ (charAt (pre ++ tok) pre.length = 39 ∨ charAt (pre ++ tok) pre.length = 34) := by
    rw [h0]
    exact fun h => h.elim hhead.1 hhead.2
  have hlast : charAt (pre ++ tok) ((pre ++ tok).length - 1) = 92 := by
    have := hin (tok.length - 1) (by omega)
    have e : (pre ++ tok).length - 1 = pre.length + (tok.length - 1) := by omega
    rw [e, this]
    exact ht1
  have hsp2 : ∀ j, pre.length ≤ j → j < (pre ++ tok).length → charAt (pre ++ tok) j ≠ 32 := by
    intro j hj1 hj2
    obtain ⟨i, rfl⟩ := Nat.exists_eq_add_of_le hj1
    have hi : i < tok.length := by omega
    rw [hin i hi]
    exact hmem _ (charAt_mem hi)
  by_cases hN : (1 ≤ (pre ++ tok).length - 1 ∧ charAt (pre ++ tok) ((pre ++ tok).length - 2) = 92 ∧
      ((pre ++ tok).length - 1 < 2 ∨ charAt (pre ++ tok) ((pre ++ tok).length - 3) ≠ 92))
  · obtain ⟨hN1, hN2, hN3⟩ := hN
    have hone : tok.length = 1 := by
      by_contra hc
      have h2 : 2 ≤ tok.length := by omega
      have e2 : (pre ++ tok).length - 2 = pre.length + (tok.length - 2) := by omega
      rw [e2, hin _ (by omega)] at hN2
      obtain ⟨h3, h4⟩ := ht2 h2 hN2
      have e3 : (pre ++ tok).length - 3 = pre.length + (tok.length - 3) := by omega
      rw [e3, hin _ (by omega)] at hN3
      rcases hN3 with h | h
      · omega
      · exact h h4
    have hpl : pre.length = (pre ++ tok).length - 1 := by omega
    have hscan : _find_unescaped_whitespace (pre ++ tok) pre.length = .ok none := by
      have e1 : pre.length - 1 = (pre ++ tok).length - 2 := by omega
      have e2 : pre.length - 2 = (pre ++ tok).length - 3 := by omega
      rw [ws_escaped hp (by omega) (by rw [e1]; exact hN2)
        (by rw [e2]; rcases hN3 with h | h
            · left; omega
            · right; exact h),
        ws_exit (by omega)]
      have e3 : pre.length + 2 - 1 = (pre ++ tok).length := by omega
      unfold _find_unescaped_whitespace_exit
      rw [e3, charAt_length]
      rfl
    have hsub : substr (pre ++ tok) pre.length ((pre ++ tok).length - pre.length) = tok := by
      have := substr_append_mid pre tok []
      have e : (pre ++ tok).length - pre.length = tok.length := by omega
      rw [e]
      simpa using this
    have hun : _unescape_into tok 0 = ([], some (.unexpected_escape_character 0)) := by
      have h0t : charAt tok 0 = 92 := by
        have e : tok.length - 1 = 0 := by omega
        rw [e] at ht1
        exact ht1
      exact unescape_trailing [] (by omega) h0t
    refine ⟨0, ?_⟩
    unfold parse_string
    simp only [hnext, hge, and_false, if_false, hex, Bool.false_eq_true, hquote, hscan, hsub,
      hun, and_self]
  · have hscan := ws_trailing (pre ++ tok) pre.length hlast hN hsp2
      ((pre ++ tok).length - pre.length) pre.length (le_refl _) (le_refl _) (by omega)
    refine ⟨(pre ++ tok).length, ?_⟩
    unfold parse_string
    simp only [hnext, hge, and_false, if_false, hex, Bool.false_eq_true, hquote, hscan,
      and_self]

/-- The line `ls dir`, backslash, backslash, backslash ends with a backslash after
two backslashes. -/
theorem parse_string_trailing_backslash_witness :
    ∃ i, (parse_string ⟨[108, 115, 32] ++ ([100, 105, 114] ++ List.replicate (2 * 1) 92 ++ [92]),
        3, 1⟩ [] true).result = .error (.unexpected_escape_character i) ∧
      (parse_string ⟨[108, 115, 32] ++ ([100, 105, 114] ++ List.replicate (2 * 1) 92 ++ [92]),
        3, 1⟩ [] true).parser.m_argument_pos = 1 :=
  parse_string_trailing_backslash [108, 115, 32] [100, 105, 114] 1 1 [] true (by simp)
    (by simp) (by simp) (by simp [npos])

/-- C8: at a backslash followed by one of the listed characters the decoder
appends exactly the byte of the table (`_interpret_escape_into` returns 1) and
goes on with the character after the pair. -/
theorem unescape_single_character_escape (inp : Str) (i c b : Nat) (out : Str)
    (hcb : (c, b) ∈ spec_single_character_escapes) (hi : i + 1 < inp.length)
    (h0 : charAt inp i = 92) (h1 : charAt inp (i + 1) = c) :
    _interpret_escape_into out (inp.length - i) (inp.drop (i + 1)) = .ok (out ++ [b], 1) ∧
      _unescape_into_loop inp (inp.length - i) i out =
        _unescape_into_loop inp (inp.length - (i + 2)) (i + 2) (out ++ [b]) := by
  have hn : inp.length - i ≠ 0 := by omega
  have hseq : charAt (inp.drop (i + 1)) 0 = c := by rw [charAt_drop]; exact h1
  have hint : _interpret_escape_into out (inp.length - i) (inp.drop (i + 1))
      = .ok (out ++ [b], 1) := by
    unfold _interpret_escape_into
    rw [if_neg hn]
    simp only [hseq]
    simp only [spec_single_character_escapes, List.mem_cons, Prod.mk.injEq,
      List.mem_singleton, List.not_mem_nil, or_false] at hcb
    rcases hcb with h | h | h | h | h | h | h | h | h | h | h | h <;>
      (obtain ⟨rfl, rfl⟩ := h; rfl)
  exact ⟨hint, unescape_escape hi h0 hint⟩

/-- In `a`, backslash, `n`, `b` the pair at index 1 becomes a line feed. -/
theorem unescape_single_character_escape_witness :
    _interpret_escape_into [97] ([97, 92, 110, 98].length - 1) ([97, 92, 110, 98].drop (1 + 1))
        = .ok ([97] ++ [10], 1) ∧
      _unescape_into_loop [97, 92, 110, 98] ([97, 92, 110, 98].length - 1) 1 [97] =
        _unescape_into_loop [97, 92, 110, 98] ([97, 92, 110, 98].length - (1 + 2)) (1 + 2)
          ([97] ++ [10]) :=
  unescape_single_character_escape [97, 92, 110, 98] 1 110 10 [97]
    (by simp [spec_single_character_escapes]) (by simp) rfl rfl

/-- C9: at backslash, `x` and two hexadecimal digits (upper or lower case) of
values `v1` and `v2` the decoder appends exactly the byte `16 * v1 + v2`, values
from 0x80 to 0xFF included, and goes on with the character after the second
digit. -/
theorem unescape_hex_escape (inp : Str) (i h1 h2 v1 v2 : Nat) (out : Str)
    (hv1 : spec_hex_digit h1 = some v1) (hv2 : spec_hex_digit h2 = some v2)
    (hi : i + 3 < inp.length) (h0 : charAt inp i = 92) (hx : charAt inp (i + 1) = 120)
    (hh1 : charAt inp (i + 2) = h1) (hh2 : charAt inp (i + 3) = h2) :
    _interpret_escape_into out (inp.length - i) (inp.drop (i + 1))
        = .ok (out ++ [16 * v1 + v2], 3) ∧
      _unescape_into_loop inp (inp.length - i) i out =
        _unescape_into_loop inp (inp.length - (i + 4)) (i + 4) (out ++ [16 * v1 + v2]) := by
  have hn : inp.length - i ≠ 0 := by omega
  have hn3 : ¬ inp.length - i < 3 := by omega
  have hs0 : charAt (inp.drop (i + 1)) 0 = 120 := by rw [charAt_drop]; exact hx
  have hs1 : charAt (inp.drop (i + 1)) 1 = h1 := by rw [charAt_drop]; exact hh1
  have hs2 : charAt (inp.drop (i + 1)) 2 = h2 := by rw [charAt_drop]; exact hh2
  have hb : (16 * v1 + v2) % 256 = 16 * v1 + v2 := by
    have := (hex_digit_lowercase hv1).2.1
    have := (hex_digit_lowercase hv2).2.1
    omega
  have hint : _interpret_escape_into out (inp.length - i) (inp.drop (i + 1))
      = .ok (out ++ [16 * v1 + v2], 3) := by
    unfold _interpret_escape_into
    rw [if_neg hn]
    simp only [hs0, hs1, hs2, stoul_hex_pair hv1 hv2, hb, hn3]
    rfl
  exact ⟨hint, unescape_escape (by omega) h0 hint⟩

/-- In backslash, `x`, `F`, `f`, `z` the escape becomes the byte 0xFF. -/
theorem unescape_hex_escape_witness :
    _interpret_escape_into [] ([92, 120, 70, 102, 122].length - 0)
        ([92, 120, 70, 102, 122].drop (0 + 1)) = .ok ([] ++ [16 * 15 + 15], 3) ∧
      _unescape_into_loop [92, 120, 70, 102, 122] ([92, 120, 70, 102, 122].length - 0) 0 [] =
        _unescape_into_loop [92, 120, 70, 102, 122] ([92, 120, 70, 102, 122].length - (0 + 4))
          (0 + 4) ([] ++ [16 * 15 + 15]) :=
  unescape_hex_escape [92, 120, 70, 102, 122] 0 70 102 15 15 [] rfl rfl (by simp) rfl rfl rfl rfl

/-- C10 (the code departs from it): the octal branch takes its three digits
after the character that selected it and returns 4, so the four characters
backslash, `1`, `0`, `1` decode to the byte 0x01 (the digits read are `0`, `1`
and the terminating NUL), a fifth character is consumed with them, and the byte
0x41 is only obtained from five characters such as backslash, `q`, `1`, `0`, `1`. -/
theorem unescape_octal_escape :
    _unescape_into [92, 49, 48, 49] 0 = ([1], none) ∧
      _unescape_into [92, 49, 48, 49, 65] 0 = ([1], none) ∧
      _unescape_into [92, 113, 49, 48, 49] 0 = ([65], none) := by
  refine ⟨?_, ?_, ?_⟩ <;> rfl

/-! ## The UTF-8 codec: masks and shifts as arithmetic -/

theorem utf8_mask_one : ∀ v, v < 128 → bit_not8 v &&& 128 ≠ 0 ∧ v &&& 127 = v := by
  decide

theorem utf8_mask_two : ∀ h, h < 32 →
    bit_not8 (192 + h) &&& 128 = 0 ∧ (192 + h) &&& 224 = 192 ∧ (192 + h) &&& 31 = h ∧
      192 ||| h = 192 + h := by
  decide

theorem utf8_mask_three : ∀ h, h < 16 →
    bit_not8 (224 + h) &&& 128 = 0 ∧ (224 + h) &&& 224 ≠ 192 ∧ (224 + h) &&& 240 = 224 ∧
      (224 + h) &&& 15 = h ∧ 224 ||| h = 224 + h := by
  decide

theorem utf8_mask_four : ∀ h, h < 8 →
    bit_not8 (240 + h) &&& 128 = 0 ∧ (240 + h) &&& 224 ≠ 192 ∧ (240 + h) &&& 240 ≠ 224 ∧
      (240 + h) &&& 248 = 240 ∧ (240 + h) &&& 7 = h ∧ 240 ||| h = 240 + h := by
  decide

theorem utf8_mask_cont : ∀ l, l < 64 → (128 + l) &&& 63 = l ∧ 128 ||| l = 128 + l := by
  decide

theorem or_eq_add (i a y : Nat) (hy : y < 2 ^ i) : (a <<< i) ||| y = a * 2 ^ i + y := by
  rw [Nat.shiftLeft_eq, Nat.mul_comm]
  exact (Nat.mul_add_lt_is_or hy a).symm

theorem and_63 (x : Nat) : x &&& 63 = x % 64 := Nat.and_pow_two_sub_one_eq_mod x 6

theorem and_31 (x : Nat) : x &&& 31 = x % 32 := Nat.and_pow_two_sub_one_eq_mod x 5

theorem and_15 (x : Nat) : x &&& 15 = x % 16 := Nat.and_pow_two_sub_one_eq_mod x 4

theorem and_7 (x : Nat) : x &&& 7 = x % 8 := Nat.and_pow_two_sub_one_eq_mod x 3

theorem shr_6 (x : Nat) : x >>> 6 = x / 64 := Nat.shiftRight_eq_div_pow x 6

theorem shr_12 (x : Nat) : x >>> 12 = x / 4096 := Nat.shiftRight_eq_div_pow x 12

theorem shr_18 (x : Nat) : x >>> 18 = x / 262144 := Nat.shiftRight_eq_div_pow x 18

/-- The bytes written for a code point, by range. -/
theorem utf8_write_bytes (v : Nat) :
    (v < 128 → utf8_write_octets v = [v]) ∧
    (128 ≤ v → v < 2048 → utf8_write_octets v = [192 + v / 64, 128 + v % 64]) ∧
    (2048 ≤ v → v < 65536 →
      utf8_write_octets v = [224 + v / 4096, 128 + v / 64 % 64, 128 + v % 64]) ∧
    (65536 ≤ v → v ≤ 1114111 →
      utf8_write_octets v
        = [240 + v / 262144, 128 + v / 4096 % 64, 128 + v / 64 % 64, 128 + v % 64]) := by
  have c0 := utf8_mask_cont (v % 64) (by omega)
  have c1 := utf8_mask_cont (v / 64 % 64) (by omega)
  have c2 := utf8_mask_cont (v / 4096 % 64) (by omega)
  refine ⟨?_, ?_, ?_, ?_⟩
  · intro h
    unfold utf8_write_octets
    rw [if_pos h, Nat.mod_eq_of_lt (by omega)]
  · intro h1 h2
    have m := utf8_mask_two (v / 64) (by omega)
    have e : v / 64 % 32 = v / 64 := by omega
    unfold utf8_write_octets
    rw [if_neg (by omega), if_pos ⟨h1, h2⟩]
    simp only [Nat.shiftRight_zero, shr_6, and_63, and_31, e, m.2.2.2, c0.2]
    rw [Nat.mod_eq_of_lt (show 192 + v / 64 < 256 by omega),
      Nat.mod_eq_of_lt (show 128 + v % 64 < 256 by omega)]
  · intro h1 h2
    have m := utf8_mask_three (v / 4096) (by omega)
    have e : v / 4096 % 16 = v / 4096 := by omega
    unfold utf8_write_octets
    rw [if_neg (by omega), if_neg (by omega), if_pos ⟨h1, h2⟩]
    simp only [Nat.shiftRight_zero, shr_6, shr_12, and_63, and_15, e, m.2.2.2.2, c0.2, c1.2]
    rw [Nat.mod_eq_of_lt (show 224 + v / 4096 < 256 by omega),
      Nat.mod_eq_of_lt (show 128 + v / 64 % 64 < 256 by omega),
      Nat.mod_eq_of_lt (show 128 + v % 64 < 256 by omega)]
  · intro h1 h2
    have m := utf8_mask_four (v / 262144) (by omega)
    have e : v / 262144 % 8 = v / 262144 := by omega
    unfold utf8_write_octets
    rw [if_neg (by omega), if_neg (by omega), if_neg (by omega), if_pos ⟨h1, h2⟩]
    simp only [Nat.shiftRight_zero, shr_6, shr_12, shr_18, and_63, and_7, e, m.2.2.2.2.2,
      c0.2, c1.2, c2.2]
    rw [Nat.mod_eq_of_lt (show 240 + v / 262144 < 256 by omega),
      Nat.mod_eq_of_lt (show 128 + v / 4096 % 64 < 256 by omega),
      Nat.mod_eq_of_lt (show 128 + v / 64 % 64 < 256 by omega),
      Nat.mod_eq_of_lt (show 128 + v % 64 < 256 by omega)]

/-- Reading back what `utf8_write_octets` wrote gives the code point, and the
number of bytes written is the one of the specification. -/
theorem utf8_roundtrip (v : Nat) (hv : v ≤ 0x10FFFF) :
    (utf8_write_octets v).length = spec_octet_count v ∧
      utf8_read_octets (utf8_write_octets v) (utf8_write_octets v).length = .ok v := by
  obtain ⟨w1, w2, w3, w4⟩ := utf8_write_bytes v
  have c0 := utf8_mask_cont (v % 64) (by omega)
  have c1 := utf8_mask_cont (v / 64 % 64) (by omega)
  have c2 := utf8_mask_cont (v / 4096 % 64) (by omega)
  rcases Nat.lt_or_ge v 128 with h1 | h1
  · have m := utf8_mask_one v h1
    rw [w1 h1]
    refine ⟨by simp [spec_octet_count, h1], ?_⟩
    unfold utf8_read_octets
    simp only [List.length_singleton, charAt_zero_cons, Nat.shiftLeft_zero]
    rw [if_neg (by omega), if_pos m.1, m.2]
  · rcases Nat.lt_or_ge v 2048 with h2 | h2
    · have m := utf8_mask_two (v / 64) (by omega)
      rw [w2 h1 h2]
      refine ⟨by simp [spec_octet_count, Nat.not_lt.2 h1, h2], ?_⟩
      have hval : (v / 64) <<< 6 ||| v % 64 = v := by
        rw [or_eq_add 6 _ _ (by omega)]
        omega
      unfold utf8_read_octets
      simp only [List.length_cons, List.length_nil, charAt_zero_cons, charAt_succ_cons,
        Nat.shiftLeft_zero, m.1, m.2.1, m.2.2.1, c0.1, hval]
      simp
    · rcases Nat.lt_or_ge v 65536 with h3 | h3
      · have m := utf8_mask_three (v / 4096) (by omega)
        rw [w3 h2 h3]
        refine ⟨by simp [spec_octet_count, Nat.not_lt.2 h1, Nat.not_lt.2 h2, h3], ?_⟩
        have hval : (v / 4096) <<< 12 ||| (v / 64 % 64) <<< 6 ||| v % 64 = v := by
          have e1 : (v / 64 % 64) <<< 6 = v / 64 % 64 * 64 := by rw [Nat.shiftLeft_eq]
          rw [e1, or_eq_add 12 _ _ (by omega)]
          have e2 : v / 4096 * 2 ^ 12 + v / 64 % 64 * 64 = (v / 64) <<< 6 := by
            rw [Nat.shiftLeft_eq]
            omega
          rw [e2, or_eq_add 6 _ _ (by omega)]
          omega
        unfold utf8_read_octets
        simp only [List.length_cons, List.length_nil, charAt_zero_cons, charAt_succ_cons,
          Nat.shiftLeft_zero, m.1, m.2.1, m.2.2.1, m.2.2.2.1, c0.1, c1.1, hval]
        simp
      · have m := utf8_mask_four (v / 262144) (by omega)
        rw [w4 h3 hv]
        refine ⟨by simp [spec_octet_count, Nat.not_lt.2 h1, Nat.not_lt.2 h2, Nat.not_lt.2 h3],
          ?_⟩
        have hval : (v / 262144) <<< 18 ||| (v / 4096 % 64) <<< 12 ||| (v / 64 % 64) <<< 6 |||
            v % 64 = v := by
          have e0 : (v / 4096 % 64) <<< 12 = v / 4096 % 64 * 4096 := by rw [Nat.shiftLeft_eq]
          have e1 : (v / 64 % 64) <<< 6 = v / 64 % 64 * 64 := by rw [Nat.shiftLeft_eq]
          rw [e0, e1, or_eq_add 18 _ _ (by omega)]
          have e2 : v / 262144 * 2 ^ 18 + v / 4096 % 64 * 4096 = (v / 4096) <<< 12 := by
            rw [Nat.shiftLeft_eq]
            omega
          rw [e2, or_eq_add 12 _ _ (by omega)]
          have e3 : v / 4096 * 2 ^ 12 + v / 64 % 64 * 64 = (v / 64) <<< 6 := by
            rw [Nat.shiftLeft_eq]
            omega
          rw [e3, or_eq_add 6 _ _ (by omega)]
          omega
        unfold utf8_read_octets
        simp only [List.length_cons, List.length_nil, charAt_zero_cons, charAt_succ_cons,
          Nat.shiftLeft_zero, m.1, m.2.1, m.2.2.1, m.2.2.2.1, m.2.2.2.2.1, c0.1, c1.1, c2.1,
          hval]
        simp

theorem spec_octet_count_bounds (v : Nat) :
    1 ≤ spec_octet_count v ∧ spec_octet_count v ≤ 4 ∧ (v < 65536 → spec_octet_count v ≤ 3) := by
  unfold spec_octet_count
  split_ifs <;> omega

/-- The conversion `std::stoul(raw_value, nullptr, 16)` of four hexadecimal
digits. -/
theorem stoul_hex_quad {h1 h2 h3 h4 v1 v2 v3 v4 : Nat} (hv1 : spec_hex_digit h1 = some v1)
    (hv2 : spec_hex_digit h2 = some v2) (hv3 : spec_hex_digit h3 = some v3)
    (hv4 : spec_hex_digit h4 = some v4) :
    stoul (make_lowercase [h1, h2, h3, h4]) 16
      = .ok (4096 * v1 + 256 * v2 + 16 * v3 + v4) := by
  obtain ⟨a1, a2, a3, a4, a5⟩ := hex_digit_lowercase hv1
  obtain ⟨b1, b2, -, -, -⟩ := hex_digit_lowercase hv2
  obtain ⟨c1, c2, -, -, -⟩ := hex_digit_lowercase hv3
  obtain ⟨d1, d2, -, -, -⟩ := hex_digit_lowercase hv4
  have hx : ¬ (tolower h2 = 120 ∨ tolower h2 = 88) := by
    rintro (h | h)
    · rw [h] at b1
      have : v2 = 33 := by simpa [digit_value] using b1.symm
      omega
    · rw [h] at b1
      have : v2 = 33 := by simpa [digit_value] using b1.symm
      omega
  have hskip : skip_spaces (make_lowercase [h1, h2, h3, h4])
      = [tolower h1, tolower h2, tolower h3, tolower h4] := by
    simp [make_lowercase, skip_spaces, a3]
  have ht : take_digits 16 [tolower h1, tolower h2, tolower h3, tolower h4]
      = [v1, v2, v3, v4] := by
    simp [take_digits, a1, a2, b1, b2, c1, c2, d1, d2]
  have hval : digits_value 16 [v1, v2, v3, v4] = 4096 * v1 + 256 * v2 + 16 * v3 + v4 := by
    simp [digits_value]
    omega
  have hlt2 : ¬ 18446744073709551616 ≤ 4096 * v1 + 256 * v2 + 16 * v3 + v4 := by omega
  have hdig : stoul_digits [tolower h1, tolower h2, tolower h3, tolower h4] 16 false
      = .ok (4096 * v1 + 256 * v2 + 16 * v3 + v4) := by
    unfold stoul_digits
    split
    · rename_i x h rest heq
      have e2 : tolower h2 = x := (List.cons.inj (List.cons.inj heq).2).1
      have hc : ¬ ((x = 120 ∨ x = 88) ∧ is_digit_of 16 h = true) := by
        rw [← e2]
        exact fun hc => hx hc.1
      simp [hc, ht, hval, hlt2]
    · simp only [ht, hval]
      simp [hlt2]
  unfold stoul
  rw [hskip]
  split
  · rename_i heq
    exact absurd (List.cons.inj heq).1 a4
  · rename_i heq
    exact absurd (List.cons.inj heq).1 a5
  · exact hdig

/-- C11 (the code departs from it): backslash `x` `z` `z` leaves the decoder with
`std::invalid_argument`, which the `x` and `u` branches do not catch, and a
digit position that is not the first one is not examined at all: backslash `x`
`4` `z` gives the byte 4, backslash `u` `1` `2` `z` `z` the byte 0x12, and the
octal backslash `q` `1` `z` `1` the byte 1. -/
theorem unescape_non_digit_escapes :
    _unescape_into [92, 120, 122, 122] 0 = ([], some .invalid_argument) ∧
      _unescape_into [92, 120, 52, 122] 0 = ([4], none) ∧
      _unescape_into [92, 117, 49, 50, 122, 122] 0 = ([18], none) ∧
      _unescape_into [92, 113, 49, 122, 49] 0 = ([1], none) := by
  refine ⟨?_, ?_, ?_, ?_⟩ <;> rfl

/-- C12 (the code departs from it): the length the decoder passes counts the
backslash, so one missing digit goes unnoticed: the token backslash `x` `4`
decodes to the byte 4 and the token backslash `u` `1` `2` `3` to the two bytes of
U+0123, the terminating NUL standing for the last digit; only from two missing
characters on does the decoder throw `invalid_escape_format`. -/
theorem unescape_short_escapes :
    _unescape_into [92, 120, 52] 0 = ([4], none) ∧
      _unescape_into [92, 117, 49, 50, 51] 0 = ([196, 163], none) ∧
      _unescape_into [92, 120] 0 = ([], some .invalid_escape_format) ∧
      _unescape_into [92, 117, 49, 50] 0 = ([], some .invalid_escape_format) := by
  refine ⟨?_, ?_, ?_, ?_⟩ <;> rfl

/-- C13: at backslash, `u` and four hexadecimal digits (upper or lower case) of
values `v1` to `v4` the decoder appends a byte sequence `b` of one to three
bytes and goes on after the fourth digit, and `utf8_read_octets` on `b` and its
length returns the number the four digits write. -/
theorem unescape_unicode_escape (inp : Str) (i h1 h2 h3 h4 v1 v2 v3 v4 : Nat) (out : Str)
    (hv1 : spec_hex_digit h1 = some v1) (hv2 : spec_hex_digit h2 = some v2)
    (hv3 : spec_hex_digit h3 = some v3) (hv4 : spec_hex_digit h4 = some v4)
    (hi : i + 5 < inp.length) (h0 : charAt inp i = 92) (hu : charAt inp (i + 1) = 117)
    (hh1 : charAt inp (i + 2) = h1) (hh2 : charAt inp (i + 3) = h2)
    (hh3 : charAt inp (i + 4) = h3) (hh4 : charAt inp (i + 5) = h4) :
    ∃ b : Str,
      _unescape_into_loop inp (inp.length - i) i out =
          _unescape_into_loop inp (inp.length - (i + 6)) (i + 6) (out ++ b) ∧
        1 ≤ b.length ∧ b.length ≤ 3 ∧
        utf8_read_octets b b.length = .ok (4096 * v1 + 256 * v2 + 16 * v3 + v4) := by
  have hn : inp.length - i ≠ 0 := by omega
  have hn5 : ¬ inp.length - i < 5 := by omega
  have hs0 : charAt (inp.drop (i + 1)) 0 = 117 := by rw [charAt_drop]; exact hu
  have hs1 : charAt (inp.drop (i + 1)) 1 = h1 := by rw [charAt_drop]; exact hh1
  have hs2 : charAt (inp.drop (i + 1)) 2 = h2 := by rw [charAt_drop]; exact hh2
  have hs3 : charAt (inp.drop (i + 1)) 3 = h3 := by rw [charAt_drop]; exact hh3
  have hs4 : charAt (inp.drop (i + 1)) 4 = h4 := by rw [charAt_drop]; exact hh4
  have b1 := (hex_digit_lowercase hv1).2.1
  have b2 := (hex_digit_lowercase hv2).2.1
  have b3 := (hex_digit_lowercase hv3).2.1
  have b4 := (hex_digit_lowercase hv4).2.1
  generalize hv : 4096 * v1 + 256 * v2 + 16 * v3 + v4 = v
  have hstoul := stoul_hex_quad hv1 hv2 hv3 hv4
  rw [hv] at hstoul
  have hv16 : v < 65536 := by omega
  have hmod : v % 2 ^ 32 = v := Nat.mod_eq_of_lt (by omega)
  have hint : _interpret_escape_into out (inp.length - i) (inp.drop (i + 1))
      = .ok (out ++ utf8_write_octets v, 5) := by
    unfold _interpret_escape_into
    rw [if_neg hn]
    simp only [hs0, hs1, hs2, hs3, hs4, hstoul, hmod, hn5]
    rfl
  obtain ⟨hlen, hread⟩ := utf8_roundtrip v (by omega)
  refine ⟨utf8_write_octets v, unescape_escape (by omega) h0 hint, ?_, ?_, hread⟩
  · rw [hlen]
    exact (spec_octet_count_bounds v).1
  · rw [hlen]
    exact (spec_octet_count_bounds v).2.2 hv16

/-- In `a`, backslash, `u`, `0`, `0`, `E`, `9` the escape becomes the two bytes of
U+00E9, which read back as 0xE9. -/
theorem unescape_unicode_escape_witness :
    ∃ b : Str,
      _unescape_into_loop [97, 92, 117, 48, 48, 69, 57]
          ([97, 92, 117, 48, 48, 69, 57].length - 1) 1 [97] =
          _unescape_into_loop [97, 92, 117, 48, 48, 69, 57]
            ([97, 92, 117, 48, 48, 69, 57].length - (1 + 6)) (1 + 6) ([97] ++ b) ∧
        1 ≤ b.length ∧ b.length ≤ 3 ∧
        utf8_read_octets b b.length = .ok (4096 * 0 + 256 * 0 + 16 * 14 + 9) :=
  unescape_unicode_escape [97, 92, 117, 48, 48, 69, 57] 1 48 48 69 57 0 0 14 9 [97]
    rfl rfl rfl rfl (by simp) rfl rfl rfl rfl rfl rfl

/-- C14: for every value up to 0x10FFFF `utf8_write_octets` writes one byte
below 0x80, two below 0x800, three below 0x10000 and four otherwise, and
`utf8_read_octets` on these bytes returns the value. -/
theorem utf8_write_read (v : Nat) (hv : v ≤ 0x10FFFF) :
    (utf8_write_octets v).length = spec_octet_count v ∧
      1 ≤ (utf8_write_octets v).length ∧ (utf8_write_octets v).length ≤ 4 ∧
      utf8_read_octets (utf8_write_octets v) (utf8_write_octets v).length = .ok v := by
  obtain ⟨hlen, hread⟩ := utf8_roundtrip v hv
  refine ⟨hlen, ?_, ?_, hread⟩
  · rw [hlen]
    exact (spec_octet_count_bounds v).1
  · rw [hlen]
    exact (spec_octet_count_bounds v).2.1

/-- The code point U+20AC takes three bytes and reads back. -/
theorem utf8_write_read_witness :
    (utf8_write_octets 0x20AC).length = spec_octet_count 0x20AC ∧
      1 ≤ (utf8_write_octets 0x20AC).length ∧ (utf8_write_octets 0x20AC).length ≤ 4 ∧
      utf8_read_octets (utf8_write_octets 0x20AC) (utf8_write_octets 0x20AC).length
        = .ok 0x20AC :=
  utf8_write_read 0x20AC (by decide)

/-- C15: on a buffer of `n ≥ 1` available bytes whose first byte is a lead byte
announcing `k` bytes, `utf8_read_octets` throws `unicode_too_short` exactly when
`n < k`. -/
theorem utf8_read_octets_too_short (inp : Str) (n k : Nat) (hn : 1 ≤ n)
    (hk : spec_lead_length (charAt inp 0) = some k) :
    utf8_read_octets inp n = .error .unicode_too_short ↔ n < k := by
  have hn0 : n ≠ 0 := by omega
  unfold spec_lead_length at hk
  split at hk
  · rename_i hb
    have hk2 : k = 2 := by simpa using hk.symm
    obtain ⟨m1, m2⟩ := (utf8_lead_masks _ (by omega)).1 hb
    unfold utf8_read_octets
    simp only [hn0, if_false, m1, ne_eq, not_true_eq_false, m2, if_true, hk2]
    split <;> simp_all
  · split at hk
    · rename_i hb
      have hk2 : k = 3 := by simpa using hk.symm
      obtain ⟨m1, m2, m3⟩ := (utf8_lead_masks _ (by omega)).2.1 hb
      unfold utf8_read_octets
      simp only [hn0, if_false, m1, ne_eq, not_true_eq_false, m2, m3, if_true, hk2]
      split <;> simp_all
    · split at hk
      · rename_i hb
        have hk2 : k = 4 := by simpa using hk.symm
        obtain ⟨m1, m2, m3, m4⟩ := (utf8_lead_masks _ (by omega)).2.2 hb
        unfold utf8_read_octets
        simp only [hn0, if_false, m1, ne_eq, not_true_eq_false, m2, m3, m4, if_true, hk2]
        split <;> simp_all
      · simp at hk

/-- The lead byte 0xE2 announces three bytes: two available bytes are too few. -/
theorem utf8_read_octets_too_short_witness :
    utf8_read_octets [0xE2, 0x82] 2 = .error .unicode_too_short ↔ 2 < 3 :=
  utf8_read_octets_too_short [0xE2, 0x82] 2 3 (by decide) rfl

/-- C16 (the code departs from it): `exhausted` only compares the raw position
with the size.  After both integers of `3 4 ` have been parsed the raw position
is 3 and only a space remains: no token remains, every parse operation finds no
argument there (`not_enough_arguments` when required, false when not), yet
`exhausted` is false and `parse_finish` throws `too_many_arguments`.  So
`echo a b` prints its message and `echo a b `, with one space more, is refused
for having more than two arguments. -/
theorem exhausted_false_before_trailing_space :
    (parse_integer (parse_integer (create [51, 32, 52, 32] 0) 0 true).parser 0 true).parser
        = ⟨[51, 32, 52, 32], 3, 2⟩ ∧
      no_token_remains ⟨[51, 32, 52, 32], 3, 2⟩ ∧
      exhausted ⟨[51, 32, 52, 32], 3, 2⟩ = false ∧
      (AbstractParser.argline ⟨[51, 32, 52, 32], 3, 2⟩).parse_finish.2
        = .error .too_many_arguments ∧
      (parse_integer ⟨[51, 32, 52, 32], 3, 2⟩ 0 true).result = .error .not_enough_arguments ∧
      (parse_string ⟨[51, 32, 52, 32], 3, 2⟩ [] false).result = .ok false ∧
      (dispatch_line (fun _ => EchoCommand) handle_unknown_command ⟨[1], [(bytes "echo", 1)]⟩
        (bytes "echo a b")).written = bytes "Message [a]: b" ++ [10] ∧
      (dispatch_line (fun _ => EchoCommand) handle_unknown_command ⟨[1], [(bytes "echo", 1)]⟩
        (bytes "echo a b ")).written =
        bytes "This command requires at most 2 arguments, but received more." ++ [10] ++
          bytes "/echo (name <text>) (text <text>)" ++ [10] := by
  refine ⟨rfl, ?_, rfl, rfl, rfl, rfl, rfl, rfl⟩
  intro j h1 h2
  have hj : j = 3 := by
    simp only [List.length_cons, List.length_nil] at h2
    simp only at h1
    omega
  rw [hj]
  rfl

/-- C17: for both kinds of cursor `parse_finish` returns exactly when
`exhausted` is true, throws `too_many_arguments` otherwise, and leaves the
cursor as it was in both cases. -/
theorem parse_finish_iff_exhausted (c : AbstractParser) :
    (c.parse_finish.2 = .ok () ↔ c.exhausted = true) ∧
      (c.exhausted = false → c.parse_finish.2 = .error .too_many_arguments) ∧
      c.parse_finish.1 = c := by
  unfold AbstractParser.parse_finish
  cases h : c.exhausted <;> simp

/-- C18: for `a` and `b` in the range of a 32-bit `int`, on the line made of the
decimal literal of `a`, one or more spaces and the decimal literal of `b`, two
`parse_integer` calls return `a` then `b`, the argument position becomes 2, the
raw position is the buffer length, and `parse_finish` succeeds. -/
theorem parse_integer_pair (a b : Int) (k : Nat) (out1 out2 : Int)
    (ha : -(2 ^ 31) ≤ a ∧ a ≤ 2 ^ 31 - 1) (hb : -(2 ^ 31) ≤ b ∧ b ≤ 2 ^ 31 - 1) (hk : 1 ≤ k)
    (hn : (decimal_literal a ++ List.replicate k 32 ++ decimal_literal b).length < npos) :
    parse_integer (create (decimal_literal a ++ List.replicate k 32 ++ decimal_literal b) 0)
        out1 true
        = ⟨⟨decimal_literal a ++ List.replicate k 32 ++ decimal_literal b,
            (decimal_literal a).length, 1⟩, a, .ok true⟩ ∧
      parse_integer ⟨decimal_literal a ++ List.replicate k 32 ++ decimal_literal b,
          (decimal_literal a).length, 1⟩ out2 true
        = ⟨⟨decimal_literal a ++ List.replicate k 32 ++ decimal_literal b,
            (decimal_literal a ++ List.replicate k 32 ++ decimal_literal b).length, 2⟩,
            b, .ok true⟩ ∧
      (AbstractParser.argline
        ⟨decimal_literal a ++ List.replicate k 32 ++ decimal_literal b,
          (decimal_literal a ++ List.replicate k 32 ++ decimal_literal b).length,
          2⟩).parse_finish.2 = .ok () := by
  obtain ⟨sa, nea, na32⟩ := stoi_decimal_literal a ha
  obtain ⟨sb, neb, nb32⟩ := stoi_decimal_literal b hb
  generalize decimal_literal a = Da at *
  generalize decimal_literal b = Db at *
  obtain ⟨c, tl, hct⟩ := List.exists_cons_of_ne_nil neb
  have hc : c ≠ 32 := fun h => nb32 (by rw [hct, h]; exact List.mem_cons_self _ _)
  have hB : List.replicate k 32 ++ Db = [] ∨ charAt (List.replicate k 32 ++ Db) 0 = 32 := by
    right
    obtain ⟨m, rfl⟩ : ∃ m, k = m + 1 := ⟨k - 1, by omega⟩
    simp [List.replicate_succ, charAt]
  refine ⟨?_, ?_, ?_⟩
  · have h := parse_number_at stoi [] Da (List.replicate k 32 ++ Db) 0 out1 a true nea na32 hB
      (by simpa [List.append_assoc] using hn) sa
    simpa [parse_integer, create, List.append_assoc] using h
  · have hskip := parse_number_skip stoi Da tl k c 1 out2 true hc (by rw [← hct]; exact hn)
    rw [← hct] at hskip
    have hat := parse_number_at stoi (Da ++ List.replicate k 32) Db [] 1 out2 b true neb nb32
      (Or.inl rfl) (by simpa using hn) sb
    simp only [List.append_nil, List.length_append, List.length_replicate] at hat
    unfold parse_integer
    rw [hskip, hat]
    simp only [List.length_append, List.length_replicate]
  · simp [AbstractParser.parse_finish, AbstractParser.exhausted, exhausted]

/-- The line `3`, two spaces, `-4` yields 3 and -4. -/
theorem parse_integer_pair_witness :
    parse_integer (create (decimal_literal 3 ++ List.replicate 2 32 ++ decimal_literal (-4)) 0)
        0 true
        = ⟨⟨decimal_literal 3 ++ List.replicate 2 32 ++ decimal_literal (-4),
            (decimal_literal 3).length, 1⟩, 3, .ok true⟩ ∧
      parse_integer ⟨decimal_literal 3 ++ List.replicate 2 32 ++ decimal_literal (-4),
          (decimal_literal 3).length, 1⟩ 0 true
        = ⟨⟨decimal_literal 3 ++ List.replicate 2 32 ++ decimal_literal (-4),
            (decimal_literal 3 ++ List.replicate 2 32 ++ decimal_literal (-4)).length, 2⟩,
            -4, .ok true⟩ ∧
      (AbstractParser.argline
        ⟨decimal_literal 3 ++ List.replicate 2 32 ++ decimal_literal (-4),
          (decimal_literal 3 ++ List.replicate 2 32 ++ decimal_literal (-4)).length,
          2⟩).parse_finish.2 = .ok () :=
  parse_integer_pair 3 (-4) 2 0 0 (by decide) (by decide) (by decide)
    (by
      have e3 : decimal_literal 3 = [51] := by
        simp [decimal_literal, decimal_literal_nat]
      have e4 : decimal_literal (-4) = [45, 52] := by
        simp [decimal_literal, decimal_literal_nat]
      rw [e3, e4]
      simp [npos])

/-- C19 (the code departs from it): `parse_bool` never assigns the raw position.
On `yes no` the first call returns true and leaves the raw position at 0, so the
second call reads `yes` again and returns true, not false; and after the only
token of `yes` has been parsed `exhausted` is still false. -/
theorem parse_bool_keeps_raw_position :
    parse_bool (create (bytes "yes no") 0) false true
        = ⟨⟨bytes "yes no", 0, 1⟩, true, .ok true⟩ ∧
      parse_bool ⟨bytes "yes no", 0, 1⟩ false true
        = ⟨⟨bytes "yes no", 0, 2⟩, true, .ok true⟩ ∧
      (parse_bool (create (bytes "yes") 0) false true).parser.exhausted = false := by
  refine ⟨?_, ?_, ?_⟩ <;> rfl

/-- C20: in a state without token (raw position at or beyond the end, or only
spaces remaining) every parse operation throws `not_enough_arguments` when the
argument is required and otherwise returns false, leaves the output variable
untouched and does not advance the argument position. -/
theorem absent_argument (p : ArglineParser) (hno : no_token_remains p)
    (hn : p.m_argline.length < npos) :
    absent_behaviour parse_string p ∧ absent_behaviour parse_tinyint p ∧
      absent_behaviour parse_shortint p ∧ absent_behaviour parse_integer p ∧
      absent_behaviour parse_bigint p ∧ absent_behaviour parse_unsigned_tinyint p ∧
      absent_behaviour parse_unsigned_shortint p ∧ absent_behaviour parse_unsigned_integer p ∧
      absent_behaviour parse_unsigned_bigint p ∧
      (∀ (F : Type) (stof : Str → Except Error F), absent_behaviour (parse_float stof) p) ∧
      (∀ (F : Type) (stod : Str → Except Error F), absent_behaviour (parse_double stod) p) ∧
      absent_behaviour parse_bool p ∧ absent_behaviour parse_full p := by
  obtain ⟨h1, h2, h3⟩ := next_exhausted_iff p hn
  have hex := h1.2 hno
  have hle : (p._next).m_pos ≥ (p._next).m_argline.length :=
    (exhausted_iff p._next (by rw [h2]; exact hn)).1 hex
  refine ⟨?_, absent_parse_number _ p hno hn, absent_parse_number _ p hno hn,
    absent_parse_number _ p hno hn, absent_parse_number _ p hno hn,
    absent_parse_number _ p hno hn, absent_parse_number _ p hno hn,
    absent_parse_number _ p hno hn, absent_parse_number _ p hno hn,
    fun _ _ => absent_parse_number _ p hno hn, fun _ _ => absent_parse_number _ p hno hn,
    ?_, ?_⟩
  · intro out
    unfold parse_string
    simp [hex, hle, h3]
  · intro out
    unfold parse_bool
    simp [hex, hle, h3]
  · intro out
    unfold parse_full
    simp [hex, hle, h3]

/-- On `ab` followed by two spaces, at raw position 2, every operation reports
the absence of an argument. -/
theorem absent_argument_witness :
    absent_behaviour parse_string ⟨[97, 98, 32, 32], 2, 1⟩ ∧
      absent_behaviour parse_tinyint ⟨[97, 98, 32, 32], 2, 1⟩ ∧
      absent_behaviour parse_shortint ⟨[97, 98, 32, 32], 2, 1⟩ ∧
      absent_behaviour parse_integer ⟨[97, 98, 32, 32], 2, 1⟩ ∧
      absent_behaviour parse_bigint ⟨[97, 98, 32, 32], 2, 1⟩ ∧
      absent_behaviour parse_unsigned_tinyint ⟨[97, 98, 32, 32], 2, 1⟩ ∧
      absent_behaviour parse_unsigned_shortint ⟨[97, 98, 32, 32], 2, 1⟩ ∧
      absent_behaviour parse_unsigned_integer ⟨[97, 98, 32, 32], 2, 1⟩ ∧
      absent_behaviour parse_unsigned_bigint ⟨[97, 98, 32, 32], 2, 1⟩ ∧
      (∀ (F : Type) (stof : Str → Except Error F),
        absent_behaviour (parse_float stof) ⟨[97, 98, 32, 32], 2, 1⟩) ∧
      (∀ (F : Type) (stod : Str → Except Error F),
        absent_behaviour (parse_double stod) ⟨[97, 98, 32, 32], 2, 1⟩) ∧
      absent_behaviour parse_bool ⟨[97, 98, 32, 32], 2, 1⟩ ∧
      absent_behaviour parse_full ⟨[97, 98, 32, 32], 2, 1⟩ :=
  absent_argument ⟨[97, 98, 32, 32], 2, 1⟩
    (by
      intro j h1 h2
      simp only [List.length_cons, List.length_nil] at h2
      simp only at h1
      rcases (by omega : j = 2 ∨ j = 3) with h | h <;> rw [h] <;> rfl)
    (by simp [npos])

/-! ## Tokens that are refused, and the rest of the buffer -/

/-- The shared numeric body on a token that its conversion refuses: the
exception leaves the cursor at the token and the output variable untouched. -/
theorem parse_number_fail_at {α : Type} (conv : Str → Except Error α) (A t B : Str)
    (apos : Nat) (out : α) (required : Bool) (e : Error) (hne : t ≠ []) (h32 : 32 ∉ t)
    (hB : B = [] ∨ charAt B 0 = 32) (hn : (A ++ t ++ B).length < npos)
    (hconv : conv t = .error e) :
    parse_number conv ⟨A ++ t ++ B, A.length, apos⟩ out required =
      ⟨⟨A ++ t ++ B, A.length, apos⟩, out, .error e⟩ := by
  have hpos : 0 < t.length := List.length_pos.2 hne
  have hp : A.length < (A ++ t ++ B).length := by
    simp only [List.length_append]; omega
  have h0 : charAt (A ++ t ++ B) A.length ≠ 32 := by
    have := charAt_mid A t B hpos
    rw [Nat.add_zero] at this
    rw [this]
    exact fun hc => h32 (hc ▸ charAt_mem hpos)
  have hnext := next_stay ⟨A ++ t ++ B, A.length, apos⟩ hp hn h0
  have hex := not_exhausted ⟨A ++ t ++ B, A.length, apos⟩ hp hn
  have hge : ¬ A.length ≥ (A ++ t ++ B).length := by omega
  have hend := token_end_at A t B apos h32 hB
  have e1 : A.length + t.length - A.length = t.length := by omega
  unfold parse_number
  simp only [hnext, hge, and_false, if_false, hex, Bool.false_eq_true, hend, e1,
    substr_append_mid, hconv]

theorem stol_range_no_prefix (t : Str) (lo hi : Int) (h : no_numeric_prefix t) :
    stol_range t lo hi = .error .invalid_argument := by
  unfold no_numeric_prefix at h
  unfold stol_range
  have e : (match skip_spaces t with
      | 45 :: rest => (true, rest)
      | 43 :: rest => (false, rest)
      | rest => (false, rest)).2 = strip_sign (skip_spaces t) := by
    split <;> simp_all [strip_sign]
  simp only [e, h, if_true]

theorem stoul_no_prefix (t : Str) (h : no_numeric_prefix t) :
    stoul t 10 = .error .invalid_argument := by
  unfold no_numeric_prefix at h
  have hd : ∀ (s : Str) (neg : Bool), take_digits 10 s = [] →
      stoul_digits s 10 neg = .error .invalid_argument := by
    intro s neg hs
    unfold stoul_digits
    split <;> simp [hs]
  unfold stoul
  split
  · rename_i rest heq
    rw [heq] at h
    exact hd _ _ h
  · rename_i rest heq
    rw [heq] at h
    exact hd _ _ h
  · rename_i rest h1 h2
    have e : strip_sign (skip_spaces t) = skip_spaces t := by
      unfold strip_sign
      split
      · rename_i r heq; exact absurd heq (h1 r)
      · rename_i r heq; exact absurd heq (h2 r)
      · rfl
    rw [e] at h
    exact hd _ _ h

/-- C21: with a token available (after `k` spaces the character `c`, not a
space), `parse_full` hands the whole text from `c` to the end of the buffer to
the escape decoder as one string and, when the decoder succeeds, returns its
output and advances the argument position by 1; quotes and spaces in the text
are not delimiters, so a text without backslash is returned as it stands. -/
theorem parse_full_decodes_rest (pre rest : Str) (k c apos : Nat) (out : Str)
    (required : Bool) (hc : c ≠ 32)
    (hn : (pre ++ List.replicate k 32 ++ c :: rest).length < npos) :
    parse_full ⟨pre ++ List.replicate k 32 ++ c :: rest, pre.length, apos⟩ out required =
        (match _unescape_into (c :: rest) 0 with
          | (decoded, none) =>
            ⟨⟨pre ++ List.replicate k 32 ++ c :: rest, pre.length + k, apos + 1⟩, decoded,
              .ok true⟩
          | (partly, some e) =>
            ⟨⟨pre ++ List.replicate k 32 ++ c :: rest, pre.length + k, apos⟩, partly,
              .error e⟩) ∧
      (92 ∉ c :: rest →
        parse_full ⟨pre ++ List.replicate k 32 ++ c :: rest, pre.length, apos⟩ out required =
          ⟨⟨pre ++ List.replicate k 32 ++ c :: rest, pre.length + k, apos + 1⟩, c :: rest,
            .ok true⟩) := by
  have h1 := next_skip pre rest k c apos hc hn
  have hlen : (pre ++ List.replicate k 32 ++ c :: rest).length
      = pre.length + k + (rest.length + 1) := by simp; omega
  have hex := not_exhausted ⟨pre ++ List.replicate k 32 ++ c :: rest, pre.length + k, apos⟩
    (by simp) hn
  have hge : ¬ pre.length + k ≥ (pre ++ List.replicate k 32 ++ c :: rest).length := by omega
  have hsub : substr (pre ++ List.replicate k 32 ++ c :: rest) (pre.length + k)
      ((pre ++ List.replicate k 32 ++ c :: rest).length - (pre.length + k)) = c :: rest := by
    have := substr_append_mid (pre ++ List.replicate k 32) (c :: rest) []
    have e : (pre ++ List.replicate k 32 ++ c :: rest).length - (pre.length + k)
        = (c :: rest).length := by rw [hlen]; simp
    rw [e]
    simpa using this
  have hmain : parse_full ⟨pre ++ List.replicate k 32 ++ c :: rest, pre.length, apos⟩ out
      required =
        (match _unescape_into (c :: rest) 0 with
          | (decoded, none) =>
            ⟨⟨pre ++ List.replicate k 32 ++ c :: rest, pre.length + k, apos + 1⟩, decoded,
              .ok true⟩
          | (partly, some e) =>
            ⟨⟨pre ++ List.replicate k 32 ++ c :: rest, pre.length + k, apos⟩, partly,
              .error e⟩) := by
    unfold parse_full
    simp only [h1, hge, and_false, if_false, hex, Bool.false_eq_true, hsub]
    split <;> rename_i heq <;> simp [heq]
  refine ⟨hmain, fun h92 => ?_⟩
  rw [hmain, unescape_into_plain _ h92]

/-- After `say` and two spaces, the rest `'a b' c` is returned whole. -/
theorem parse_full_decodes_rest_witness :
    parse_full ⟨[115, 97, 121] ++ List.replicate 2 32 ++ 39 :: [97, 32, 98, 39, 32, 99], 3, 1⟩
        [] false =
        (match _unescape_into (39 :: [97, 32, 98, 39, 32, 99]) 0 with
          | (decoded, none) =>
            ⟨⟨[115, 97, 121] ++ List.replicate 2 32 ++ 39 :: [97, 32, 98, 39, 32, 99], 3 + 2,
              1 + 1⟩, decoded, .ok true⟩
          | (partly, some e) =>
            ⟨⟨[115, 97, 121] ++ List.replicate 2 32 ++ 39 :: [97, 32, 98, 39, 32, 99], 3 + 2,
              1⟩, partly, .error e⟩) ∧
      (92 ∉ 39 :: [97, 32, 98, 39, 32, 99] →
        parse_full ⟨[115, 97, 121] ++ List.replicate 2 32 ++ 39 :: [97, 32, 98, 39, 32, 99], 3,
          1⟩ [] false =
          ⟨⟨[115, 97, 121] ++ List.replicate 2 32 ++ 39 :: [97, 32, 98, 39, 32, 99], 3 + 2,
            1 + 1⟩, 39 :: [97, 32, 98, 39, 32, 99], .ok true⟩) :=
  parse_full_decodes_rest [115, 97, 121] [97, 32, 98, 39, 32, 99] 2 39 1 [] false (by decide)
    (by simp [npos])

/-- C22 (the code departs from it): `parse_full` never assigns the raw position.
After it has returned the whole of `hello world` the raw position is still 0:
`exhausted` is false, `parse_finish` throws `too_many_arguments`, and a further
required `parse_string` returns `hello`.  A `PlaceholderParser` is no more
exhausted after `parse_full`: its type queue is left as it was. -/
theorem parse_full_keeps_raw_position :
    parse_full (create (bytes "hello world") 0) [] true
        = ⟨⟨bytes "hello world", 0, 1⟩, bytes "hello world", .ok true⟩ ∧
      exhausted ⟨bytes "hello world", 0, 1⟩ = false ∧
      (AbstractParser.argline ⟨bytes "hello world", 0, 1⟩).parse_finish.2
        = .error .too_many_arguments ∧
      parse_string ⟨bytes "hello world", 0, 1⟩ [] true
        = ⟨⟨bytes "hello world", 5, 2⟩, bytes "hello", .ok true⟩ ∧
      (PlaceholderParser.parse_full
        { PlaceholderParser.empty.push_integer 7 with m_full_string := bytes "rest" } []
        true).parser.exhausted = false := by
  refine ⟨?_, ?_, ?_, ?_, ?_⟩ <;> rfl

/-- C23 (the code departs from it): the narrow types receive the result of
`std::stoi` or `std::stoul` by a plain assignment, which truncates: `300` parsed
as a tinyint is 44, `40000` as a shortint is -25536, `256` and `-1` as unsigned
tinyints are 0 and 255, `4294967296` as an unsigned integer is 0, and `-1` as an
unsigned bigint is 2^64 - 1, each returned as a value; only the conversions
themselves throw, as for `2147483648` parsed as an integer. -/
theorem parse_narrow_out_of_range :
    parse_tinyint (create (bytes "300") 0) 0 true
        = ⟨⟨bytes "300", 3, 1⟩, 44, .ok true⟩ ∧
      parse_shortint (create (bytes "40000") 0) 0 true
        = ⟨⟨bytes "40000", 5, 1⟩, -25536, .ok true⟩ ∧
      parse_unsigned_tinyint (create (bytes "256") 0) 7 true
        = ⟨⟨bytes "256", 3, 1⟩, 0, .ok true⟩ ∧
      parse_unsigned_tinyint (create (bytes "-1") 0) 7 true
        = ⟨⟨bytes "-1", 2, 1⟩, 255, .ok true⟩ ∧
      parse_unsigned_integer (create (bytes "4294967296") 0) 7 true
        = ⟨⟨bytes "4294967296", 10, 1⟩, 0, .ok true⟩ ∧
      parse_unsigned_bigint (create (bytes "-1") 0) 7 true
        = ⟨⟨bytes "-1", 2, 1⟩, 2 ^ 64 - 1, .ok true⟩ ∧
      (parse_integer (create (bytes "2147483648") 0) 0 true).result = .error .out_of_range := by
  refine ⟨?_, ?_, ?_, ?_, ?_, ?_, ?_⟩ <;> rfl

/-- C24 (the code departs from it): the conversions `std::stoi`, `std::stol`
and `std::stoul` stop at the first character that is no digit, and no parse
operation looks at what follows.  `12abc` parsed as an integer, as a tinyint or
as an unsigned integer is 12, `-7x` as a bigint is -7 and `1.5` as an integer is
1, each returned as a value with both positions advanced; only a token without
any leading digit, such as `abc`, is refused with `invalid_argument`. -/
theorem parse_integer_accepts_prefix :
    parse_integer (create (bytes "12abc") 0) 0 true
        = ⟨⟨bytes "12abc", 5, 1⟩, 12, .ok true⟩ ∧
      parse_tinyint (create (bytes "12abc") 0) 0 true
        = ⟨⟨bytes "12abc", 5, 1⟩, 12, .ok true⟩ ∧
      parse_bigint (create (bytes "-7x 1") 0) 0 true
        = ⟨⟨bytes "-7x 1", 3, 1⟩, -7, .ok true⟩ ∧
      parse_unsigned_integer (create (bytes "12abc") 0) 0 true
        = ⟨⟨bytes "12abc", 5, 1⟩, 12, .ok true⟩ ∧
      parse_integer (create (bytes "1.5") 0) 0 true
        = ⟨⟨bytes "1.5", 3, 1⟩, 1, .ok true⟩ ∧
      parse_integer (create (bytes "abc") 0) 0 true
        = ⟨⟨bytes "abc", 0, 0⟩, 0, .error .invalid_argument⟩ := by
  refine ⟨?_, ?_, ?_, ?_, ?_, ?_⟩ <;> rfl

/-- A token that does not begin with a number (no decimal digit after optional
white space and one optional sign) makes each of the eight integer operations
throw `invalid_argument`, with both positions and the output variable as they
were. -/
theorem parse_integer_kinds_refuse (A t B : Str) (apos : Nat) (required : Bool)
    (hne : t ≠ []) (h32 : 32 ∉ t) (hB : B = [] ∨ charAt B 0 = 32)
    (hn : (A ++ t ++ B).length < npos) (ht : no_numeric_prefix t) :
    (∀ out : Int, parse_tinyint ⟨A ++ t ++ B, A.length, apos⟩ out required
        = ⟨⟨A ++ t ++ B, A.length, apos⟩, out, .error .invalid_argument⟩) ∧
      (∀ out : Int, parse_shortint ⟨A ++ t ++ B, A.length, apos⟩ out required
        = ⟨⟨A ++ t ++ B, A.length, apos⟩, out, .error .invalid_argument⟩) ∧
      (∀ out : Int, parse_integer ⟨A ++ t ++ B, A.length, apos⟩ out required
        = ⟨⟨A ++ t ++ B, A.length, apos⟩, out, .error .invalid_argument⟩) ∧
      (∀ out : Int, parse_bigint ⟨A ++ t ++ B, A.length, apos⟩ out required
        = ⟨⟨A ++ t ++ B, A.length, apos⟩, out, .error .invalid_argument⟩) ∧
      (∀ out : Nat, parse_unsigned_tinyint ⟨A ++ t ++ B, A.length, apos⟩ out required
        = ⟨⟨A ++ t ++ B, A.length, apos⟩, out, .error .invalid_argument⟩) ∧
      (∀ out : Nat, parse_unsigned_shortint ⟨A ++ t ++ B, A.length, apos⟩ out required
        = ⟨⟨A ++ t ++ B, A.length, apos⟩, out, .error .invalid_argument⟩) ∧
      (∀ out : Nat, parse_unsigned_integer ⟨A ++ t ++ B, A.length, apos⟩ out required
        = ⟨⟨A ++ t ++ B, A.length, apos⟩, out, .error .invalid_argument⟩) ∧
      (∀ out : Nat, parse_unsigned_bigint ⟨A ++ t ++ B, A.length, apos⟩ out required
        = ⟨⟨A ++ t ++ B, A.length, apos⟩, out, .error .invalid_argument⟩) := by
  have hi : stoi t = .error .invalid_argument := stol_range_no_prefix t _ _ ht
  have hl : stol t = .error .invalid_argument := stol_range_no_prefix t _ _ ht
  have hu : stoul t 10 = .error .invalid_argument := stoul_no_prefix t ht
  refine ⟨fun out => ?_, fun out => ?_, fun out => ?_, fun out => ?_, fun out => ?_,
    fun out => ?_, fun out => ?_, fun out => ?_⟩
  · exact parse_number_fail_at (fun t => (stoi t).map (narrow_signed 8)) A t B apos out
      required _ hne h32 hB hn (by simp only [hi]; rfl)
  · exact parse_number_fail_at (fun t => (stoi t).map (narrow_signed 16)) A t B apos out
      required _ hne h32 hB hn (by simp only [hi]; rfl)
  · exact parse_number_fail_at stoi A t B apos out required _ hne h32 hB hn hi
  · exact parse_number_fail_at stol A t B apos out required _ hne h32 hB hn hl
  · exact parse_number_fail_at (fun t => (stoul t 10).map (narrow_unsigned 8)) A t B apos out
      required _ hne h32 hB hn (by simp only [hu]; rfl)
  · exact parse_number_fail_at (fun t => (stoul t 10).map (narrow_unsigned 16)) A t B apos out
      required _ hne h32 hB hn (by simp only [hu]; rfl)
  · exact parse_number_fail_at (fun t => (stoul t 10).map (narrow_unsigned 32)) A t B apos out
      required _ hne h32 hB hn (by simp only [hu]; rfl)
  · exact parse_number_fail_at (fun t => (stoul t 10).map (narrow_unsigned 64)) A t B apos out
      required _ hne h32 hB hn (by simp only [hu]; rfl)

/-- In `sum abc 4`, at the token `abc`, every integer operation refuses. -/
theorem parse_integer_kinds_refuse_witness :
    (∀ out : Int, parse_tinyint ⟨bytes "sum " ++ bytes "abc" ++ bytes " 4",
          (bytes "sum ").length, 0⟩ out true
        = ⟨⟨bytes "sum " ++ bytes "abc" ++ bytes " 4", (bytes "sum ").length, 0⟩, out,
            .error .invalid_argument⟩) ∧
      (∀ out : Int, parse_shortint ⟨bytes "sum " ++ bytes "abc" ++ bytes " 4",
          (bytes "sum ").length, 0⟩ out true
        = ⟨⟨bytes "sum " ++ bytes "abc" ++ bytes " 4", (bytes "sum ").length, 0⟩, out,
            .error .invalid_argument⟩) ∧
      (∀ out : Int, parse_integer ⟨bytes "sum " ++ bytes "abc" ++ bytes " 4",
          (bytes "sum ").length, 0⟩ out true
        = ⟨⟨bytes "sum " ++ bytes "abc" ++ bytes " 4", (bytes "sum ").length, 0⟩, out,
            .error .invalid_argument⟩) ∧
      (∀ out : Int, parse_bigint ⟨bytes "sum " ++ bytes "abc" ++ bytes " 4",
          (bytes "sum ").length, 0⟩ out true
        = ⟨⟨bytes "sum " ++ bytes "abc" ++ bytes " 4", (bytes "sum ").length, 0⟩, out,
            .error .invalid_argument⟩) ∧
      (∀ out : Nat, parse_unsigned_tinyint ⟨bytes "sum " ++ bytes "abc" ++ bytes " 4",
          (bytes "sum ").length, 0⟩ out true
        = ⟨⟨bytes "sum " ++ bytes "abc" ++ bytes " 4", (bytes "sum ").length, 0⟩, out,
            .error .invalid_argument⟩) ∧
      (∀ out : Nat, parse_unsigned_shortint ⟨bytes "sum " ++ bytes "abc" ++ bytes " 4",
          (bytes "sum ").length, 0⟩ out true
        = ⟨⟨bytes "sum " ++ bytes "abc" ++ bytes " 4", (bytes "sum ").length, 0⟩, out,
            .error .invalid_argument⟩) ∧
      (∀ out : Nat, parse_unsigned_integer ⟨bytes "sum " ++ bytes "abc" ++ bytes " 4",
          (bytes "sum ").length, 0⟩ out true
        = ⟨⟨bytes "sum " ++ bytes "abc" ++ bytes " 4", (bytes "sum ").length, 0⟩, out,
            .error .invalid_argument⟩) ∧
      (∀ out : Nat, parse_unsigned_bigint ⟨bytes "sum " ++ bytes "abc" ++ bytes " 4",
          (bytes "sum ").length, 0⟩ out true
        = ⟨⟨bytes "sum " ++ bytes "abc" ++ bytes " 4", (bytes "sum ").length, 0⟩, out,
            .error .invalid_argument⟩) :=
  parse_integer_kinds_refuse (bytes "sum ") (bytes "abc") (bytes " 4") 0 true (by decide)
    (by decide) (Or.inr rfl) (by decide) (by unfold no_numeric_prefix; rfl)

/-- The template `pick_from_queue` meets the amended contract, whatever the
queue it is instantiated with. -/
theorem pick_from_queue_contract {α β : Type} (tag : ArgumentTypes)
    (deque : PlaceholderParser → List α)
    (store : PlaceholderParser → List α → PlaceholderParser) (read : α → β)
    (p : PlaceholderParser) :
    pick_contract
      (fun q out required =>
        PlaceholderParser.pick_from_queue q out tag (deque q) store read required)
      tag deque store read p := by
  intro out required
  cases ht : p.m_queue_types with
  | nil =>
    cases required <;> simp [PlaceholderParser.pick_from_queue, ht]
  | cons front types =>
    cases hd : deque p with
    | nil =>
      cases required <;> simp [PlaceholderParser.pick_from_queue, ht, hd]
    | cons value values =>
      by_cases hf : front = tag
      · subst hf
        cases required <;> simp [PlaceholderParser.pick_from_queue, ht, hd]
      · cases required <;> simp [PlaceholderParser.pick_from_queue, ht, hd, hf]

theorem as_unsigned_narrow_8 (v : Nat) (h : v < 2 ^ 8) :
    PlaceholderParser.as_unsigned 8 (narrow_signed 8 v) = v := by
  unfold PlaceholderParser.as_unsigned narrow_signed
  norm_num at h ⊢
  omega

theorem as_unsigned_narrow_16 (v : Nat) (h : v < 2 ^ 16) :
    PlaceholderParser.as_unsigned 16 (narrow_signed 16 v) = v := by
  unfold PlaceholderParser.as_unsigned narrow_signed
  norm_num at h ⊢
  omega

theorem as_unsigned_narrow_32 (v : Nat) (h : v < 2 ^ 32) :
    PlaceholderParser.as_unsigned 32 (narrow_signed 32 v) = v := by
  unfold PlaceholderParser.as_unsigned narrow_signed
  norm_num at h ⊢
  omega

theorem as_unsigned_narrow_64 (v : Nat) (h : v < 2 ^ 64) :
    PlaceholderParser.as_unsigned 64 (narrow_signed 64 v) = v := by
  unfold PlaceholderParser.as_unsigned narrow_signed
  norm_num at h ⊢
  omega

/-- Pushing a value onto the waiting values. -/
theorem push_queued (L : List Pushed) (a : Nat) (v : Pushed) :
    Pushed.push (queued L a) v = queued (L ++ [v]) a := by
  cases v <;>
    simp [queued, Pushed.push, PlaceholderParser.push_string, PlaceholderParser.push_tinyint,
      PlaceholderParser.push_shortint, PlaceholderParser.push_integer,
      PlaceholderParser.push_bigint, PlaceholderParser.push_unsigned_tinyint,
      PlaceholderParser.push_unsigned_shortint, PlaceholderParser.push_unsigned_integer,
      PlaceholderParser.push_unsigned_bigint, PlaceholderParser.push_float,
      PlaceholderParser.push_double, PlaceholderParser.push_bool, List.filterMap_append,
      Pushed.tag, Pushed.string_slot, Pushed.tinyint_slot, Pushed.shortint_slot,
      Pushed.integer_slot, Pushed.bigint_slot, Pushed.float_slot, Pushed.double_slot,
      Pushed.bool_slot]

/-- Parsing the first of the waiting values, as its own type. -/
theorem parse_queued (L : List Pushed) (a : Nat) (v : Pushed) (hv : v.in_range) :
    Pushed.parse_like (queued (v :: L) a) v = .ok (v, queued L (a + 1)) := by
  cases v <;>
    simp [queued, Pushed.parse_like, Pushed.obtained, PlaceholderParser.parse_string,
      PlaceholderParser.parse_tinyint, PlaceholderParser.parse_shortint,
      PlaceholderParser.parse_integer, PlaceholderParser.parse_bigint,
      PlaceholderParser.parse_unsigned_tinyint, PlaceholderParser.parse_unsigned_shortint,
      PlaceholderParser.parse_unsigned_integer, PlaceholderParser.parse_unsigned_bigint,
      PlaceholderParser.parse_float, PlaceholderParser.parse_double,
      PlaceholderParser.parse_bool, PlaceholderParser.pick_from_queue,
      PlaceholderParser.store_string, PlaceholderParser.store_tinyint,
      PlaceholderParser.store_shortint, PlaceholderParser.store_integer,
      PlaceholderParser.store_bigint, PlaceholderParser.store_float,
      PlaceholderParser.store_double, PlaceholderParser.store_bool,
      Pushed.tag, Pushed.string_slot, Pushed.tinyint_slot, Pushed.shortint_slot,
      Pushed.integer_slot, Pushed.bigint_slot, Pushed.float_slot, Pushed.double_slot,
      Pushed.bool_slot]
  · exact as_unsigned_narrow_8 _ hv
  · exact as_unsigned_narrow_16 _ hv
  · exact as_unsigned_narrow_32 _ hv
  · exact as_unsigned_narrow_64 _ hv

theorem push_all_queued : ∀ (vs L : List Pushed) (a : Nat),
    push_all (queued L a) vs = queued (L ++ vs) a := by
  intro vs
  induction vs with
  | nil => intro L a; simp [push_all]
  | cons v vs ih =>
    intro L a
    have h := ih (L ++ [v]) a
    unfold push_all at h ⊢
    rw [List.foldl_cons, push_queued, h]
    simp

theorem parse_all_queued : ∀ (vs : List Pushed) (a : Nat), (∀ v ∈ vs, v.in_range) →
    parse_all vs (queued vs a) = (.ok vs, queued [] (a + vs.length)) := by
  intro vs
  induction vs with
  | nil => intro a _; rfl
  | cons v vs ih =>
    intro a h
    have h1 := parse_queued vs a v (h v (List.mem_cons_self _ _))
    have h2 := ih (a + 1) (fun x hx => h x (List.mem_cons_of_mem _ hx))
    simp only [parse_all, h1, h2, List.length_cons]
    congr 2
    omega

/-! ## The tables of a `CommandExecutor` -/

theorem map_find_assign_self (m : List (Str × Nat)) (k : Str) (v : Nat) :
    map_find (map_assign m k v) k = some v := by
  induction m with
  | nil => simp [map_assign, map_find]
  | cons e rest ih =>
    obtain ⟨k1, v1⟩ := e
    unfold map_assign
    by_cases h1 : k1 = k
    · simp [h1, map_find]
    · by_cases h2 : str_lt k k1 = true
      · simp [h1, h2, map_find]
      · simp [h1, h2, map_find, ih]

theorem map_find_assign_other (m : List (Str × Nat)) (k : Str) (v : Nat) (k2 : Str)
    (h : k2 ≠ k) : map_find (map_assign m k v) k2 = map_find m k2 := by
  induction m with
  | nil => simp [map_assign, map_find, Ne.symm h]
  | cons e rest ih =>
    obtain ⟨k1, v1⟩ := e
    unfold map_assign
    by_cases h1 : k1 = k
    · have h3 : ¬ k1 = k2 := fun h4 => h (h4 ▸ h1)
      simp [h1, map_find]
      subst h1
      simp [h3]
    · by_cases h2 : str_lt k k1 = true
      · simp [h1, h2, map_find, Ne.symm h]
      · simp only [h1, h2, if_false, map_find, ih]

theorem map_find_insert_self (m : List (Str × Nat)) (k : Str) (v : Nat)
    (h : map_find m k = none) : map_find (map_insert m k v) k = some v := by
  induction m with
  | nil => simp [map_insert, map_find]
  | cons e rest ih =>
    obtain ⟨k1, v1⟩ := e
    unfold map_insert
    by_cases h1 : k1 = k
    · simp [map_find, h1] at h
    · have h3 : map_find rest k = none := by simpa [map_find, h1] using h
      by_cases h2 : str_lt k k1 = true
      · simp [h1, h2, map_find]
      · simp [h1, h2, map_find, ih h3]

theorem map_find_insert_other (m : List (Str × Nat)) (k : Str) (v : Nat) (k2 : Str)
    (h : k2 ≠ k) : map_find (map_insert m k v) k2 = map_find m k2 := by
  induction m with
  | nil => simp [map_insert, map_find, Ne.symm h]
  | cons e rest ih =>
    obtain ⟨k1, v1⟩ := e
    unfold map_insert
    by_cases h1 : k1 = k
    · simp [h1]
    · by_cases h2 : str_lt k k1 = true
      · simp [h1, h2, map_find, Ne.symm h]
      · simp only [h1, h2, if_false, map_find, ih]

theorem map_erase_absent (m : List (Str × Nat)) (k : Str) (h : map_find m k = none) :
    map_erase m k = m := by
  induction m with
  | nil => rfl
  | cons e rest ih =>
    obtain ⟨k1, v1⟩ := e
    by_cases h1 : k1 = k
    · simp [map_find, h1] at h
    · have h3 : map_find rest k = none := by simpa [map_find, h1] using h
      have h4 := ih h3
      simpa [map_erase, h1] using h4

theorem map_erase_insert (m : List (Str × Nat)) (k : Str) (v : Nat)
    (h : map_find m k = none) : map_erase (map_insert m k v) k = m := by
  induction m with
  | nil => simp [map_insert, map_erase]
  | cons e rest ih =>
    obtain ⟨k1, v1⟩ := e
    by_cases h1 : k1 = k
    · simp [map_find, h1] at h
    · have h3 : map_find rest k = none := by simpa [map_find, h1] using h
      have h4 := ih h3
      have h5 := map_erase_absent rest k h3
      unfold map_insert
      by_cases h2 : str_lt k k1 = true
      · simpa [map_erase, h1, h2] using h5
      · simpa [map_erase, h1, h2] using h4

theorem mem_set_insert (s : List Nat) (x y : Nat) :
    y ∈ set_insert s x ↔ y = x ∨ y ∈ s := by
  induction s with
  | nil => simp [set_insert]
  | cons z rest ih =>
    unfold set_insert
    by_cases h1 : z = x
    · subst h1
      simp
    · by_cases h2 : x < z
      · simp [h1, h2]
      · simp only [h1, h2, if_false, List.mem_cons, ih]
        tauto

/-! ## Claims on the placeholder parser and on the registry -/

/-- C26, as stated, fails: with `CT_STRING` at the front of the type queue and an
empty queue of strings (both queues are handed out by `get_types_queue()` and
`get_string_queue()`), `parse_string` does not succeed although the front tag is
its own: the guard of `pick_from_queue` also asks `deque.empty()`. -/
theorem parse_string_front_tag_empty_queue :
    ({ PlaceholderParser.empty with m_queue_types := [.CT_STRING] } :
        PlaceholderParser).m_queue_types.head? = some .CT_STRING ∧
      PlaceholderParser.parse_string
          { PlaceholderParser.empty with m_queue_types := [.CT_STRING] } (bytes "old") false =
        ⟨{ PlaceholderParser.empty with m_queue_types := [.CT_STRING] }, bytes "old",
          .ok false⟩ ∧
      PlaceholderParser.parse_string
          { PlaceholderParser.empty with m_queue_types := [.CT_STRING] } (bytes "old") true =
        ⟨{ PlaceholderParser.empty with m_queue_types := [.CT_STRING] }, bytes "old",
          .error .not_enough_arguments⟩ := by
  refine ⟨rfl, rfl, rfl⟩

/-- C26, amended: in every state each of the twelve queue-backed operations
succeeds exactly when the front of the type queue is its tag and its value queue
is not empty; it then returns the front of its value queue (read as unsigned by
the unsigned operations), pops both queues and advances the argument position by
one; otherwise it fails with `not_enough_arguments` when required, returns false
when not, and leaves the parser and `out` as they were. -/
theorem parse_queue_contract (p : PlaceholderParser) :
    pick_contract PlaceholderParser.parse_string .CT_STRING (fun q => q.m_queue_string)
        PlaceholderParser.store_string id p ∧
      pick_contract PlaceholderParser.parse_tinyint .CT_TINYINT (fun q => q.m_queue_tinyint)
        PlaceholderParser.store_tinyint id p ∧
      pick_contract PlaceholderParser.parse_shortint .CT_SHORTINT (fun q => q.m_queue_shortint)
        PlaceholderParser.store_shortint id p ∧
      pick_contract PlaceholderParser.parse_integer .CT_INTEGER (fun q => q.m_queue_integer)
        PlaceholderParser.store_integer id p ∧
      pick_contract PlaceholderParser.parse_bigint .CT_BIGINT (fun q => q.m_queue_bigint)
        PlaceholderParser.store_bigint id p ∧
      pick_contract PlaceholderParser.parse_unsigned_tinyint .CT_UTINYINT
        (fun q => q.m_queue_tinyint) PlaceholderParser.store_tinyint
        (PlaceholderParser.as_unsigned 8) p ∧
      pick_contract PlaceholderParser.parse_unsigned_shortint .CT_USHORTINT
        (fun q => q.m_queue_shortint) PlaceholderParser.store_shortint
        (PlaceholderParser.as_unsigned 16) p ∧
      pick_contract PlaceholderParser.parse_unsigned_integer .CT_UINTEGER
        (fun q => q.m_queue_integer) PlaceholderParser.store_integer
        (PlaceholderParser.as_unsigned 32) p ∧
      pick_contract PlaceholderParser.parse_unsigned_bigint .CT_UBIGINT
        (fun q => q.m_queue_bigint) PlaceholderParser.store_bigint
        (PlaceholderParser.as_unsigned 64) p ∧
      pick_contract PlaceholderParser.parse_float .CT_FLOAT (fun q => q.m_queue_float)
        PlaceholderParser.store_float id p ∧
      pick_contract PlaceholderParser.parse_double .CT_DOUBLE (fun q => q.m_queue_double)
        PlaceholderParser.store_double id p ∧
      pick_contract PlaceholderParser.parse_bool .CT_BOOL (fun q => q.m_queue_bool)
        PlaceholderParser.store_bool id p :=
  ⟨pick_from_queue_contract _ _ _ _ p, pick_from_queue_contract _ _ _ _ p,
    pick_from_queue_contract _ _ _ _ p, pick_from_queue_contract _ _ _ _ p,
    pick_from_queue_contract _ _ _ _ p, pick_from_queue_contract _ _ _ _ p,
    pick_from_queue_contract _ _ _ _ p, pick_from_queue_contract _ _ _ _ p,
    pick_from_queue_contract _ _ _ _ p, pick_from_queue_contract _ _ _ _ p,
    pick_from_queue_contract _ _ _ _ p, pick_from_queue_contract _ _ _ _ p⟩

/-- C27: after the calls `push_<type>(v_i)` on an empty `PlaceholderParser`, for
values of any of the twelve types in any order, each within its C++ type, the
required calls `parse_<type>` of the same types in the same order return exactly
the values pushed, the argument position has advanced once per value, and
`exhausted()` is true afterwards. -/
theorem push_parse_round_trip (vs : List Pushed) (h : ∀ v ∈ vs, v.in_range) :
    (parse_all vs (push_all PlaceholderParser.empty vs)).1 = .ok vs ∧
      (parse_all vs (push_all PlaceholderParser.empty vs)).2.exhausted = true ∧
      (parse_all vs (push_all PlaceholderParser.empty vs)).2.m_argument_pos = vs.length ∧
      (parse_all vs (push_all PlaceholderParser.empty vs)).2.m_queue_types = [] := by
  have h0 : PlaceholderParser.empty = queued [] 0 := rfl
  rw [h0, push_all_queued, List.nil_append, parse_all_queued vs 0 h]
  refine ⟨rfl, rfl, ?_, rfl⟩
  show 0 + vs.length = vs.length
  omega

theorem push_parse_round_trip_witness :
    (∀ v ∈ [Pushed.tinyint (-1), Pushed.unsigned_tinyint 255, Pushed.string (bytes "a"),
        Pushed.unsigned_bigint 18446744073709551615, Pushed.bool true], v.in_range) ∧
      (parse_all [Pushed.tinyint (-1), Pushed.unsigned_tinyint 255, Pushed.string (bytes "a"),
          Pushed.unsigned_bigint 18446744073709551615, Pushed.bool true]
        (push_all PlaceholderParser.empty
          [Pushed.tinyint (-1), Pushed.unsigned_tinyint 255, Pushed.string (bytes "a"),
            Pushed.unsigned_bigint 18446744073709551615, Pushed.bool true])).1 =
        .ok [Pushed.tinyint (-1), Pushed.unsigned_tinyint 255, Pushed.string (bytes "a"),
          Pushed.unsigned_bigint 18446744073709551615, Pushed.bool true] :=
  have hr : ∀ v ∈ [Pushed.tinyint (-1), Pushed.unsigned_tinyint 255, Pushed.string (bytes "a"),
      Pushed.unsigned_bigint 18446744073709551615, Pushed.bool true], v.in_range := by
    intro v hv
    simp only [List.mem_cons, List.mem_singleton, List.not_mem_nil, or_false] at hv
    rcases hv with rfl | rfl | rfl | rfl | rfl <;> simp [Pushed.in_range]
  ⟨hr, (push_parse_round_trip _ hr).1⟩

/-- C28: `register_command(name, c)` returns false exactly when `name` already
resolves to a command, and then both tables are unchanged; otherwise it returns
true, `name` resolves to `c`, `c` is in the set of commands, every other name
resolves as before and every command of the set is still in it. -/
theorem register_command_contract (e : CommandExecutor) (name : Str) (c : Nat) :
    ((e.register_command name c).2 = false ↔ (e.get_command name).isSome = true) ∧
      ((e.get_command name).isSome = true → e.register_command name c = (e, false)) ∧
      (e.get_command name = none →
        (e.register_command name c).2 = true ∧
        (e.register_command name c).1.get_command name = some c ∧
        c ∈ (e.register_command name c).1.m_commands ∧
        (∀ other, other ≠ name →
          (e.register_command name c).1.get_command other = e.get_command other) ∧
        (∀ d, d ∈ (e.register_command name c).1.m_commands ↔ d = c ∨ d ∈ e.m_commands)) := by
  unfold CommandExecutor.get_command CommandExecutor.register_command
  cases hf : map_find e.m_aliases name with
  | some v => simp
  | none =>
    simp only [Option.isSome_none, Bool.false_eq_true, iff_false, false_implies, true_implies,
      true_and, Bool.true_eq_false, not_false_eq_true]
    refine ⟨map_find_assign_self _ _ _, (mem_set_insert _ _ _).2 (Or.inl rfl), ?_, ?_⟩
    · intro other ho
      exact map_find_assign_other _ _ _ _ ho
    · intro d
      exact mem_set_insert _ _ _

/-- C29: `add_alias(target, src)`, with the new name `target` and the existing
name `src`, returns false and leaves both tables unchanged when `target` is
already a name or `src` does not resolve; otherwise it returns true, `target`
resolves to the command `src` resolves to, the other entries of the alias table are those it had, in their order, and
the set of commands is unchanged. -/
theorem add_alias_contract (e : CommandExecutor) (target src : Str) :
    ((e.get_command target).isSome = true ∨ e.get_command src = none →
        e.add_alias target src = (e, false)) ∧
      (∀ c, e.get_command target = none → e.get_command src = some c →
        (e.add_alias target src).2 = true ∧
        (e.add_alias target src).1.get_command target = some c ∧
        (e.add_alias target src).1.get_command src = some c ∧
        (∀ other, other ≠ target →
          (e.add_alias target src).1.get_command other = e.get_command other) ∧
        map_erase (e.add_alias target src).1.m_aliases target = e.m_aliases ∧
        (e.add_alias target src).1.m_commands = e.m_commands) := by
  unfold CommandExecutor.get_command CommandExecutor.add_alias
  constructor
  · intro h
    cases ha : map_find e.m_aliases target with
    | some v => rfl
    | none =>
      rcases h with h | h
      · simp [ha] at h
      · simp [h]
  · intro c ha hx
    have hne : src ≠ target := by
      intro h
      rw [h, ha] at hx
      exact Option.noConfusion hx
    simp only [ha, hx, Option.isNone_none, true_and]
    refine ⟨map_find_insert_self _ _ _ ha, ?_, ?_, map_erase_insert _ _ _ ha, trivial⟩
    · rw [map_find_insert_other _ _ _ _ hne, hx]
    · intro other ho
      exact map_find_insert_other _ _ _ _ ho

/-- C30, the defect: `cmd` is a reference into the entry of `name`, and the loop
erases that entry.  With the names `echo` and `msg` of command 1 and `help` of
command 2, `unregister_command("echo", true)` destroys the entry of `echo` and
then compares the entries of `help` and `msg` with the destroyed pointer: the
call has no defined behaviour.  The same call for `msg`, the last entry, does
what the specification says, as does the call without `delete_aliases`. -/
theorem unregister_command_dangling_reference :
    CommandExecutor.unregister_command
        ⟨[1, 2], [(bytes "echo", 1), (bytes "help", 2), (bytes "msg", 1)]⟩ (bytes "echo") true =
        none ∧
      CommandExecutor.unregister_command
        ⟨[1, 2], [(bytes "echo", 1), (bytes "help", 2), (bytes "msg", 1)]⟩ (bytes "msg") true =
        some (⟨[2], [(bytes "help", 2)]⟩, true) ∧
      CommandExecutor.unregister_command
        ⟨[1, 2], [(bytes "echo", 1), (bytes "help", 2), (bytes "msg", 1)]⟩ (bytes "echo") false =
        some (⟨[2], [(bytes "echo", 1), (bytes "help", 2), (bytes "msg", 1)]⟩, true) := by
  refine ⟨by decide, by decide, by decide⟩

/-! ## The split of a line -/

theorem find_first_of_absent (line : Str) (h : 32 ∉ line) : find_first_of line 32 0 = none := by
  have := fof_append line h [] 0
  simpa [find_first_of, find_first_of_from] using this

theorem find_first_of_first (w rest : Str) (h : 32 ∉ w) :
    find_first_of (w ++ 32 :: rest) 32 0 = some w.length := by
  have := fof_append w h (32 :: rest) 0
  simpa [find_first_of, find_first_of_from] using this

theorem split_at_first_space : ∀ line : Str, 32 ∈ line →
    ∃ w rest, line = w ++ 32 :: rest ∧ 32 ∉ w := by
  intro line
  induction line with
  | nil => intro h; simp at h
  | cons x xs ih =>
    intro h
    by_cases hx : x = 32
    · exact ⟨[], xs, by simp [hx], by simp⟩
    · have hxs : 32 ∈ xs := by
        rcases List.mem_cons.1 h with h1 | h1
        · exact absurd h1.symm hx
        · exact h1
      obtain ⟨w, rest, he, hw⟩ := ih hxs
      refine ⟨x :: w, rest, by simp [he], ?_⟩
      intro hm
      rcases List.mem_cons.1 hm with h1 | h1
      · exact hx h1.symm
      · exact hw h1

theorem split_line_word (w rest : Str) (h : 32 ∉ w) : split_line (w ++ 32 :: rest) = (w, rest) := by
  unfold split_line
  rw [find_first_of_first w rest h]
  simp [substr]

theorem split_line_whole (line : Str) (h : 32 ∉ line) : split_line line = (line, []) := by
  unfold split_line
  rw [find_first_of_absent line h]

/-! ## The positions of an `ArglineParser` never go back -/

theorem fnf_some_ge (c : Nat) : ∀ (l : Str) (i k : Nat),
    find_first_not_of_from c l i = some k → i ≤ k := by
  intro l
  induction l with
  | nil => intro i k h; simp [find_first_not_of_from] at h
  | cons x xs ih =>
    intro i k h
    by_cases hx : x = c
    · simp only [find_first_not_of_from, hx, ne_eq, not_true_eq_false, if_false] at h
      have := ih _ _ h
      omega
    · simp only [find_first_not_of_from, hx, ne_eq, not_false_eq_true, if_true,
        Option.some.injEq] at h
      omega

theorem fof_some_ge (c : Nat) : ∀ (l : Str) (i k : Nat),
    find_first_of_from c l i = some k → i ≤ k := by
  intro l
  induction l with
  | nil => intro i k h; simp [find_first_of_from] at h
  | cons x xs ih =>
    intro i k h
    by_cases hx : x = c
    · simp only [find_first_of_from, hx, if_true, Option.some.injEq] at h
      omega
    · simp only [find_first_of_from, hx, if_false] at h
      have := ih _ _ h
      omega

theorem next_positions (p : ArglineParser) :
    p.m_pos ≤ p._next.m_pos ∧ p._next.m_argument_pos = p.m_argument_pos ∧
      p._next.m_argline = p.m_argline := by
  unfold _next
  by_cases hex : p.exhausted = true
  · rw [if_pos hex]
    exact ⟨le_refl _, rfl, rfl⟩
  · rw [if_neg hex]
    have hlt : p.m_pos < p.m_argline.length := by
      simp only [exhausted, Bool.or_eq_true, decide_eq_true_eq, not_or] at hex
      omega
    cases hf : find_first_not_of p.m_argline 32 p.m_pos with
    | none => exact ⟨by simp only; omega, rfl, rfl⟩
    | some k =>
      have := fnf_some_ge 32 _ _ _ hf
      refine ⟨?_, rfl, rfl⟩
      simp only
      omega

theorem token_end_ge (p : ArglineParser) (h : p.m_pos ≤ p.m_argline.length) :
    p.m_pos ≤ p.token_end := by
  unfold token_end
  cases hf : find_first_of p.m_argline 32 p.m_pos with
  | none => simpa using h
  | some k =>
    have := fof_some_ge 32 _ _ _ hf
    simp only
    omega

theorem quote_loop_ge (a : Str) (q : Nat) : ∀ (fuel i e : Nat),
    _find_unescaped_quote_loop a q fuel i = .ok e → i ≤ e := by
  intro fuel
  induction fuel with
  | zero => intro i e h; simp [_find_unescaped_quote_loop] at h
  | succ f ih =>
    intro i e h
    unfold _find_unescaped_quote_loop at h
    split_ifs at h with h1 h2 h3
    · have := ih _ _ h; omega
    · simp only [Except.ok.injEq] at h; omega
    · have := ih _ _ h; omega

theorem ws_loop_ge (a : Str) : ∀ (fuel i e : Nat),
    _find_unescaped_whitespace_loop a fuel i = .ok (some e) → i ≤ e := by
  intro fuel
  induction fuel with
  | zero =>
    intro i e h
    simp only [_find_unescaped_whitespace_loop, _find_unescaped_whitespace_exit] at h
    split_ifs at h
    simp at h
  | succ f ih =>
    intro i e h
    unfold _find_unescaped_whitespace_loop at h
    split_ifs at h with h1 h2 h3
    · have := ih _ _ h; omega
    · simp only [Except.ok.injEq, Option.some.injEq] at h; omega
    · have := ih _ _ h; omega
    · simp only [_find_unescaped_whitespace_exit] at h
      split_ifs at h
      simp at h

theorem parse_number_positions {α : Type} (conv : Str → Except Error α) (p : ArglineParser)
    (out : α) (required : Bool) :
    position_step p ((parse_number conv p out required).parser,
      (parse_number conv p out required).result) := by
  obtain ⟨h1, h2, h3⟩ := next_positions p
  unfold parse_number position_step
  simp only
  split_ifs with c1 c2
  · exact ⟨h1, by simp [returned_value], fun _ => h2⟩
  · exact ⟨h1, by simp [returned_value], fun _ => h2⟩
  · have hlt : p._next.m_pos ≤ p._next.m_argline.length := by
      by_cases hr : required = true
      · simp only [hr, true_and, not_le] at c1
        omega
      · simp only [hr, not_false_eq_true, true_and, Bool.not_eq_true] at c2
        simp only [exhausted, Bool.or_eq_false_iff, decide_eq_false_iff_not, not_le] at c2
        omega
    have hte := token_end_ge _ hlt
    split
    · exact ⟨h1, by simp [returned_value], fun _ => h2⟩
    · refine ⟨by simp only; omega, fun _ => by simp only; omega, by simp [returned_value]⟩

theorem parse_bool_positions (p : ArglineParser) (out : Bool) (required : Bool) :
    position_step p ((parse_bool p out required).parser, (parse_bool p out required).result) := by
  obtain ⟨h1, h2, h3⟩ := next_positions p
  unfold parse_bool position_step
  simp only
  split_ifs with c1 c2 c3 c4
  · exact ⟨h1, by simp [returned_value], fun _ => h2⟩
  · exact ⟨h1, by simp [returned_value], fun _ => h2⟩
  · exact ⟨h1, fun _ => by simp only; omega, by simp [returned_value]⟩
  · exact ⟨h1, fun _ => by simp only; omega, by simp [returned_value]⟩
  · exact ⟨h1, by simp [returned_value], fun _ => h2⟩

theorem parse_full_positions (p : ArglineParser) (out : Str) (required : Bool) :
    position_step p ((parse_full p out required).parser, (parse_full p out required).result) := by
  obtain ⟨h1, h2, h3⟩ := next_positions p
  unfold parse_full position_step
  simp only
  split_ifs with c1 c2
  · exact ⟨h1, by simp [returned_value], fun _ => h2⟩
  · exact ⟨h1, by simp [returned_value], fun _ => h2⟩
  · split
    · exact ⟨h1, by simp [returned_value], fun _ => h2⟩
    · exact ⟨h1, fun _ => by simp only; omega, by simp [returned_value]⟩

theorem parse_string_positions (p : ArglineParser) (out : Str) (required : Bool) :
    position_step p ((parse_string p out required).parser,
      (parse_string p out required).result) := by
  obtain ⟨h1, h2, h3⟩ := next_positions p
  unfold parse_string position_step
  simp only
  split_ifs with c1 c2 c3
  · exact ⟨h1, by simp [returned_value], fun _ => h2⟩
  · exact ⟨h1, by simp [returned_value], fun _ => h2⟩
  · split
    · exact ⟨h1, by simp [returned_value], fun _ => h2⟩
    · rename_i end_ hq
      have hge : p._next.m_pos + 1 ≤ end_ := by
        unfold _find_unescaped_quote at hq
        split_ifs at hq
        exact quote_loop_ge _ _ _ _ _ hq
      split
      · exact ⟨by simp only; omega, by simp [returned_value], fun _ => h2⟩
      · exact ⟨by simp only; omega, fun _ => by simp only; omega, by simp [returned_value]⟩
  · split
    · exact ⟨h1, by simp [returned_value], fun _ => h2⟩
    · rename_i found hw
      have hlt : p._next.m_pos ≤ p._next.m_argline.length := by
        by_cases hr : required = true
        · simp only [hr, true_and, not_le] at c1
          omega
        · simp only [hr, not_false_eq_true, true_and, Bool.not_eq_true] at c2
          simp only [exhausted, Bool.or_eq_false_iff, decide_eq_false_iff_not, not_le] at c2
          omega
      cases found with
      | none =>
        simp only
        split
        · exact ⟨h1, by simp [returned_value], fun _ => h2⟩
        · exact ⟨by simp only; omega, fun _ => by simp only; omega, by simp [returned_value]⟩
      | some e =>
        have hge := ws_loop_ge _ _ _ _ hw
        simp only
        split
        · exact ⟨h1, by simp [returned_value], fun _ => h2⟩
        · exact ⟨by simp only; omega, fun _ => by simp only; omega, by simp [returned_value]⟩

theorem call_positions (stof stod : Str → Except Error Nat) (p : ArglineParser)
    (c : ParseCall) : position_step p (c.run stof stod p) := by
  cases c with
  | string out required => exact parse_string_positions p out required
  | tinyint out required => exact parse_number_positions _ p out required
  | shortint out required => exact parse_number_positions _ p out required
  | integer out required => exact parse_number_positions _ p out required
  | bigint out required => exact parse_number_positions _ p out required
  | unsigned_tinyint out required => exact parse_number_positions _ p out required
  | unsigned_shortint out required => exact parse_number_positions _ p out required
  | unsigned_integer out required => exact parse_number_positions _ p out required
  | unsigned_bigint out required => exact parse_number_positions _ p out required
  | float out required => exact parse_number_positions _ p out required
  | double out required => exact parse_number_positions _ p out required
  | bool out required => exact parse_bool_positions p out required
  | full out required => exact parse_full_positions p out required

theorem run_calls_positions (stof stod : Str → Except Error Nat) :
    ∀ (cs : List ParseCall) (p : ArglineParser),
      p.m_pos ≤ (run_calls stof stod p cs).1.m_pos ∧
        (run_calls stof stod p cs).1.m_argument_pos =
          p.m_argument_pos + (run_calls stof stod p cs).2 := by
  intro cs
  induction cs with
  | nil => intro p; exact ⟨le_refl _, rfl⟩
  | cons c cs ih =>
    intro p
    obtain ⟨h1, h2, h3⟩ := call_positions stof stod p c
    obtain ⟨i1, i2⟩ := ih (c.run stof stod p).1
    simp only [run_calls]
    refine ⟨le_trans h1 i1, ?_⟩
    rw [i2]
    cases hv : returned_value (c.run stof stod p).2 with
    | true => rw [h2 hv]; simp; omega
    | false => rw [h3 hv]; simp

/-! ## The lengths of the queues of a `PlaceholderParser` -/

theorem pick_queue_lengths {α β : Type} (p : PlaceholderParser) (out : β)
    (tag : ArgumentTypes) (deque : List α)
    (store : PlaceholderParser → List α → PlaceholderParser) (read : α → β) (required : Bool)
    (h : queue_lengths p)
    (hs : ∀ types value values, p.m_queue_types = tag :: types → deque = value :: values →
      queue_lengths
        (store { p with m_queue_types := types, m_argument_pos := p.m_argument_pos + 1 } values)) :
    queue_lengths (PlaceholderParser.pick_from_queue p out tag deque store read required).parser := by
  unfold PlaceholderParser.pick_from_queue
  split
  · rename_i front types value values ht
    split_ifs with c1 c2
    · exact h
    · exact h
    · have : front = tag := by simpa using c1
      subst this
      exact hs _ _ _ ht rfl
  · split_ifs <;> exact h

theorem parse_queue_lengths (p : PlaceholderParser) (out : Pushed) (required : Bool)
    (h : queue_lengths p) : queue_lengths (PlaceholderCall.run p (.parse out required)) := by
  obtain ⟨h1, h2, h3, h4, h5, h6, h7, h8⟩ := h
  cases out <;>
    simp only [PlaceholderCall.run, PlaceholderParser.parse_string,
      PlaceholderParser.parse_tinyint, PlaceholderParser.parse_shortint,
      PlaceholderParser.parse_integer, PlaceholderParser.parse_bigint,
      PlaceholderParser.parse_unsigned_tinyint, PlaceholderParser.parse_unsigned_shortint,
      PlaceholderParser.parse_unsigned_integer, PlaceholderParser.parse_unsigned_bigint,
      PlaceholderParser.parse_float, PlaceholderParser.parse_double,
      PlaceholderParser.parse_bool] <;>
    refine pick_queue_lengths p _ _ _ _ _ _ ⟨h1, h2, h3, h4, h5, h6, h7, h8⟩ ?_ <;>
    intro types value values ht hd <;>
    rw [ht] at h1 h2 h3 h4 h5 h6 h7 h8 <;>
    simp [hd] at h1 h2 h3 h4 h5 h6 h7 h8 <;>
    simp [queue_lengths, PlaceholderParser.store_string, PlaceholderParser.store_tinyint,
      PlaceholderParser.store_shortint, PlaceholderParser.store_integer,
      PlaceholderParser.store_bigint, PlaceholderParser.store_float,
      PlaceholderParser.store_double, PlaceholderParser.store_bool] <;>
    omega

theorem push_queue_lengths (p : PlaceholderParser) (v : Pushed) (h : queue_lengths p) :
    queue_lengths (Pushed.push p v) := by
  obtain ⟨h1, h2, h3, h4, h5, h6, h7, h8⟩ := h
  cases v <;>
    simp [queue_lengths, Pushed.push, PlaceholderParser.push_string,
      PlaceholderParser.push_tinyint,
      PlaceholderParser.push_shortint, PlaceholderParser.push_integer,
      PlaceholderParser.push_bigint, PlaceholderParser.push_unsigned_tinyint,
      PlaceholderParser.push_unsigned_shortint, PlaceholderParser.push_unsigned_integer,
      PlaceholderParser.push_unsigned_bigint, PlaceholderParser.push_float,
      PlaceholderParser.push_double, PlaceholderParser.push_bool, List.count_append,
      h1, h2, h3, h4, h5, h6, h7, h8] <;> omega

theorem call_queue_lengths (p : PlaceholderParser) (c : PlaceholderCall)
    (h : queue_lengths p) : queue_lengths (PlaceholderCall.run p c) := by
  cases c with
  | push v => exact push_queue_lengths p v h
  | parse out required => exact parse_queue_lengths p out required h
  | parse_full out required =>
    simp only [PlaceholderCall.run, PlaceholderParser.parse_full]
    split_ifs <;> exact h
  | set_full_string value => exact h

theorem foldl_queue_lengths : ∀ (cs : List PlaceholderCall) (p : PlaceholderParser),
    queue_lengths p → queue_lengths (cs.foldl PlaceholderCall.run p) := by
  intro cs
  induction cs with
  | nil => intro p h; exact h
  | cons c cs ih => intro p h; exact ih _ (call_queue_lengths p c h)

theorem front_tag_queue {α : Type} (deque : List α) (types : List ArgumentTypes)
    (tag : ArgumentTypes) (n : Nat) (h : deque.length = types.count tag + n)
    (hf : types.head? = some tag) : deque ≠ [] := by
  cases types with
  | nil => simp at hf
  | cons t ts =>
    simp only [List.head?_cons, Option.some.injEq] at hf
    subst hf
    intro hd
    rw [hd] at h
    simp at h
    omega

/-! ## The decoder never lengthens its input -/

theorem take_digits_length (base : Nat) : ∀ s : Str, (take_digits base s).length ≤ s.length := by
  intro s
  induction s with
  | nil => simp [take_digits]
  | cons c cs ih =>
    unfold take_digits
    split
    · split_ifs
      · simp only [List.length_cons]; omega
      · simp
    · simp

theorem take_digits_lt (base : Nat) : ∀ (s : Str) (d : Nat), d ∈ take_digits base s → d < base := by
  intro s
  induction s with
  | nil => intro d h; simp [take_digits] at h
  | cons c cs ih =>
    intro d h
    unfold take_digits at h
    split at h
    · split_ifs at h with hd
      · rcases List.mem_cons.1 h with h1 | h1
        · rw [h1]; exact hd
        · exact ih d h1
      · simp at h
    · simp at h

theorem foldl_digits_lt (base : Nat) : ∀ (ds : List Nat) (acc : Nat), (∀ d ∈ ds, d < base) →
    ds.foldl (fun a d => a * base + d) acc < (acc + 1) * base ^ ds.length := by
  intro ds
  induction ds with
  | nil => intro acc _; simp
  | cons d ds ih =>
    intro acc h
    have hd : d < base := h d (List.mem_cons_self _ _)
    have := ih (acc * base + d) (fun x hx => h x (List.mem_cons_of_mem _ hx))
    simp only [List.foldl_cons, List.length_cons]
    calc List.foldl (fun a d => a * base + d) (acc * base + d) ds
        < (acc * base + d + 1) * base ^ ds.length := this
      _ ≤ ((acc + 1) * base) * base ^ ds.length := by
          apply Nat.mul_le_mul_right
          have : (acc + 1) * base = acc * base + base := by ring
          omega
      _ = (acc + 1) * base ^ (ds.length + 1) := by ring

theorem digits_value_lt (base : Nat) (ds : List Nat) (h : ∀ d ∈ ds, d < base) :
    digits_value base ds < base ^ ds.length := by
  have := foldl_digits_lt base ds 0 h
  simpa [digits_value] using this

theorem skip_spaces_length : ∀ s : Str, (skip_spaces s).length ≤ s.length := by
  intro s
  induction s with
  | nil => simp [skip_spaces]
  | cons c cs ih =>
    unfold skip_spaces
    split_ifs
    · simp only [List.length_cons]; omega
    · exact le_refl _

theorem take_digits_value_lt (s : Str) (h : s.length ≤ 4) :
    digits_value 16 (take_digits 16 s) < 65536 := by
  have h1 := digits_value_lt 16 (take_digits 16 s) (take_digits_lt 16 s)
  have h2 := take_digits_length 16 s
  have h3 : 16 ^ (take_digits 16 s).length ≤ 16 ^ 4 :=
    Nat.pow_le_pow_right (by norm_num) (by omega)
  have : (16 : Nat) ^ 4 = 65536 := by norm_num
  omega

theorem stoul_digits_body (s : Str) (base : Nat) (negative : Bool) :
    ∃ body : Str, body.length ≤ s.length ∧
      stoul_digits s base negative =
        (if take_digits base body = [] then .error .invalid_argument
          else if 2 ^ 64 ≤ digits_value base (take_digits base body) then .error .out_of_range
          else .ok (if negative then (2 ^ 64 - digits_value base (take_digits base body)) % 2 ^ 64
            else digits_value base (take_digits base body))) := by
  refine ⟨_, ?_, rfl⟩
  split
  · split_ifs
    · simp only [List.length_cons]; omega
    · exact le_refl _
  · exact le_refl _

theorem stoul_digits_hex_quad (s : Str) (negative : Bool) (v : Nat) (h : s.length ≤ 4)
    (hv : stoul_digits s 16 negative = .ok v) :
    v < 65536 ∨ (2 ^ 64 - 65536 < v ∧ v < 2 ^ 64) := by
  obtain ⟨body, hlen, he⟩ := stoul_digits_body s 16 negative
  rw [he] at hv
  have hb := take_digits_value_lt body (by omega)
  have hp : (2 : Nat) ^ 64 = 18446744073709551616 := by norm_num
  rw [hp] at hv ⊢
  split_ifs at hv with c1 c2 c3
  · simp only [Except.ok.injEq] at hv
    omega
  · simp only [Except.ok.injEq] at hv
    omega

theorem stoul_hex_quad_range (s : Str) (v : Nat) (h : s.length ≤ 4) (hv : stoul s 16 = .ok v) :
    v < 65536 ∨ (2 ^ 64 - 65536 < v ∧ v < 2 ^ 64) := by
  have hs := skip_spaces_length s
  unfold stoul at hv
  split at hv
  · rename_i rest heq
    exact stoul_digits_hex_quad rest true v (by rw [heq] at hs; simp at hs; omega) hv
  · rename_i rest heq
    exact stoul_digits_hex_quad rest false v (by rw [heq] at hs; simp at hs; omega) hv
  · exact stoul_digits_hex_quad _ false v (by omega) hv

theorem utf8_write_quad_length (v : Nat)
    (h : v < 65536 ∨ (2 ^ 64 - 65536 < v ∧ v < 2 ^ 64)) :
    (utf8_write_octets (v % 2 ^ 32)).length ≤ 3 := by
  have hp : (2 : Nat) ^ 64 = 18446744073709551616 := by norm_num
  have hq : (2 : Nat) ^ 32 = 4294967296 := by norm_num
  rw [hp] at h
  rw [hq]
  unfold utf8_write_octets
  split_ifs with c1 c2 c3 c4
  · simp
  · simp
  · simp
  · exfalso; omega
  · simp

theorem interpret_escape_groups (out : Str) (n : Nat) (seq : Str) (out1 : Str) (k : Nat)
    (hn : n ≠ 0) (h : _interpret_escape_into out n seq = .ok (out1, k)) :
    ∃ emitted : Str, out1 = out ++ emitted ∧
      ((k = 1 ∧ emitted.length = 1) ∨ (k = 3 ∧ 3 ≤ n ∧ emitted.length = 1) ∨
        (k = 5 ∧ 5 ≤ n ∧ emitted.length ≤ 3) ∨ (k = 4 ∧ 4 ≤ n ∧ emitted.length = 1)) := by
  unfold _interpret_escape_into at h
  rw [if_neg hn] at h
  dsimp only at h
  generalize charAt seq 0 = c at h
  by_cases c32 : c = 32
  · rw [if_pos c32] at h
    simp only [Except.ok.injEq, Prod.mk.injEq] at h
    exact ⟨_, h.1.symm, Or.inl ⟨h.2.symm, rfl⟩⟩
  rw [if_neg c32] at h
  by_cases c34 : c = 34
  · rw [if_pos c34] at h
    simp only [Except.ok.injEq, Prod.mk.injEq] at h
    exact ⟨_, h.1.symm, Or.inl ⟨h.2.symm, rfl⟩⟩
  rw [if_neg c34] at h
  by_cases c39 : c = 39
  · rw [if_pos c39] at h
    simp only [Except.ok.injEq, Prod.mk.injEq] at h
    exact ⟨_, h.1.symm, Or.inl ⟨h.2.symm, rfl⟩⟩
  rw [if_neg c39] at h
  by_cases c63 : c = 63
  · rw [if_pos c63] at h
    simp only [Except.ok.injEq, Prod.mk.injEq] at h
    exact ⟨_, h.1.symm, Or.inl ⟨h.2.symm, rfl⟩⟩
  rw [if_neg c63] at h
  by_cases c92 : c = 92
  · rw [if_pos c92] at h
    simp only [Except.ok.injEq, Prod.mk.injEq] at h
    exact ⟨_, h.1.symm, Or.inl ⟨h.2.symm, rfl⟩⟩
  rw [if_neg c92] at h
  by_cases c97 : c = 97
  · rw [if_pos c97] at h
    simp only [Except.ok.injEq, Prod.mk.injEq] at h
    exact ⟨_, h.1.symm, Or.inl ⟨h.2.symm, rfl⟩⟩
  rw [if_neg c97] at h
  by_cases c98 : c = 98
  · rw [if_pos c98] at h
    simp only [Except.ok.injEq, Prod.mk.injEq] at h
    exact ⟨_, h.1.symm, Or.inl ⟨h.2.symm, rfl⟩⟩
  rw [if_neg c98] at h
  by_cases c102 : c = 102
  · rw [if_pos c102] at h
    simp only [Except.ok.injEq, Prod.mk.injEq] at h
    exact ⟨_, h.1.symm, Or.inl ⟨h.2.symm, rfl⟩⟩
  rw [if_neg c102] at h
  by_cases c110 : c = 110
  · rw [if_pos c110] at h
    simp only [Except.ok.injEq, Prod.mk.injEq] at h
    exact ⟨_, h.1.symm, Or.inl ⟨h.2.symm, rfl⟩⟩
  rw [if_neg c110] at h
  by_cases c114 : c = 114
  · rw [if_pos c114] at h
    simp only [Except.ok.injEq, Prod.mk.injEq] at h
    exact ⟨_, h.1.symm, Or.inl ⟨h.2.symm, rfl⟩⟩
  rw [if_neg c114] at h
  by_cases c116 : c = 116
  · rw [if_pos c116] at h
    simp only [Except.ok.injEq, Prod.mk.injEq] at h
    exact ⟨_, h.1.symm, Or.inl ⟨h.2.symm, rfl⟩⟩
  rw [if_neg c116] at h
  by_cases c118 : c = 118
  · rw [if_pos c118] at h
    simp only [Except.ok.injEq, Prod.mk.injEq] at h
    exact ⟨_, h.1.symm, Or.inl ⟨h.2.symm, rfl⟩⟩
  rw [if_neg c118] at h
  by_cases cx : c = 120
  · rw [if_pos cx] at h
    by_cases hn3 : n < 3
    · rw [if_pos hn3] at h
      exact absurd h (by simp)
    rw [if_neg hn3] at h
    split at h
    · exact absurd h (by simp)
    · simp only [Except.ok.injEq, Prod.mk.injEq] at h
      exact ⟨_, h.1.symm, Or.inr (Or.inl ⟨h.2.symm, by omega, rfl⟩)⟩
  rw [if_neg cx] at h
  by_cases cu : c = 117
  · rw [if_pos cu] at h
    by_cases hn5 : n < 5
    · rw [if_pos hn5] at h
      exact absurd h (by simp)
    rw [if_neg hn5] at h
    split at h
    · exact absurd h (by simp)
    · rename_i value hv
      simp only [Except.ok.injEq, Prod.mk.injEq] at h
      refine ⟨_, h.1.symm, Or.inr (Or.inr (Or.inl ⟨h.2.symm, by omega, ?_⟩))⟩
      exact utf8_write_quad_length value
        (stoul_hex_quad_range _ value (by simp [make_lowercase]) hv)
  rw [if_neg cu] at h
  by_cases hn4 : n < 4
  · rw [if_pos hn4] at h
    exact absurd h (by simp)
  rw [if_neg hn4] at h
  split at h
  · exact absurd h (by simp)
  · exact absurd h (by simp)
  · simp only [Except.ok.injEq, Prod.mk.injEq] at h
    exact ⟨_, h.1.symm, Or.inr (Or.inr (Or.inr ⟨h.2.symm, by omega, rfl⟩))⟩

theorem unescape_loop_length (inp : Str) : ∀ (fuel i : Nat) (out res : Str),
    _unescape_into_loop inp fuel i out = (res, none) →
      res.length ≤ out.length + (inp.length - i) := by
  intro fuel
  induction fuel with
  | zero =>
    intro i out res h
    simp only [_unescape_into_loop, Prod.mk.injEq, and_true] at h
    rw [← h]
    omega
  | succ f ih =>
    intro i out res h
    unfold _unescape_into_loop at h
    split_ifs at h with c1 c2 c3
    · simp at h
    · split at h
      · simp at h
      · rename_i out1 k hk
        have hi := ih _ _ _ h
        obtain ⟨emitted, he, hg⟩ := interpret_escape_groups out _ _ out1 k (by omega) hk
        rw [he, List.length_append] at hi
        rcases hg with ⟨h1, h2⟩ | ⟨h1, h2, h3⟩ | ⟨h1, h2, h3⟩ | ⟨h1, h2, h3⟩ <;> omega
    · have hi := ih _ _ _ h
      simp only [List.length_append, List.length_singleton] at hi
      omega
    · simp only [Prod.mk.injEq, and_true] at h
      rw [← h]
      omega

theorem unescape_into_length_le (inp : Str) (i : Nat) (res : Str)
    (h : _unescape_into inp i = (res, none)) : res.length ≤ inp.length - i := by
  have := unescape_loop_length inp _ _ _ _ h
  simpa using this

/-! ## Claims on `dispatch_line`, on the positions and on the queues -/

/-- C31: `dispatch_line` takes as command word the text before the first space
(the whole line when it has no space) and makes the parser on the text after
that first space (the empty string when there is none); when the line has a
space, word, one space and remainder make up the line again, and the word has no
space.  The body of the command found runs on that parser. -/
theorem dispatch_line_splits_at_first_space :
    (∀ w rest : Str, 32 ∉ w → split_line (w ++ 32 :: rest) = (w, rest)) ∧
      (∀ line : Str, 32 ∉ line → split_line line = (line, [])) ∧
      (∀ line : Str, 32 ∈ line →
        (split_line line).1 ++ 32 :: (split_line line).2 = line ∧ 32 ∉ (split_line line).1) ∧
      (∀ (objects : Nat → Command) (handler : Str → Str) (e : CommandExecutor) (line : Str),
        (e.get_command (split_line line).1 = none →
          (dispatch_line objects handler e line).parser = create (split_line line).2 0) ∧
        (∀ cmd, e.get_command (split_line line).1 = some cmd →
          (dispatch_line objects handler e line).parser =
            ((objects cmd).execute e (split_line line).1 (create (split_line line).2 0)).parser ∧
          (dispatch_line objects handler e line).executed = some cmd)) := by
  refine ⟨split_line_word, split_line_whole, ?_, ?_⟩
  · intro line h
    obtain ⟨w, rest, he, hw⟩ := split_at_first_space line h
    rw [he, split_line_word w rest hw]
    exact ⟨rfl, hw⟩
  · intro objects handler e line
    unfold CommandExecutor.get_command dispatch_line
    constructor
    · intro h
      simp only [h]
    · intro cmd h
      simp only [h]
      split <;> exact ⟨rfl, rfl⟩

/-- C32: when the command word is no key of the alias table, `dispatch_line`
writes what the handler of unknown commands writes for that word (the default
handler: `Unknown command: `, the word, a newline), runs no body, returns false
without an exception, and leaves both tables as they were. -/
theorem dispatch_line_unknown_command (objects : Nat → Command) (handler : Str → Str)
    (e : CommandExecutor) (line : Str) (h : e.get_command (split_line line).1 = none) :
    dispatch_line objects handler e line =
        ⟨e, create (split_line line).2 0, none, handler (split_line line).1, some (.ok false)⟩ ∧
      handle_unknown_command (split_line line).1 =
        bytes "Unknown command: " ++ (split_line line).1 ++ [10] := by
  unfold CommandExecutor.get_command at h
  unfold dispatch_line
  simp only [h]
  exact ⟨trivial, rfl⟩

/-- With `echo` registered, the line `ech a b` has an unknown command word. -/
theorem dispatch_line_unknown_command_witness :
    CommandExecutor.get_command ⟨[1], [(bytes "echo", 1)]⟩ (split_line (bytes "ech a b")).1 = none ∧
      dispatch_line (fun _ => EchoCommand) handle_unknown_command ⟨[1], [(bytes "echo", 1)]⟩
          (bytes "ech a b") =
        ⟨⟨[1], [(bytes "echo", 1)]⟩, create (split_line (bytes "ech a b")).2 0, none,
          handle_unknown_command (split_line (bytes "ech a b")).1, some (.ok false)⟩ :=
  ⟨by decide, (dispatch_line_unknown_command (fun _ => EchoCommand) handle_unknown_command
    ⟨[1], [(bytes "echo", 1)]⟩ (bytes "ech a b") (by decide)).1⟩

/-- C33 (the code departs from it): only the handler of
`unexpected_escape_character` returns false.  The handlers of
`not_enough_arguments`, `too_many_arguments`, `invalid_escape_format`,
`std::invalid_argument` and `std::out_of_range` write their diagnostic and fall
through to the `return true` that ends `dispatch_line`: with `echo` registered,
the lines `echo a`, `echo a b c`, `echo x\q y` and `echo a \xzz` all make
`dispatch_line` return true. -/
theorem dispatch_line_returns_true_after_diagnostic :
    (dispatch_line (fun _ => EchoCommand) handle_unknown_command ⟨[1], [(bytes "echo", 1)]⟩
        (bytes "echo a")).result = some (.ok true) ∧
      (dispatch_line (fun _ => EchoCommand) handle_unknown_command ⟨[1], [(bytes "echo", 1)]⟩
        (bytes "echo a")).written =
        bytes "This command requires at least 2 arguments, but received 1." ++ [10] ++
          bytes "/echo (name <text>) (text <text>)" ++ [10] ∧
      (dispatch_line (fun _ => EchoCommand) handle_unknown_command ⟨[1], [(bytes "echo", 1)]⟩
        (bytes "echo a b c")).result = some (.ok true) ∧
      (dispatch_line (fun _ => EchoCommand) handle_unknown_command ⟨[1], [(bytes "echo", 1)]⟩
        ([101, 99, 104, 111, 32, 120, 92, 113, 32, 121])).result = some (.ok true) ∧
      (dispatch_line (fun _ => EchoCommand) handle_unknown_command ⟨[1], [(bytes "echo", 1)]⟩
        ([101, 99, 104, 111, 32, 97, 32, 92, 120, 122, 122])).result = some (.ok true) ∧
      (dispatch_catch EchoCommand (bytes "echo") (bytes "a") ⟨bytes "a", 0, 0⟩ .out_of_range).2 =
        some (.ok true) ∧
      (dispatch_line (fun _ => EchoCommand) handle_unknown_command ⟨[1], [(bytes "echo", 1)]⟩
        ([101, 99, 104, 111, 32, 97, 32, 98, 92])).result = some (.ok false) ∧
      (∀ (c : Command) (cmdname argline : Str) (parser : ArglineParser),
        (dispatch_catch c cmdname argline parser .not_enough_arguments).2 = some (.ok true) ∧
        (dispatch_catch c cmdname argline parser .too_many_arguments).2 = some (.ok true)) := by
  refine ⟨?_, ?_, ?_, ?_, ?_, ?_, ?_, fun _ _ _ _ => ⟨?_, ?_⟩⟩ <;> rfl

/-- C34 (the code departs from it): `dispatch_line` has no handler for
`unclosed_quote` (nor for `unknown_custom_type` and `unicode_too_short`), for any
command.  With `echo` registered, the line `echo hello 'wor` makes the body throw
`unclosed_quote`, which leaves `dispatch_line` with nothing written. -/
theorem dispatch_line_lets_unclosed_quote_through :
    (dispatch_line (fun _ => EchoCommand) handle_unknown_command ⟨[1], [(bytes "echo", 1)]⟩
        (bytes "echo hello 'wor")).result = some (.error (.error .unclosed_quote)) ∧
      (dispatch_line (fun _ => EchoCommand) handle_unknown_command ⟨[1], [(bytes "echo", 1)]⟩
        (bytes "echo hello 'wor")).written = [] ∧
      (∀ (c : Command) (cmdname argline : Str) (parser : ArglineParser),
        dispatch_catch c cmdname argline parser .unclosed_quote =
            ([], some (.error (.error .unclosed_quote))) ∧
          dispatch_catch c cmdname argline parser .unknown_custom_type =
            ([], some (.error (.error .unknown_custom_type))) ∧
          dispatch_catch c cmdname argline parser .unicode_too_short =
            ([], some (.error (.error .unicode_too_short)))) := by
  refine ⟨?_, ?_, fun _ _ _ _ => ⟨?_, ?_, ?_⟩⟩ <;> rfl

/-- C35: every parse operation of an `ArglineParser`, in every state and
whatever it returns or throws, leaves the raw position where it was or further,
advances the argument position by exactly 1 when it returns a value and leaves
it alone otherwise.  Hence over any sequence of calls the raw position never
decreases and the argument position grows by the number of values returned; after
construction it is that number, so a call that fails leaves it at the index of
the argument it was filling. -/
theorem parse_positions_never_go_back (stof stod : Str → Except Error Nat) :
    (∀ (p : ArglineParser) (c : ParseCall), position_step p (c.run stof stod p)) ∧
      (∀ (p : ArglineParser) (cs : List ParseCall),
        p.m_pos ≤ (run_calls stof stod p cs).1.m_pos ∧
          (run_calls stof stod p cs).1.m_argument_pos =
            p.m_argument_pos + (run_calls stof stod p cs).2) ∧
      (∀ (argline : Str) (pos : Nat) (cs : List ParseCall) (c : ParseCall),
        (run_calls stof stod (create argline pos) cs).1.m_argument_pos =
            (run_calls stof stod (create argline pos) cs).2 ∧
          (returned_value (c.run stof stod (run_calls stof stod (create argline pos) cs).1).2 =
              false →
            (c.run stof stod (run_calls stof stod (create argline pos) cs).1).1.m_argument_pos =
              (run_calls stof stod (create argline pos) cs).2)) := by
  refine ⟨call_positions stof stod, fun p cs => run_calls_positions stof stod cs p, ?_⟩
  intro argline pos cs c
  have h := (run_calls_positions stof stod cs (create argline pos)).2
  have h0 : (create argline pos).m_argument_pos = 0 := rfl
  rw [h0, Nat.zero_add] at h
  refine ⟨h, fun hv => ?_⟩
  rw [(call_positions stof stod _ c).2.2 hv, h]

/-- C36, as stated, fails: none of `register_command`, `add_alias`,
`remove_alias` and `unregister_command` takes the mutex, and the mutex lets the
three steps of `register_command` of a second thread happen between the `find`
and the body of a `dispatch_line` that holds it. -/
theorem register_command_inside_dispatch :
    (∀ m ∈ [Member.register_command, Member.add_alias, Member.remove_alias,
          Member.unregister_command false, Member.unregister_command true],
        Action.lock ∉ m.actions) ∧
      (false, Action.lock) :: (false, Action.write_latest_context) ::
          (false, Action.read_aliases) :: (true, Action.read_aliases) ::
          (true, Action.write_commands) :: (true, Action.write_aliases) ::
          (false, Action.execute) :: [(false, Action.unlock)] ∈
        interleavings (Member.dispatch_line true).actions Member.register_command.actions ∧
      admissible none
        ((false, Action.lock) :: (false, Action.write_latest_context) ::
          (false, Action.read_aliases) :: (true, Action.read_aliases) ::
          (true, Action.write_commands) :: (true, Action.write_aliases) ::
          (false, Action.execute) :: [(false, Action.unlock)]) = true ∧
      mutation_under_lock none
        ((false, Action.lock) :: (false, Action.write_latest_context) ::
          (false, Action.read_aliases) :: (true, Action.read_aliases) ::
          (true, Action.write_commands) :: (true, Action.write_aliases) ::
          (false, Action.execute) :: [(false, Action.unlock)]) = true := by
  refine ⟨by decide, by decide, by decide, by decide⟩

set_option maxRecDepth 100000 in
/-- C36, amended: `dispatch_line` takes the mutex first and releases it last, so
of two calls of `dispatch_line` on one executor the mutex lets one run only
after the other has returned; the four registration functions take no lock; and
when the caller takes `m_mutex` around a registration function, no schedule the
mutex lets happen has a change of the alias table or of the set of commands
while a `dispatch_line` holds the mutex. -/
theorem dispatch_line_lock_discipline :
    (∀ f, (Member.dispatch_line f).actions.head? = some Action.lock ∧
        (Member.dispatch_line f).actions.getLast? = some Action.unlock) ∧
      (∀ f g,
        ∀ s ∈ interleavings (Member.dispatch_line f).actions (Member.dispatch_line g).actions,
          admissible none s = true →
            s = (Member.dispatch_line f).actions.map (fun a => (false, a)) ++
                (Member.dispatch_line g).actions.map (fun a => (true, a)) ∨
            s = (Member.dispatch_line g).actions.map (fun a => (true, a)) ++
                (Member.dispatch_line f).actions.map (fun a => (false, a))) ∧
      (∀ m ∈ [Member.register_command, Member.add_alias, Member.remove_alias,
          Member.unregister_command false, Member.unregister_command true],
        Action.lock ∉ m.actions ∧
        ∀ f, ∀ s ∈ interleavings (Member.dispatch_line f).actions m.guarded,
          admissible none s = true → mutation_under_lock none s = false) := by
  refine ⟨by decide, by decide, by decide⟩

/-- C37: let the body of the command found end, with the argument position
`p`, by `invalid_escape_format`, `std::out_of_range` or `std::invalid_argument`,
and let `it` be the declaration `m_args[p]` when `p` is less than the number of
mandatory arguments, `m_optargs[p - m_args.size()]` otherwise.  Then the
diagnostic `dispatch_line` writes after the output of the body names
`it.m_name` (for `invalid_escape_format`, when the raw position is within the
argument line, whose rest the diagnostic quotes). -/
theorem dispatch_line_names_argument (objects : Nat → Command) (handler : Str → Str)
    (e : CommandExecutor) (line : Str) (cmd : Nat) (x : Executed) (it : ArgumentDefinition)
    (hf : e.get_command (split_line line).1 = some cmd)
    (hx : (objects cmd).execute e (split_line line).1 (create (split_line line).2 0) = x)
    (hit : (x.parser.m_argument_pos < (objects cmd).m_args.length ∧
        (objects cmd).m_args[x.parser.m_argument_pos]? = some it) ∨
      ((objects cmd).m_args.length ≤ x.parser.m_argument_pos ∧
        (objects cmd).m_optargs[x.parser.m_argument_pos - (objects cmd).m_args.length]? =
          some it)) :
    (x.result = .error .invalid_escape_format → x.parser.m_pos ≤ (split_line line).2.length →
        (dispatch_line objects handler e line).written =
          x.written ++ (bytes "Invalid escape code sequence specified for argument " ++ [34] ++
            it.m_name ++ [34] ++ bytes ":" ++ [10] ++ (split_line line).2.drop x.parser.m_pos ++
            [10])) ∧
      (x.result = .error .out_of_range →
        (dispatch_line objects handler e line).written =
          x.written ++ (bytes "Value outside of the boundaries provided for argument " ++ [34] ++
            it.m_name ++ [34] ++ bytes "." ++ [10])) ∧
      (x.result = .error .invalid_argument →
        (dispatch_line objects handler e line).written =
          x.written ++ (bytes "Invalid value specified for argument " ++ [34] ++ it.m_name ++
            [34] ++ bytes "." ++ [10] ++
            (objects cmd).format_usage_into (split_line line).1 ++ [10])) := by
  have hrep : (objects cmd).reported_argument x.parser.m_argument_pos = some it := by
    unfold Command.reported_argument Command.get_args_count
    rcases hit with ⟨h1, h2⟩ | ⟨h1, h2⟩
    · rw [if_neg (by omega), h2]
    · rw [if_pos (by omega), h2]
  unfold CommandExecutor.get_command at hf
  refine ⟨?_, ?_, ?_⟩
  · intro hr hpos
    unfold dispatch_line
    simp only [hf, hx, hr, dispatch_catch, hrep, if_neg (Nat.not_lt.2 hpos)]
  · intro hr
    unfold dispatch_line
    simp only [hf, hx, hr, dispatch_catch, hrep]
  · intro hr
    have hnull : ¬ (if x.parser.m_argument_pos + 1 > (objects cmd).get_args_count then
          (objects cmd).m_optargs = [] ∧
            x.parser.m_argument_pos - (objects cmd).get_args_count = 0
        else (objects cmd).m_args = [] ∧ x.parser.m_argument_pos = 0) := by
      unfold Command.get_args_count
      rcases hit with ⟨h1, h2⟩ | ⟨h1, h2⟩
      · rw [if_neg (by omega)]
        rintro ⟨h3, _⟩
        rw [h3] at h2
        simp at h2
      · rw [if_pos (by omega)]
        rintro ⟨h3, _⟩
        rw [h3] at h2
        simp at h2
    unfold dispatch_line
    simp only [hf, hx, hr, dispatch_catch, hrep, if_neg hnull]

/-- In `echo a \\xzz` the second argument, `text`, has the bad value. -/
theorem dispatch_line_names_argument_witness :
    (dispatch_line (fun _ => EchoCommand) handle_unknown_command ⟨[1], [(bytes "echo", 1)]⟩
        [101, 99, 104, 111, 32, 97, 32, 92, 120, 122, 122]).written =
      (EchoCommand.execute ⟨[1], [(bytes "echo", 1)]⟩ (bytes "echo")
          (create [97, 32, 92, 120, 122, 122] 0)).written ++
        (bytes "Invalid value specified for argument " ++ [34] ++
          (⟨.CT_STRING, bytes "text", bytes "Message to show to the output."⟩ :
            ArgumentDefinition).m_name ++ [34] ++ bytes "." ++ [10] ++
          ((fun _ => EchoCommand) 1).format_usage_into
            (split_line [101, 99, 104, 111, 32, 97, 32, 92, 120, 122, 122]).1 ++ [10]) :=
  (dispatch_line_names_argument (fun _ => EchoCommand) handle_unknown_command
    ⟨[1], [(bytes "echo", 1)]⟩ [101, 99, 104, 111, 32, 97, 32, 92, 120, 122, 122] 1
    (EchoCommand.execute ⟨[1], [(bytes "echo", 1)]⟩ (bytes "echo")
      (create [97, 32, 92, 120, 122, 122] 0))
    ⟨.CT_STRING, bytes "text", bytes "Message to show to the output."⟩ (by rfl) (by rfl)
    (Or.inl ⟨by decide, by rfl⟩)).2.2 (by rfl)

/-- C38: when `name` resolves to the command `c`,
`unregister_command(name, false)` returns true and only takes `c` out of the set
of commands: `c` is no longer in the set, the alias table is the same, so every
name resolves as before, and `dispatch_line` still runs `c` for every line whose
command word resolved to it. -/
theorem unregister_command_keeps_aliases (objects : Nat → Command) (handler : Str → Str)
    (e : CommandExecutor) (name : Str) (c : Nat) (h : e.get_command name = some c) :
    e.unregister_command name false =
        some ({ e with m_commands := set_erase e.m_commands c }, true) ∧
      c ∉ set_erase e.m_commands c ∧
      (∀ k, CommandExecutor.get_command { e with m_commands := set_erase e.m_commands c } k =
        e.get_command k) ∧
      (∀ line, e.get_command (split_line line).1 = some c →
        (dispatch_line objects handler { e with m_commands := set_erase e.m_commands c }
          line).executed = some c) := by
  unfold CommandExecutor.get_command at h
  refine ⟨?_, ?_, fun k => rfl, ?_⟩
  · unfold CommandExecutor.unregister_command
    simp only [h]
    rfl
  · simp [set_erase]
  · intro line hl
    unfold CommandExecutor.get_command at hl
    unfold dispatch_line
    simp only [hl]
    split <;> rfl

/-- The names `echo` and `msg` of one command, `echo` being unregistered. -/
theorem unregister_command_keeps_aliases_witness :
    CommandExecutor.get_command ⟨[1], [(bytes "echo", 1), (bytes "msg", 1)]⟩ (bytes "echo") =
        some 1 ∧
      CommandExecutor.unregister_command ⟨[1], [(bytes "echo", 1), (bytes "msg", 1)]⟩
          (bytes "echo") false =
        some (⟨[], [(bytes "echo", 1), (bytes "msg", 1)]⟩, true) :=
  ⟨by decide, (unregister_command_keeps_aliases (fun _ => EchoCommand) handle_unknown_command
    ⟨[1], [(bytes "echo", 1), (bytes "msg", 1)]⟩ (bytes "echo") 1 (by decide)).1⟩

/-- C39: in every state reached from an empty `PlaceholderParser` by calls of
`push_<type>`, `parse_<type>`, `parse_full` and `set_full_string`, each value
queue is as long as the type queue has tags stored in it (signed and unsigned
tags of one width together); hence the value queue of the tag at the front of
the type queue is never empty. -/
theorem reachable_queue_lengths (p : PlaceholderParser) (h : reachable p) :
    queue_lengths p ∧
      (p.m_queue_types.head? = some .CT_STRING → p.m_queue_string ≠ []) ∧
      (p.m_queue_types.head? = some .CT_TINYINT → p.m_queue_tinyint ≠ []) ∧
      (p.m_queue_types.head? = some .CT_UTINYINT → p.m_queue_tinyint ≠ []) ∧
      (p.m_queue_types.head? = some .CT_SHORTINT → p.m_queue_shortint ≠ []) ∧
      (p.m_queue_types.head? = some .CT_USHORTINT → p.m_queue_shortint ≠ []) ∧
      (p.m_queue_types.head? = some .CT_INTEGER → p.m_queue_integer ≠ []) ∧
      (p.m_queue_types.head? = some .CT_UINTEGER → p.m_queue_integer ≠ []) ∧
      (p.m_queue_types.head? = some .CT_BIGINT → p.m_queue_bigint ≠ []) ∧
      (p.m_queue_types.head? = some .CT_UBIGINT → p.m_queue_bigint ≠ []) ∧
      (p.m_queue_types.head? = some .CT_FLOAT → p.m_queue_float ≠ []) ∧
      (p.m_queue_types.head? = some .CT_DOUBLE → p.m_queue_double ≠ []) ∧
      (p.m_queue_types.head? = some .CT_BOOL → p.m_queue_bool ≠ []) := by
  obtain ⟨calls, rfl⟩ := h
  have h0 : queue_lengths PlaceholderParser.empty := by
    simp [queue_lengths, PlaceholderParser.empty]
  have hq := foldl_queue_lengths calls _ h0
  obtain ⟨h1, h2, h3, h4, h5, h6, h7, h8⟩ := hq
  refine ⟨⟨h1, h2, h3, h4, h5, h6, h7, h8⟩, ?_, ?_, ?_, ?_, ?_, ?_, ?_, ?_, ?_, ?_, ?_, ?_⟩
  · exact front_tag_queue _ _ _ 0 h1
  · exact front_tag_queue _ _ _ _ h2
  · exact front_tag_queue _ _ _ _ (by rw [h2, Nat.add_comm])
  · exact front_tag_queue _ _ _ _ h3
  · exact front_tag_queue _ _ _ _ (by rw [h3, Nat.add_comm])
  · exact front_tag_queue _ _ _ _ h4
  · exact front_tag_queue _ _ _ _ (by rw [h4, Nat.add_comm])
  · exact front_tag_queue _ _ _ _ h5
  · exact front_tag_queue _ _ _ _ (by rw [h5, Nat.add_comm])
  · exact front_tag_queue _ _ _ 0 h6
  · exact front_tag_queue _ _ _ 0 h7
  · exact front_tag_queue _ _ _ 0 h8

/-- Three pushes and two parses. -/
theorem reachable_queue_lengths_witness :
    reachable ([PlaceholderCall.push (.tinyint (-1)), .push (.unsigned_tinyint 255),
        .push (.string (bytes "a")), .parse (.tinyint 0) true,
        .parse (.string []) false].foldl PlaceholderCall.run PlaceholderParser.empty) ∧
      queue_lengths ([PlaceholderCall.push (.tinyint (-1)), .push (.unsigned_tinyint 255),
        .push (.string (bytes "a")), .parse (.tinyint 0) true,
        .parse (.string []) false].foldl PlaceholderCall.run PlaceholderParser.empty) :=
  ⟨⟨_, rfl⟩, (reachable_queue_lengths _ ⟨_, rfl⟩).1⟩

/-- C40: the loop of `_unescape_into` gives the same result for every fuel that
covers the input (it ends); when it succeeds from index `i` the output is no
longer than the input from `i` on; an input without backslash is returned as it
is.  Every escape that is interpreted advances the index by 2 for 1 byte, by 4
for 1 byte, by 6 for at most 3 bytes or by 5 for 1 byte. -/
theorem unescape_into_never_longer (inp : Str) (i : Nat) :
    (∀ fuel, inp.length - i ≤ fuel →
        _unescape_into_loop inp fuel i [] = _unescape_into inp i) ∧
      (∀ out, _unescape_into inp i = (out, none) → out.length ≤ inp.length - i) ∧
      (92 ∉ inp → _unescape_into inp 0 = (inp, none)) ∧
      (∀ (out : Str) (n : Nat) (seq out1 : Str) (k : Nat), n ≠ 0 →
        _interpret_escape_into out n seq = .ok (out1, k) →
        ∃ emitted : Str, out1 = out ++ emitted ∧
          ((k + 1 = 2 ∧ emitted.length = 1) ∨ (k + 1 = 4 ∧ emitted.length = 1) ∨
            (k + 1 = 6 ∧ emitted.length ≤ 3) ∨ (k + 1 = 5 ∧ emitted.length = 1))) := by
  refine ⟨fun fuel hf => ?_, fun out h => unescape_into_length_le inp i out h,
    unescape_into_plain inp, ?_⟩
  · unfold _unescape_into
    exact unescape_loop_fuel inp _ _ _ _ hf (le_refl _)
  · intro out n seq out1 k hn h
    obtain ⟨emitted, he, hg⟩ := interpret_escape_groups out n seq out1 k hn h
    refine ⟨emitted, he, ?_⟩
    rcases hg with ⟨h1, h2⟩ | ⟨h1, _, h2⟩ | ⟨h1, _, h2⟩ | ⟨h1, _, h2⟩
    · exact Or.inl ⟨by omega, h2⟩
    · exact Or.inr (Or.inl ⟨by omega, h2⟩)
    · exact Or.inr (Or.inr (Or.inl ⟨by omega, h2⟩))
    · exact Or.inr (Or.inr (Or.inr ⟨by omega, h2⟩))

end nnwcli
